import Mathlib

/-!
Shallow embedding of the two-level tree tour representation
(`src/include/node.h`, `src/include/two_level_tree.h`, `src/src/two_level_tree.cpp`).

City nodes and parent records live in fixed arenas; C++ pointers into those
arenas are modelled as indices (a `Node*` is the index of the node in the
`_nodes` vector, i.e. its city slot; a `ParentNode*` is the index into
`_parent_nodes`).  Stateful C++ methods become functions `Tree → Tree`.
C++ `while` loops whose bound is not structural take an explicit fuel
argument; callers pass an arena size, which suffices for every state the
claims quantify over.
-/

namespace TLT

/-- Segment (city) node, mirroring `tsp::Node` in `node.h`. -/
structure Node where
  id : Int := 0
  city : Nat := 0
  prev : Nat := 0
  next : Nat := 0
  parent : Nat := 0
deriving Repr, DecidableEq, Inhabited

/-- Parent record, mirroring `tsp::ParentNode` in `node.h`. -/
structure ParentNode where
  reverse : Bool := false
  size : Int := 0
  id : Int := 0
  prev : Nat := 0
  next : Nat := 0
  segmentBeginNode : Nat := 0
  segmentEndNode : Nat := 0
deriving Repr, DecidableEq, Inhabited

/-- Direction argument of `split_and_merge` / `get_raw_tour`. -/
inductive Direction where
  | forward
  | backward
deriving Repr, DecidableEq, Inhabited

/-- The two-level tree state: the two arenas plus the scalar fields
(`_nodes`, `_parent_nodes`, `_n_cities`, `_origin_city`,
`_nominal_segment_length`). -/
structure Tree where
  nodes : List Node
  parents : List ParentNode
  nCities : Nat
  originCity : Nat
  nominalSegmentLength : Int
deriving Repr, DecidableEq, Inhabited

/-- Replace the element at index `i` by `f` of it (arena write through a
pointer). Out-of-range writes are dropped, as they cannot occur in the
modelled states. -/
def updNth {α : Type} (l : List α) (i : Nat) (f : α → α) : List α :=
  match l, i with
  | [], _ => []
  | x :: xs, 0 => f x :: xs
  | x :: xs, i + 1 => x :: updNth xs i f

/-- Dereference a `Node*` (read `_nodes[c]`). -/
def Tree.node (t : Tree) (c : Nat) : Node := t.nodes.getD c default

/-- Dereference a `ParentNode*` (read `_parent_nodes[p]`). -/
def Tree.par (t : Tree) (p : Nat) : ParentNode := t.parents.getD p default

/-- Write through a `Node*`. -/
def Tree.setNode (t : Tree) (c : Nat) (f : Node → Node) : Tree :=
  { t with nodes := updNth t.nodes c f }

/-- Write through a `ParentNode*`. -/
def Tree.setPar (t : Tree) (p : Nat) (f : ParentNode → ParentNode) : Tree :=
  { t with parents := updNth t.parents p f }

/-- Parent record of a node (`node->parent` dereferenced). -/
def Tree.parOf (t : Tree) (c : Nat) : ParentNode := t.par (t.node c).parent

/-- ParentNode::forward_end_node. -/
def ParentNode.forwardEndNode (p : ParentNode) : Nat :=
  if p.reverse then p.segmentBeginNode else p.segmentEndNode

/-- ParentNode::forward_begin_node. -/
def ParentNode.forwardBeginNode (p : ParentNode) : Nat :=
  if p.reverse then p.segmentEndNode else p.segmentBeginNode

/-- ParentNode::backward_begin_node. -/
def ParentNode.backwardBeginNode (p : ParentNode) : Nat :=
  if p.reverse then p.segmentBeginNode else p.segmentEndNode

/-- ParentNode::backward_end_node. -/
def ParentNode.backwardEndNode (p : ParentNode) : Nat :=
  if p.reverse then p.segmentEndNode else p.segmentBeginNode

/-- TwoLevelTree::get_next (node overload): the logical successor. -/
def getNext (t : Tree) (c : Nat) : Nat :=
  if (t.parOf c).reverse then (t.node c).prev else (t.node c).next

/-- TwoLevelTree::get_prev (node overload): the logical predecessor. -/
def getPrev (t : Tree) (c : Nat) : Nat :=
  if (t.parOf c).reverse then (t.node c).next else (t.node c).prev

/-- TwoLevelTree::get_next (city overload): `get_next(get_node(current))->city`. -/
def getNextCity (t : Tree) (c : Nat) : Nat := (t.node (getNext t c)).city

/-- TwoLevelTree::get_prev (city overload). -/
def getPrevCity (t : Tree) (c : Nat) : Nat := (t.node (getPrev t c)).city

/-- The constructor `TwoLevelTree(n_cities, origin_city)`: arenas of
`n_cities + origin_city` nodes and `⌊√n_cities⌋ + 1` parents,
`_nominal_segment_length = n_cities / n_segments()`. -/
def mkTree (nCities originCity : Nat) : Tree :=
  let nSeg := Nat.sqrt nCities + 1
  { nodes := List.replicate (nCities + originCity) default
    parents := List.replicate nSeg default
    nCities := nCities
    originCity := originCity
    nominalSegmentLength := ((nCities / nSeg : Nat) : Int) }

/-- TwoLevelTree::set_raw_tour: build parents and nodes from a permutation. -/
def setRawTour (t : Tree) (order : List Nat) : Tree :=
  let n := t.parents.length
  let segmentLength := t.nCities / n
  let firstCity := order.getD 0 0
  let lastCity := order.getD (order.length - 1) 0
  (List.range n).foldl
    (fun t currentSegment =>
      let iBegin := currentSegment * segmentLength
      let iEnd := if currentSegment = n - 1 then t.nCities else iBegin + segmentLength
      let t := t.setPar currentSegment (fun p =>
        { p with
          id := (currentSegment : Int)
          prev := if 0 < currentSegment then currentSegment - 1 else n - 1
          next := if currentSegment + 1 < n then currentSegment + 1 else 0
          reverse := false
          segmentBeginNode := order.getD iBegin 0
          segmentEndNode := order.getD (iEnd - 1) 0
          size := ((iEnd - iBegin : Nat) : Int) })
      (List.range' iBegin (iEnd - iBegin)).foldl
        (fun t i =>
          let city := order.getD i 0
          t.setNode city (fun nd =>
            { nd with
              city := city
              parent := currentSegment
              prev := if i = 0 then lastCity else order.getD (i - 1) 0
              next := if i + 1 = t.nCities then firstCity else order.getD (i + 1) 0
              id := ((i : Int) - (iBegin : Int)) })) t) t

/-- Walk of `get_raw_tour`: record `node->city`, then step logically. -/
def rawTourAux (t : Tree) (dir : Direction) : Nat → Nat → List Nat
  | _, 0 => []
  | c, k + 1 =>
    (t.node c).city ::
      rawTourAux t dir (if dir = Direction.forward then getNext t c else getPrev t c) k

/-- TwoLevelTree::get_raw_tour from a (valid) start city. -/
def getRawTour (t : Tree) (startCity : Nat) (dir : Direction := Direction.forward) :
    List Nat :=
  rawTourAux t dir startCity t.nCities

/-- Loop of `actual_segment_sizes` (do-while over the parent cycle). -/
def segmentSizesAux (t : Tree) (startP : Nat) : Nat → Nat → List Int
  | _, 0 => []
  | p, k + 1 =>
    (t.par p).size ::
      (if (t.par p).next = startP then [] else segmentSizesAux t startP ((t.par p).next) k)

/-- TwoLevelTree::actual_segment_sizes for a valid start city. -/
def actualSegmentSizes (t : Tree) (startCity : Nat) : List Int :=
  segmentSizesAux t ((t.node startCity).parent) ((t.node startCity).parent) t.parents.length

/-- Helper `can_reach_in_current_segment` inside `is_between`. -/
def canReachInCurrentSegment (t : Tree) (u v : Nat) : Bool :=
  if (t.parOf u).reverse then decide ((t.node v).id < (t.node u).id)
  else decide ((t.node u).id < (t.node v).id)

/-- TwoLevelTree::is_between (node overload). -/
def isBetween (t : Tree) (a b c : Nat) : Bool :=
  let na := t.node a
  let nb := t.node b
  let nc := t.node c
  if na.parent = nb.parent ∧ nb.parent = nc.parent then
    if (t.par na.parent).reverse then
      if nc.id < na.id then decide (nb.id < na.id) && decide (nc.id < nb.id)
      else decide (nb.id < na.id) || decide (nc.id < nb.id)
    else
      if na.id < nc.id then decide (na.id < nb.id) && decide (nb.id < nc.id)
      else decide (na.id < nb.id) || decide (nb.id < nc.id)
  else if na.parent ≠ nb.parent ∧ na.parent ≠ nc.parent ∧ nb.parent ≠ nc.parent then
    if (t.par na.parent).id < (t.par nc.parent).id then
      decide ((t.par na.parent).id < (t.par nb.parent).id) &&
        decide ((t.par nb.parent).id < (t.par nc.parent).id)
    else
      decide ((t.par na.parent).id < (t.par nb.parent).id) ||
        decide ((t.par nb.parent).id < (t.par nc.parent).id)
  else if na.parent = nb.parent then
    canReachInCurrentSegment t a b
  else if nb.parent = nc.parent then
    if (t.par nb.parent).reverse then decide ((t.node c).id < (t.node b).id)
    else decide ((t.node b).id < (t.node c).id)
  else
    !(canReachInCurrentSegment t a c)

/-- TwoLevelTree::is_path_in_single_segment. -/
def isPathInSingleSegment (t : Tree) (a b : Nat) : Bool :=
  if (t.node a).parent = (t.node b).parent then
    if (t.parOf a).reverse then decide ((t.node b).id < (t.node a).id)
    else decide ((t.node a).id < (t.node b).id)
  else false

/-- Absolute value of an int, as in `std::abs`. -/
def iabs (x : Int) : Int := (x.natAbs : Int)

/-- TwoLevelTree::count_n_segments. -/
def countNSegments (t : Tree) (a b : Nat) : Int :=
  let n : Int := (t.parents.length : Int)
  let apid := (t.parOf a).id
  let bpid := (t.parOf b).id
  if apid = bpid then
    if (!(t.parOf a).reverse && decide ((t.node a).id < (t.node b).id)) ||
        ((t.parOf a).reverse && decide ((t.node b).id < (t.node a).id)) then 1
    else n
  else if apid < bpid then bpid - apid + 1
  else bpid + n - apid + 1

/-- TwoLevelTree::is_approximately_shorter. -/
def isApproximatelyShorter (t : Tree) (a b c d : Nat) : Bool :=
  let nab := countNSegments t a b
  let ncd := countNSegments t c d
  if nab ≠ ncd then decide (nab < ncd)
  else
    let ea := iabs ((t.node a).id - (t.node ((t.parOf a).forwardBeginNode)).id)
    let eb := iabs ((t.node b).id - (t.node ((t.parOf b).forwardEndNode)).id)
    let ec := iabs ((t.node c).id - (t.node ((t.parOf c).forwardBeginNode)).id)
    let ed := iabs ((t.node d).id - (t.node ((t.parOf d).forwardEndNode)).id)
    decide (ec + ed < ea + eb)

/-- TwoLevelTree::has_edge (city overload). -/
def hasEdge (t : Tree) (c1 c2 : Nat) : Bool :=
  decide ((t.node (getNext t c1)).city = c2) || decide ((t.node (getPrev t c1)).city = c2)

/-- TwoLevelTree::turn_forward. -/
def turnForward (t : Tree) (c1 c2 : Nat) : Nat × Nat :=
  if getNextCity t c1 = c2 then (c1, c2) else (c2, c1)

/-- TwoLevelTree::connect_arc_forward. -/
def connectArcForward (t : Tree) (p q : Nat) : Tree :=
  let t1 :=
    if (t.parOf p).reverse then t.setNode p (fun nd => { nd with prev := q })
    else t.setNode p (fun nd => { nd with next := q })
  if (t1.parOf q).reverse then t1.setNode q (fun nd => { nd with next := p })
  else t1.setNode q (fun nd => { nd with prev := p })

/-- While-loop of `relabel_id`: while `a ≠ b`, set `a->next->id = a->id + 1`
and advance. -/
def relabelIdAux (t : Tree) (b : Nat) : Nat → Nat → Tree
  | _, 0 => t
  | a, fuel + 1 =>
    if a = b then t
    else
      let nxt := (t.node a).next
      let t' := t.setNode nxt (fun nd => { nd with id := (t.node a).id + 1 })
      relabelIdAux t' b nxt fuel

/-- TwoLevelTree::relabel_id. -/
def relabelId (t : Tree) (a b : Nat) (aId : Int) : Tree :=
  relabelIdAux (t.setNode a (fun nd => { nd with id := aId })) b a (t.nodes.length + 1)

/-- Collection loop of `split_and_merge`: gather nodes (walking logically)
while they stay under the given parent. -/
def collectWhileSameParent (t : Tree) (parent : Nat) (forward : Bool) :
    Nat → Nat → List Nat
  | _, 0 => []
  | p, fuel + 1 =>
    if (t.node p).parent = parent then
      p :: collectWhileSameParent t parent forward (if forward then getNext t p else getPrev t p) fuel
    else []

/-- Merge loop of `split_and_merge` in the forward branch: pop collected
nodes from the back, rebind the parent, splice before `q`, relabel. -/
def mergeLoopForward (t : Tree) (neighborParent : Nat) (deltaId : Int) :
    Nat → List Nat → Tree × Nat
  | q, [] => (t, q)
  | q, p :: rest =>
    let t := t.setNode p (fun nd => { nd with parent := neighborParent })
    let t := connectArcForward t p q
    let t := t.setNode p (fun nd => { nd with id := (t.node q).id + deltaId })
    mergeLoopForward t neighborParent deltaId p rest

/-- Merge loop of `split_and_merge` in the backward branch: splice after `q`. -/
def mergeLoopBackward (t : Tree) (neighborParent : Nat) (deltaId : Int) :
    Nat → List Nat → Tree × Nat
  | q, [] => (t, q)
  | q, p :: rest =>
    let t := t.setNode p (fun nd => { nd with parent := neighborParent })
    let t := connectArcForward t q p
    let t := t.setNode p (fun nd => { nd with id := (t.node q).id + deltaId })
    mergeLoopBackward t neighborParent deltaId p rest

/-- TwoLevelTree::split_and_merge. -/
def splitAndMerge (t : Tree) (s : Nat) (includeSelf : Bool) (dir : Direction) : Tree :=
  let parent := (t.node s).parent
  let neighborParent := if dir = Direction.forward then (t.par parent).next else (t.par parent).prev
  let collected : List Nat :=
    (if includeSelf then [s] else []) ++
      (if dir = Direction.forward then
        collectWhileSameParent t parent true (getNext t s) (t.nodes.length + 1)
      else
        collectWhileSameParent t parent false (getPrev t s) (t.nodes.length + 1))
  let boundary :=
    if dir = Direction.forward then (if includeSelf then getPrev t s else s)
    else (if includeSelf then getNext t s else s)
  if collected.isEmpty then t
  else
    let t := t.setPar neighborParent (fun p => { p with size := p.size + (collected.length : Int) })
    let t := t.setPar parent (fun p => { p with size := p.size - (collected.length : Int) })
    if dir = Direction.forward then
      let q0 :=
        if (t.par neighborParent).reverse then (t.par neighborParent).segmentEndNode
        else (t.par neighborParent).segmentBeginNode
      let deltaId : Int := if (t.par neighborParent).reverse then 1 else -1
      let tq := mergeLoopForward t neighborParent deltaId q0 collected.reverse
      let t := tq.1
      let q := tq.2
      let t :=
        if (t.par neighborParent).reverse then
          t.setPar neighborParent (fun p => { p with segmentEndNode := q })
        else t.setPar neighborParent (fun p => { p with segmentBeginNode := q })
      let t := connectArcForward t boundary q
      if (t.par parent).reverse then t.setPar parent (fun p => { p with segmentBeginNode := boundary })
      else t.setPar parent (fun p => { p with segmentEndNode := boundary })
    else
      let q0 :=
        if (t.par neighborParent).reverse then (t.par neighborParent).segmentBeginNode
        else (t.par neighborParent).segmentEndNode
      let deltaId : Int := if (t.par neighborParent).reverse then -1 else 1
      let tq := mergeLoopBackward t neighborParent deltaId q0 collected.reverse
      let t := tq.1
      let q := tq.2
      let t :=
        if (t.par neighborParent).reverse then
          t.setPar neighborParent (fun p => { p with segmentBeginNode := q })
        else t.setPar neighborParent (fun p => { p with segmentEndNode := q })
      let t := connectArcForward t q boundary
      if (t.par parent).reverse then t.setPar parent (fun p => { p with segmentEndNode := boundary })
      else t.setPar parent (fun p => { p with segmentBeginNode := boundary })

/-- TwoLevelTree::reverse_complete_segment: toggle the reversal bit and
repair the four physical links to the neighbor segments. -/
def reverseCompleteSegment (t : Tree) (a b : Nat) : Tree :=
  let parent := (t.node a).parent
  let prevA := (t.par ((t.par parent).prev)).forwardEndNode
  let nextB := (t.par ((t.par ((t.node b).parent)).next)).forwardBeginNode
  let t := t.setPar parent (fun p => { p with reverse := !p.reverse })
  let t :=
    if (t.parOf prevA).reverse then t.setNode prevA (fun nd => { nd with prev := b })
    else t.setNode prevA (fun nd => { nd with next := b })
  let t :=
    if (t.par parent).reverse then t.setNode a (fun nd => { nd with prev := nextB })
    else t.setNode a (fun nd => { nd with next := nextB })
  let t :=
    if (t.parOf nextB).reverse then t.setNode nextB (fun nd => { nd with next := a })
    else t.setNode nextB (fun nd => { nd with prev := a })
  if (t.par parent).reverse then t.setNode b (fun nd => { nd with next := prevA })
  else t.setNode b (fun nd => { nd with prev := prevA })

/-- Collection loop of `reverse_partial_segment`: interior nodes strictly
between `a` and `b` along the logical forward direction. -/
def collectNextUntil (t : Tree) (b : Nat) : Nat → Nat → List Nat
  | _, 0 => []
  | p, fuel + 1 => if p = b then [] else p :: collectNextUntil t b (getNext t p) fuel

/-- Reconnection loop shared by `reverse_partial_segment`: pop nodes and
connect consecutive pairs forward. -/
def connectRun (t : Tree) : Nat → List Nat → Tree
  | _, [] => t
  | p, q :: rest => connectRun (connectArcForward t p q) q rest

/-- TwoLevelTree::reverse_partial_segment. -/
def reversePartialSegment (t : Tree) (a b : Nat) : Tree :=
  let parent := (t.node a).parent
  let prevA := getPrev t a
  let nextB := getNext t b
  let len : Int := iabs ((t.node a).id - (t.node b).id) + 1
  let temp : List Nat :=
    nextB :: a :: (collectNextUntil t b (getNext t a) (t.nodes.length + 1) ++ [b])
  let t := connectRun t prevA temp.reverse
  let t :=
    if a = (t.par parent).segmentBeginNode then
      t.setPar parent (fun p => { p with segmentBeginNode := b })
    else if a = (t.par parent).segmentEndNode then
      t.setPar parent (fun p => { p with segmentEndNode := b })
    else if b = (t.par parent).segmentBeginNode then
      t.setPar parent (fun p => { p with segmentBeginNode := a })
    else if b = (t.par parent).segmentEndNode then
      t.setPar parent (fun p => { p with segmentEndNode := a })
    else t
  if (t.par parent).reverse then
    let aId :=
      if a = (t.par parent).segmentBeginNode then (t.node ((t.node b).next)).id - len
      else (t.node ((t.node a).prev)).id + 1
    relabelId t a b aId
  else
    let bId :=
      if b = (t.par parent).segmentBeginNode then (t.node ((t.node a).next)).id - len
      else (t.node ((t.node b).prev)).id + 1
    relabelId t b a bId

/-- TwoLevelTree::reverse_segment: dispatch between the complete, partial
and split-then-complete cases. -/
def reverseSegment (t : Tree) (a b : Nat) : Tree :=
  let parent := (t.node a).parent
  if (a = (t.par parent).segmentBeginNode ∧ b = (t.par parent).segmentEndNode) ∨
      (b = (t.par parent).segmentBeginNode ∧ a = (t.par parent).segmentEndNode) then
    reverseCompleteSegment t a b
  else
    let pathLength := iabs ((t.node a).id - (t.node b).id) + 1
    if pathLength ≤ t.nominalSegmentLength * 3 / 4 then
      reversePartialSegment t a b
    else
      let t := splitAndMerge t a false Direction.backward
      let t := splitAndMerge t b false Direction.forward
      reverseCompleteSegment t a b

/-- Lambda `split_and_merge_a` inside `reverse`. -/
def reverseAdjustA (t : Tree) (a : Nat) : Tree :=
  if a = (t.parOf a).forwardBeginNode then t
  else
    let aForwardEnd := (t.parOf a).forwardEndNode
    let aForwardHalfLength := iabs ((t.node aForwardEnd).id - (t.node a).id) + 1
    if aForwardHalfLength ≤ (t.parOf a).size / 2 then splitAndMerge t a true Direction.forward
    else splitAndMerge t a false Direction.backward

/-- Lambda `split_and_merge_b` inside `reverse`. -/
def reverseAdjustB (t : Tree) (a b : Nat) : Tree :=
  if b = (t.parOf b).backwardBeginNode then t
  else if (t.parOf b).next = (t.node a).parent then splitAndMerge t b true Direction.backward
  else
    let bBackwardEnd := (t.parOf b).backwardEndNode
    let bBackwardHalfLength := iabs ((t.node bBackwardEnd).id - (t.node b).id) + 1
    if bBackwardHalfLength ≤ (t.parOf b).size / 2 then splitAndMerge t b true Direction.backward
    else splitAndMerge t b false Direction.forward

/-- Toggle loop of the multi-segment branch of `reverse`: walk from
`a->parent` to `s2`, flipping each reversal bit and recording the parents. -/
def toggleLoop (t : Tree) (s2 : Nat) : Nat → Nat → List Nat → Tree × List Nat
  | _, 0, acc => (t, acc)
  | p, fuel + 1, acc =>
    if p = s2 then (t, acc)
    else
      let t := t.setPar p (fun pr => { pr with reverse := !pr.reverse })
      toggleLoop t s2 ((t.par p).next) fuel (acc ++ [p])

/-- Rewire loop of the multi-segment branch of `reverse`: pop recorded
parents from the back, relink them after `p`, renumber, reconnect ends. -/
def rewireLoop (t : Tree) : Nat → List Nat → Tree
  | _, [] => t
  | p, q :: rest =>
    let t := t.setPar p (fun pr => { pr with next := q })
    let t := t.setPar q (fun pr => { pr with prev := p })
    let t := t.setPar q (fun pr => { pr with id := ((t.par p).id + 1) % (t.parents.length : Int) })
    let pLast := (t.par p).forwardEndNode
    let qFirst := (t.par q).forwardBeginNode
    let t := connectArcForward t pLast qFirst
    rewireLoop t q rest

/-- Multi-segment branch of `reverse` (part (a) and (b) of the comment). -/
def reverseMultiSegment (t : Tree) (a b : Nat) : Tree :=
  let s1 := (t.parOf a).prev
  let s2 := (t.parOf b).next
  let tAcc := toggleLoop t s2 ((t.node a).parent) (t.parents.length + 1) [s2]
  let t := tAcc.1
  let temp := tAcc.2
  rewireLoop t s1 temp.reverse

/-- TwoLevelTree::reverse: reverse the forward path from `a` to `b`. -/
def reverse (t : Tree) (a b : Nat) : Tree :=
  if a = b ∨ getNext t b = a then t
  else if isPathInSingleSegment t a b then reverseSegment t a b
  else
    let t := reverseAdjustA t a
    if isPathInSingleSegment t a b then reverseSegment t a b
    else
      let t := reverseAdjustB t a b
      if isPathInSingleSegment t a b then reverseSegment t a b
      else reverseMultiSegment t a b

/-- TwoLevelTree::flip (node overload). -/
def flip (t : Tree) (a b c d : Nat) : Tree :=
  let isForward := getNext t a = b
  if b = c ∨ d = a then t
  else if isApproximatelyShorter t b c d a then
    if isForward then reverse t b c else reverse t c b
  else
    if isForward then reverse t d a else reverse t a d

/-- Lambda `sam` inside `double_bridge_move`. -/
def dbmAdjust (t : Tree) (p : Nat) : Tree :=
  if (t.node p).parent = (t.node (getNext t p)).parent then
    splitAndMerge t p false Direction.forward
  else t

/-- Lambda `connect_forward` inside `double_bridge_move`. -/
def dbmConnectForward (t : Tree) (p q : Nat) : Tree :=
  let t := connectArcForward t p q
  let t := t.setPar ((t.node p).parent) (fun pr => { pr with next := (t.node q).parent })
  t.setPar ((t.node q).parent) (fun pr => { pr with prev := (t.node p).parent })

/-- Renumbering loop at the end of `double_bridge_move` (do-while from the
head parent, numbering 0, 1, 2, …). -/
def reIdLoop (t : Tree) : Nat → Int → Nat → Tree
  | _, _, 0 => t
  | p, i, fuel + 1 =>
    let t := t.setPar p (fun pr => { pr with id := i })
    let nxt := (t.par p).next
    if nxt = 0 then t else reIdLoop t nxt (i + 1) fuel

/-- TwoLevelTree::double_bridge_move (node overload). -/
def doubleBridgeMove (t : Tree) (a b c d : Nat) : Tree :=
  let an := getNext t a
  let bn := getNext t b
  let cn := getNext t c
  let dn := getNext t d
  let t := dbmAdjust t a
  let t := dbmAdjust t b
  let t := dbmAdjust t c
  let t := dbmAdjust t d
  let t := dbmConnectForward t a cn
  let t := dbmConnectForward t d bn
  let t := dbmConnectForward t c an
  let t := dbmConnectForward t b dn
  reIdLoop t 0 0 (t.parents.length + 1)

/-- A public mutating operation, for stating invariants that hold after any
sequence of mutations. -/
inductive Op where
  | rev (a b : Nat)
  | flp (a b c d : Nat)
  | dbm (a b c d : Nat)
  | snm (s : Nat) (includeSelf : Bool) (dir : Direction)
deriving Repr, DecidableEq

/-- Apply one public mutating operation. -/
def applyOp (t : Tree) : Op → Tree
  | Op.rev a b => reverse t a b
  | Op.flp a b c d => flip t a b c d
  | Op.dbm a b c d => doubleBridgeMove t a b c d
  | Op.snm s i d => splitAndMerge t s i d

/-- Apply a sequence of public mutating operations. -/
def applyOps (t : Tree) (ops : List Op) : Tree :=
  ops.foldl applyOp t

end TLT

namespace TLT

/-! Basic lemmas about arena reads and writes. -/

@[simp]
theorem updNth_nil {α : Type} (i : Nat) (f : α → α) : updNth ([] : List α) i f = [] := rfl

@[simp]
theorem updNth_length {α : Type} (l : List α) (i : Nat) (f : α → α) :
    (updNth l i f).length = l.length := by
  induction l generalizing i with
  | nil => rfl
  | cons x xs ih =>
    cases i with
    | zero => rfl
    | succ j => simp [updNth, ih]

theorem getD_updNth_self {α : Type} {l : List α} {i : Nat} (f : α → α) (d : α)
    (h : i < l.length) : (updNth l i f).getD i d = f (l.getD i d) := by
  induction l generalizing i with
  | nil => simp at h
  | cons x xs ih =>
    cases i with
    | zero => rfl
    | succ j =>
      simp only [updNth, List.getD_cons_succ]
      exact ih (by simpa using h)

theorem getD_updNth_ne {α : Type} {l : List α} {i j : Nat} (f : α → α) (d : α)
    (h : i ≠ j) : (updNth l i f).getD j d = l.getD j d := by
  induction l generalizing i j with
  | nil => rfl
  | cons x xs ih =>
    cases i with
    | zero =>
      cases j with
      | zero => exact absurd rfl h
      | succ j' => rfl
    | succ i' =>
      cases j with
      | zero => rfl
      | succ j' =>
        simp only [updNth, List.getD_cons_succ]
        exact ih fun hh => h (by simp [hh])

theorem updNth_of_length_le {α : Type} {l : List α} {i : Nat} (f : α → α)
    (h : l.length ≤ i) : updNth l i f = l := by
  induction l generalizing i with
  | nil => rfl
  | cons x xs ih =>
    cases i with
    | zero => simp at h
    | succ j =>
      simp only [updNth, List.cons.injEq, true_and]
      exact ih (by simpa using h)

/-! Pointwise behavior of the tree write helpers. -/

@[simp]
theorem setNode_parents (t : Tree) (c : Nat) (f : Node → Node) :
    (t.setNode c f).parents = t.parents := rfl

@[simp]
theorem setNode_nCities (t : Tree) (c : Nat) (f : Node → Node) :
    (t.setNode c f).nCities = t.nCities := rfl

@[simp]
theorem setNode_originCity (t : Tree) (c : Nat) (f : Node → Node) :
    (t.setNode c f).originCity = t.originCity := rfl

@[simp]
theorem setNode_nominal (t : Tree) (c : Nat) (f : Node → Node) :
    (t.setNode c f).nominalSegmentLength = t.nominalSegmentLength := rfl

@[simp]
theorem setNode_nodes_length (t : Tree) (c : Nat) (f : Node → Node) :
    (t.setNode c f).nodes.length = t.nodes.length := by
  simp [Tree.setNode]

@[simp]
theorem setPar_nodes (t : Tree) (p : Nat) (f : ParentNode → ParentNode) :
    (t.setPar p f).nodes = t.nodes := rfl

@[simp]
theorem setPar_nCities (t : Tree) (p : Nat) (f : ParentNode → ParentNode) :
    (t.setPar p f).nCities = t.nCities := rfl

@[simp]
theorem setPar_originCity (t : Tree) (p : Nat) (f : ParentNode → ParentNode) :
    (t.setPar p f).originCity = t.originCity := rfl

@[simp]
theorem setPar_nominal (t : Tree) (p : Nat) (f : ParentNode → ParentNode) :
    (t.setPar p f).nominalSegmentLength = t.nominalSegmentLength := rfl

@[simp]
theorem setPar_parents_length (t : Tree) (p : Nat) (f : ParentNode → ParentNode) :
    (t.setPar p f).parents.length = t.parents.length := by
  simp [Tree.setPar]

theorem node_setNode_self {t : Tree} {c : Nat} (f : Node → Node) (h : c < t.nodes.length) :
    (t.setNode c f).node c = f (t.node c) :=
  getD_updNth_self f default h

theorem node_setNode_ne {t : Tree} {c c' : Nat} (f : Node → Node) (h : c ≠ c') :
    (t.setNode c f).node c' = t.node c' :=
  getD_updNth_ne f default h

@[simp]
theorem node_setPar (t : Tree) (p : Nat) (f : ParentNode → ParentNode) (c : Nat) :
    (t.setPar p f).node c = t.node c := rfl

@[simp]
theorem par_setNode (t : Tree) (c : Nat) (f : Node → Node) (p : Nat) :
    (t.setNode c f).par p = t.par p := rfl

theorem par_setPar_self {t : Tree} {p : Nat} (f : ParentNode → ParentNode)
    (h : p < t.parents.length) : (t.setPar p f).par p = f (t.par p) :=
  getD_updNth_self f default h

theorem par_setPar_ne {t : Tree} {p p' : Nat} (f : ParentNode → ParentNode) (h : p ≠ p') :
    (t.setPar p f).par p' = t.par p' :=
  getD_updNth_ne f default h

end TLT

namespace TLT

/-!
Abstract model of a valid two-level tree state.

A `SegM` describes one segment: its parent slot, its reversal bit, the
local ID of its physical begin node, and its cities in physical `next`
order.  A `Model` lists the segments in forward-tour order (starting from
an arbitrary segment).  `Coherent t M` pins every field of `t` that the
operations read, and is the formalization of the spec's data-model
invariants (section 3 of the spec); `M.tour` is the encoded forward tour.
-/

/-- Abstract segment: parent slot, reversal bit, local ID of the physical
begin node, cities in physical `next` order (begin to end). -/
structure SegM where
  pIdx : Nat
  rev : Bool
  base : Int
  cities : List Nat
deriving Repr, DecidableEq, Inhabited

/-- Cities of a segment in logical forward order. -/
def SegM.fwd (s : SegM) : List Nat := if s.rev then s.cities.reverse else s.cities

/-- Logical forward-begin node of a segment. -/
def SegM.fb (s : SegM) : Nat := s.fwd.headD 0

/-- Logical forward-end node of a segment. -/
def SegM.fe (s : SegM) : Nat := s.fwd.getLastD 0

/-- Abstract tree state: the segments in forward tour order. -/
structure Model where
  segs : List SegM
deriving Repr, DecidableEq, Inhabited

/-- The encoded forward tour of a model. -/
def Model.tour (M : Model) : List Nat := M.segs.flatMap SegM.fwd

/-- Segment read off a model by index. -/
def Model.seg (M : Model) (j : Nat) : SegM := M.segs.getD j default

/-- Per-segment node coherence: the fields of each city node of the
segment, and the physical links inside the segment. -/
def SegCohNodes (t : Tree) (s : SegM) : Prop :=
  s.cities ≠ [] ∧
  (∀ m < s.cities.length,
    s.cities.getD m 0 < t.nodes.length ∧
    (t.node (s.cities.getD m 0)).city = s.cities.getD m 0 ∧
    (t.node (s.cities.getD m 0)).parent = s.pIdx ∧
    (t.node (s.cities.getD m 0)).id = s.base + m) ∧
  (∀ m, m + 1 < s.cities.length →
    (t.node (s.cities.getD m 0)).next = s.cities.getD (m + 1) 0 ∧
    (t.node (s.cities.getD (m + 1) 0)).prev = s.cities.getD m 0)

/-- Per-segment parent-record coherence. -/
def SegCohPar (t : Tree) (s : SegM) : Prop :=
  s.pIdx < t.parents.length ∧
  (t.par s.pIdx).reverse = s.rev ∧
  (t.par s.pIdx).size = (s.cities.length : Int) ∧
  (t.par s.pIdx).segmentBeginNode = s.cities.headD 0 ∧
  (t.par s.pIdx).segmentEndNode = s.cities.getLastD 0

/-- Coherence of the junction between a segment and its forward successor:
the two boundary physical links, the parent-list links, and the parent-ID
step. -/
def BoundaryCoh (t : Tree) (s s' : SegM) : Prop :=
  (if s.rev then (t.node s.fe).prev else (t.node s.fe).next) = s'.fb ∧
  (if s'.rev then (t.node s'.fb).next else (t.node s'.fb).prev) = s.fe ∧
  (t.par s.pIdx).next = s'.pIdx ∧
  (t.par s'.pIdx).prev = s.pIdx ∧
  (t.par s'.pIdx).id = ((t.par s.pIdx).id + 1) % (t.parents.length : Int)

/-- Validity of a tree `t` as described by a model `M`: the spec's
data-model invariants. -/
def Coherent (t : Tree) (M : Model) : Prop :=
  2 ≤ M.segs.length ∧
  M.segs.length = t.parents.length ∧
  M.tour.length = t.nCities ∧
  M.tour.Nodup ∧
  (M.segs.map SegM.pIdx).Nodup ∧
  (∀ j < M.segs.length,
    SegCohNodes t (M.seg j) ∧ SegCohPar t (M.seg j) ∧
    BoundaryCoh t (M.seg j) (M.seg ((j + 1) % M.segs.length)))

end TLT

namespace TLT

/-! Consequences of coherence: the logical forward walk. -/

theorem SegM.fwd_length (s : SegM) : s.fwd.length = s.cities.length := by
  unfold SegM.fwd; split <;> simp

theorem SegM.fwd_ne_nil {s : SegM} (h : s.cities ≠ []) : s.fwd ≠ [] := by
  unfold SegM.fwd; split <;> simpa

theorem SegM.fwd_getD {s : SegM} {i : Nat} (h : i < s.cities.length) :
    s.fwd.getD i 0 =
      s.cities.getD (if s.rev then s.cities.length - 1 - i else i) 0 := by
  unfold SegM.fwd
  cases hrev : s.rev with
  | false => simp
  | true =>
    simp only [if_pos, List.getD, List.get?_eq_getElem?]
    rw [List.getElem?_reverse (by simpa using h)]

theorem SegM.fb_eq (s : SegM) (h : s.cities ≠ []) :
    s.fb = (if s.rev then s.cities.getLastD 0 else s.cities.headD 0) := by
  unfold SegM.fb SegM.fwd
  cases hrev : s.rev with
  | false => simp
  | true =>
    simp only [if_pos]
    rw [List.headD_eq_head?, List.head?_reverse, List.getLastD_eq_getLast?]

theorem SegM.fe_eq (s : SegM) (h : s.cities ≠ []) :
    s.fe = (if s.rev then s.cities.headD 0 else s.cities.getLastD 0) := by
  unfold SegM.fe SegM.fwd
  cases hrev : s.rev with
  | false => simp
  | true =>
    simp only [if_pos]
    rw [List.getLastD_eq_getLast?, List.getLast?_reverse, List.headD_eq_head?]

theorem SegM.fb_eq_fwd_getD (s : SegM) (h : s.cities ≠ []) :
    s.fb = s.fwd.getD 0 0 := by
  have hne : s.fwd ≠ [] := s.fwd_ne_nil h
  unfold SegM.fb
  rcases hf : s.fwd with _ | ⟨x, xs⟩
  · exact absurd hf hne
  · simp

theorem SegM.fe_eq_fwd_getD (s : SegM) (h : s.cities ≠ []) :
    s.fe = s.fwd.getD (s.fwd.length - 1) 0 := by
  have hne : s.fwd ≠ [] := s.fwd_ne_nil h
  unfold SegM.fe
  rw [List.getLastD_eq_getLast?, List.getLast?_eq_get? , List.getD]

end TLT

namespace TLT

theorem headD_eq_getD {α : Type} [Inhabited α] (l : List α) (d : α) :
    l.headD d = l.getD 0 d := by cases l <;> rfl

theorem getLastD_eq_getD {α : Type} [Inhabited α] (l : List α) (d : α) :
    l.getLastD d = l.getD (l.length - 1) d := by
  rw [List.getLastD_eq_getLast?, List.getLast?_eq_get? , List.getD]

/-- Accessors for the components of `Coherent`. -/
theorem Coherent.two_le {t : Tree} {M : Model} (h : Coherent t M) : 2 ≤ M.segs.length :=
  h.1

theorem Coherent.len_parents {t : Tree} {M : Model} (h : Coherent t M) :
    M.segs.length = t.parents.length := h.2.1

theorem Coherent.tour_len {t : Tree} {M : Model} (h : Coherent t M) :
    M.tour.length = t.nCities := h.2.2.1

theorem Coherent.tour_nodup {t : Tree} {M : Model} (h : Coherent t M) :
    M.tour.Nodup := h.2.2.2.1

theorem Coherent.pIdx_nodup {t : Tree} {M : Model} (h : Coherent t M) :
    (M.segs.map SegM.pIdx).Nodup := h.2.2.2.2.1

theorem Coherent.segNodes {t : Tree} {M : Model} (h : Coherent t M) {j : Nat}
    (hj : j < M.segs.length) : SegCohNodes t (M.seg j) := (h.2.2.2.2.2 j hj).1

theorem Coherent.segPar {t : Tree} {M : Model} (h : Coherent t M) {j : Nat}
    (hj : j < M.segs.length) : SegCohPar t (M.seg j) := (h.2.2.2.2.2 j hj).2.1

theorem Coherent.boundary {t : Tree} {M : Model} (h : Coherent t M) {j : Nat}
    (hj : j < M.segs.length) :
    BoundaryCoh t (M.seg j) (M.seg ((j + 1) % M.segs.length)) := (h.2.2.2.2.2 j hj).2.2

/-- Forward-chain property of a list of cities: each element steps to the
next one by `getNext`. -/
def NextChain (t : Tree) (l : List Nat) : Prop :=
  ∀ i, i + 1 < l.length → getNext t (l.getD i 0) = l.getD (i + 1) 0

theorem nextChain_nil (t : Tree) : NextChain t [] := by
  intro i hi; simp at hi

theorem nextChain_append {t : Tree} {l l' : List Nat} (h1 : NextChain t l)
    (h2 : NextChain t l')
    (hlink : l' ≠ [] → getNext t (l.getLastD 0) = l'.headD 0) (hl : l ≠ []) :
    NextChain t (l ++ l') := by
  intro i hi
  rcases lt_trichotomy (i + 1) l.length with hcase | hcase | hcase
  · rw [List.getD_append _ _ _ _ (by omega), List.getD_append _ _ _ _ hcase]
    exact h1 i hcase
  · have hi' : i < l.length := by omega
    rw [List.getD_append _ _ _ _ hi']
    have hl' : l' ≠ [] := by
      intro hnil
      simp [hnil] at hi
      omega
    rw [List.getD_append_right _ _ _ _ (by omega)]
    have : i = l.length - 1 := by omega
    subst this
    have hpos : 0 < l.length := List.length_pos.2 hl
    have h0 : l.length - 1 + 1 - l.length = 0 := by omega
    rw [h0, ← headD_eq_getD, ← getLastD_eq_getD]
    exact hlink hl'
  · have hi1 : l.length ≤ i := by omega
    rw [List.getD_append_right _ _ _ _ hi1, List.getD_append_right _ _ _ _ (by omega)]
    have harith : i + 1 - l.length = i - l.length + 1 := by omega
    rw [harith]
    apply h2
    have := List.length_append l l' ▸ hi
    omega

end TLT

namespace TLT

/-- Fields of a node located through the logical forward list of a segment. -/
theorem fwd_node_facts {t : Tree} {s : SegM} (hN : SegCohNodes t s)
    {i : Nat} (hi : i < s.fwd.length) :
    (t.node (s.fwd.getD i 0)).parent = s.pIdx ∧
    (t.node (s.fwd.getD i 0)).city = s.fwd.getD i 0 ∧
    (t.node (s.fwd.getD i 0)).id =
      s.base + ((if s.rev then s.cities.length - 1 - i else i : Nat) : Int) ∧
    s.fwd.getD i 0 < t.nodes.length := by
  have hi' : i < s.cities.length := s.fwd_length ▸ hi
  have hphys : (if s.rev then s.cities.length - 1 - i else i) < s.cities.length := by
    split <;> omega
  have hfacts := hN.2.1 _ hphys
  rw [SegM.fwd_getD hi']
  exact ⟨hfacts.2.2.1, hfacts.2.1, hfacts.2.2.2, hfacts.1⟩

/-- The logical forward list of a segment is a `getNext` chain. -/
theorem segChain {t : Tree} {s : SegM} (hN : SegCohNodes t s) (hP : SegCohPar t s) :
    NextChain t s.fwd := by
  intro i hi
  have hlen : s.fwd.length = s.cities.length := s.fwd_length
  have hi1 : i < s.fwd.length := by omega
  have hpar := (fwd_node_facts hN hi1).1
  unfold getNext Tree.parOf
  rw [hpar, hP.2.1]
  rw [SegM.fwd_getD (by omega : i < s.cities.length),
      SegM.fwd_getD (by omega : i + 1 < s.cities.length)]
  by_cases hrev : s.rev = true
  · rw [if_pos hrev, if_pos hrev, if_pos hrev]
    have hm : s.cities.length - 1 - (i + 1) + 1 = s.cities.length - 1 - i := by omega
    have hcl := (hN.2.2 (s.cities.length - 1 - (i + 1)) (by omega)).2
    rw [hm] at hcl
    exact hcl
  · rw [if_neg hrev, if_neg hrev, if_neg hrev]
    exact (hN.2.2 i (by omega)).1

/-- Stepping off the logical forward end of a segment lands on the forward
begin of its successor. -/
theorem getNext_fe {t : Tree} {s s' : SegM} (hN : SegCohNodes t s) (hP : SegCohPar t s)
    (hB : BoundaryCoh t s s') : getNext t s.fe = s'.fb := by
  have hne : s.cities ≠ [] := hN.1
  have hpos : 0 < s.cities.length := List.length_pos.2 hne
  have hfe : s.fe = s.fwd.getD (s.fwd.length - 1) 0 := s.fe_eq_fwd_getD hne
  have hlen : s.fwd.length = s.cities.length := s.fwd_length
  have hi1 : s.fwd.length - 1 < s.fwd.length := by omega
  have hpar := (fwd_node_facts hN (by omega : s.fwd.length - 1 < s.fwd.length)).1
  unfold getNext Tree.parOf
  rw [hfe, hpar, hP.2.1]
  rw [← hfe]
  by_cases hrev : s.rev = true
  · rw [if_pos hrev]
    have := hB.1
    rwa [if_pos hrev] at this
  · rw [if_neg hrev]
    have := hB.1
    rwa [if_neg hrev] at this

end TLT

namespace TLT

theorem headD_append_left {l l' : List Nat} (h : l ≠ []) :
    (l ++ l').headD 0 = l.headD 0 := by
  rcases l with _ | ⟨x, xs⟩
  · exact absurd rfl h
  · rfl

theorem getLastD_append_right {l l' : List Nat} (h : l' ≠ []) :
    (l ++ l').getLastD 0 = l'.getLastD 0 := by
  rw [List.getLastD_eq_getLast?, List.getLastD_eq_getLast?, List.getLast?_append]
  obtain ⟨a, ha⟩ := Option.isSome_iff_exists.1 (List.getLast?_isSome.2 h)
  rw [ha]
  rfl

theorem Model.seg_eq_get {M : Model} {j : Nat} (hj : j < M.segs.length) :
    M.seg j = M.segs.get ⟨j, hj⟩ := by
  unfold Model.seg
  rw [List.getD_eq_getElem _ _ hj]
  rfl

theorem drop_flatMap_head {t : Tree} {M : Model} (h : Coherent t M) {j : Nat}
    (hj : j < M.segs.length) :
    ((M.segs.drop j).flatMap SegM.fwd).headD 0 = (M.seg j).fb := by
  rw [List.drop_eq_get_cons hj, List.flatMap_cons]
  have hne := SegM.fwd_ne_nil (h.segNodes hj).1
  rw [← Model.seg_eq_get hj, headD_append_left hne, (M.seg j).fb_eq_fwd_getD (h.segNodes hj).1,
    headD_eq_getD]

theorem drop_chain {t : Tree} {M : Model} (h : Coherent t M) :
    ∀ d j, j + d = M.segs.length →
      NextChain t ((M.segs.drop j).flatMap SegM.fwd) ∧
      (j < M.segs.length →
        ((M.segs.drop j).flatMap SegM.fwd).getLastD 0 =
          (M.seg (M.segs.length - 1)).fe) := by
  intro d
  induction d with
  | zero =>
    intro j hj
    constructor
    · rw [List.drop_of_length_le (by omega)]
      exact nextChain_nil t
    · intro hlt; omega
  | succ d ih =>
    intro j hj
    have hjlt : j < M.segs.length := by omega
    have hdrop : M.segs.drop j = M.seg j :: M.segs.drop (j + 1) := by
      rw [List.drop_eq_get_cons hjlt, ← Model.seg_eq_get hjlt]
    have hIH := ih (j + 1) (by omega)
    have hNj := h.segNodes hjlt
    have hPj := h.segPar hjlt
    have hfwdne := SegM.fwd_ne_nil hNj.1
    have hrestcase : j + 1 = M.segs.length ∨ j + 1 < M.segs.length := by omega
    have hlink : ((M.segs.drop (j + 1)).flatMap SegM.fwd) ≠ [] →
        getNext t ((M.seg j).fwd.getLastD 0) =
          ((M.segs.drop (j + 1)).flatMap SegM.fwd).headD 0 := by
      intro hne
      have hj1 : j + 1 < M.segs.length := by
        rcases hrestcase with hc | hc
        · rw [hc, List.drop_of_length_le (le_refl _)] at hne
          simp at hne
        · exact hc
      rw [drop_flatMap_head h hj1]
      have hB := h.boundary hjlt
      rw [Nat.mod_eq_of_lt hj1] at hB
      have : (M.seg j).fwd.getLastD 0 = (M.seg j).fe := by
        rw [(M.seg j).fe_eq_fwd_getD hNj.1, getLastD_eq_getD]
      rw [this]
      exact getNext_fe hNj hPj hB
    constructor
    · rw [hdrop, List.flatMap_cons]
      exact nextChain_append (segChain hNj hPj) hIH.1 hlink hfwdne
    · intro _
      rw [hdrop, List.flatMap_cons]
      by_cases hrest : ((M.segs.drop (j + 1)).flatMap SegM.fwd) = []
      · rw [hrest, List.append_nil]
        have hj1 : j + 1 = M.segs.length := by
          rcases hrestcase with hc | hc
          · exact hc
          · exfalso
            have hdrop1 : M.segs.drop (j + 1) = M.seg (j + 1) :: M.segs.drop (j + 2) := by
              rw [List.drop_eq_get_cons hc, ← Model.seg_eq_get hc]
            rw [hdrop1, List.flatMap_cons] at hrest
            have := SegM.fwd_ne_nil (h.segNodes hc).1
            rcases List.append_eq_nil.1 hrest with ⟨h1, _⟩
            exact this h1
        have hjeq : j = M.segs.length - 1 := by omega
        rw [hjeq, (M.seg (M.segs.length - 1)).fe_eq_fwd_getD
          (h.segNodes (by omega : M.segs.length - 1 < M.segs.length)).1, getLastD_eq_getD]
      · rw [getLastD_append_right hrest]
        have hj1 : j + 1 < M.segs.length := by
          rcases hrestcase with hc | hc
          · exfalso
            rw [hc, List.drop_of_length_le (le_refl _)] at hrest
            simp at hrest
          · exact hc
        exact hIH.2 hj1

/-- The encoded tour of a coherent tree is nonempty. -/
theorem tour_pos {t : Tree} {M : Model} (h : Coherent t M) : 0 < M.tour.length := by
  have h0 : (0 : Nat) < M.segs.length := by have := h.two_le; omega
  have hne := SegM.fwd_ne_nil (h.segNodes h0).1
  have hdrop : M.segs = M.seg 0 :: M.segs.drop (0 + 1) := by
    conv_lhs => rw [← List.drop_zero M.segs]
    rw [List.drop_eq_get_cons h0, ← Model.seg_eq_get h0]
  unfold Model.tour
  rw [hdrop, List.flatMap_cons]
  have := List.length_pos.2 hne
  simp only [List.length_append]
  omega

/-- The full cyclic step property of the encoded tour. -/
theorem tour_cycChain {t : Tree} {M : Model} (h : Coherent t M) :
    ∀ i < M.tour.length,
      getNext t (M.tour.getD i 0) = M.tour.getD ((i + 1) % M.tour.length) 0 := by
  intro i hi
  have hchain := (drop_chain h M.segs.length 0 (by omega))
  have htour : M.tour = (M.segs.drop 0).flatMap SegM.fwd := by
    rw [List.drop_zero]; rfl
  have hK : 0 < M.segs.length := by have := h.two_le; omega
  by_cases hlast : i + 1 < M.tour.length
  · rw [Nat.mod_eq_of_lt hlast]
    have := hchain.1
    rw [← htour] at this
    exact this i hlast
  · have hieq : i = M.tour.length - 1 := by omega
    have hmod : (i + 1) % M.tour.length = 0 := by
      have : i + 1 = M.tour.length := by omega
      rw [this, Nat.mod_self]
    rw [hmod]
    have hlastD : M.tour.getD i 0 = (M.seg (M.segs.length - 1)).fe := by
      have := hchain.2 hK
      rw [← htour] at this
      rw [hieq, ← getLastD_eq_getD, this]
    have hheadD : M.tour.getD 0 0 = (M.seg 0).fb := by
      have := drop_flatMap_head h hK
      rw [← htour] at this
      rw [← headD_eq_getD, this]
    rw [hlastD, hheadD]
    have hKlt : M.segs.length - 1 < M.segs.length := by omega
    have hB := h.boundary hKlt
    have : (M.segs.length - 1 + 1) % M.segs.length = 0 := by
      have : M.segs.length - 1 + 1 = M.segs.length := by omega
      rw [this, Nat.mod_self]
    rw [this] at hB
    exact getNext_fe (h.segNodes hKlt) (h.segPar hKlt) hB

end TLT

namespace TLT

/-- Index decomposition of a `flatMap`. -/
theorem flatMap_index {α : Type} [Inhabited α] (f : α → List Nat) :
    ∀ (l : List α) (i : Nat), i < (l.flatMap f).length →
      ∃ j, j < l.length ∧ ∃ m, m < (f (l.getD j default)).length ∧
        i = ((l.take j).flatMap f).length + m ∧
        (l.flatMap f).getD i 0 = (f (l.getD j default)).getD m 0 := by
  intro l
  induction l with
  | nil => intro i hi; simp at hi
  | cons x xs ih =>
    intro i hi
    rw [List.flatMap_cons] at hi
    by_cases hx : i < (f x).length
    · refine ⟨0, by simp, i, by simpa using hx, by simp, ?_⟩
      rw [List.flatMap_cons, List.getD_append _ _ _ _ hx]
      rfl
    · push_neg at hx
      have hi' : i - (f x).length < (xs.flatMap f).length := by
        rw [List.length_append] at hi
        omega
      obtain ⟨j, hj, m, hm, hieq, hget⟩ := ih (i - (f x).length) hi'
      refine ⟨j + 1, by simpa using hj, m, by simpa using hm, ?_, ?_⟩
      · rw [List.take_succ_cons, List.flatMap_cons, List.length_append]
        omega
      · rw [List.flatMap_cons, List.getD_append_right _ _ _ _ hx]
        simpa using hget
  
/-- Every tour position lies in a unique segment slice. -/
theorem tour_decomp {t : Tree} {M : Model} (h : Coherent t M) {i : Nat}
    (hi : i < M.tour.length) :
    ∃ j, j < M.segs.length ∧ ∃ m, m < (M.seg j).fwd.length ∧
      i = ((M.segs.take j).flatMap SegM.fwd).length + m ∧
      M.tour.getD i 0 = (M.seg j).fwd.getD m 0 := by
  obtain ⟨j, hj, m, hm, hieq, hget⟩ := flatMap_index SegM.fwd M.segs i hi
  exact ⟨j, hj, m, hm, hieq, hget⟩

/-- Node facts along the tour: the city field is the index, and nodes are
in range. -/
theorem tour_city {t : Tree} {M : Model} (h : Coherent t M) {i : Nat}
    (hi : i < M.tour.length) :
    (t.node (M.tour.getD i 0)).city = M.tour.getD i 0 ∧
      M.tour.getD i 0 < t.nodes.length := by
  obtain ⟨j, hj, m, hm, _, hget⟩ := tour_decomp h hi
  have hfacts := fwd_node_facts (h.segNodes hj) hm
  rw [hget]
  exact ⟨hfacts.2.1, hfacts.2.2.2⟩

/-- The forward raw-tour walk from any tour position enumerates the tour
cyclically. -/
theorem rawTourAux_eq {t : Tree} {M : Model} (h : Coherent t M) :
    ∀ (k i : Nat), i < M.tour.length →
      rawTourAux t Direction.forward (M.tour.getD i 0) k =
        (List.range k).map (fun j => M.tour.getD ((i + j) % M.tour.length) 0) := by
  intro k
  induction k with
  | zero => intro i _; rfl
  | succ k ih =>
    intro i hi
    have hcity := (tour_city h hi).1
    have hstep := tour_cycChain h i hi
    have hpos := tour_pos h
    have hi1 : (i + 1) % M.tour.length < M.tour.length := Nat.mod_lt _ hpos
    have lhs_eq : rawTourAux t Direction.forward (M.tour.getD i 0) (k + 1) =
        M.tour.getD i 0 ::
          rawTourAux t Direction.forward (M.tour.getD ((i + 1) % M.tour.length) 0) k := by
      rw [rawTourAux, hcity, if_pos rfl, hstep]
    rw [lhs_eq, ih _ hi1, List.range_succ_eq_map, List.map_cons, List.map_map]
    have harg : (i + 0) % M.tour.length = i := by
      rw [Nat.add_zero, Nat.mod_eq_of_lt hi]
    rw [harg]
    have hfun : (fun j => M.tour.getD (((i + 1) % M.tour.length + j) % M.tour.length) 0) =
        ((fun j => M.tour.getD ((i + j) % M.tour.length) 0) ∘ Nat.succ) := by
      funext j
    -- ((i+1) % n + j) % n = (i + (j+1)) % n
      have : ((i + 1) % M.tour.length + j) % M.tour.length =
          (i + 1 + j) % M.tour.length := Nat.mod_add_mod _ _ _
      simp only [Function.comp_apply, this, Nat.succ_eq_add_one]
      have harith : i + 1 + j = i + (j + 1) := by omega
      rw [harith]
    rw [hfun]

end TLT

namespace TLT

/-- get_raw_tour of a coherent tree, started on the i-th tour city. -/
theorem getRawTour_eq_map {t : Tree} {M : Model} (h : Coherent t M) {i : Nat}
    (hi : i < M.tour.length) :
    getRawTour t (M.tour.getD i 0) =
      (List.range M.tour.length).map
        (fun j => M.tour.getD ((i + j) % M.tour.length) 0) := by
  unfold getRawTour
  rw [← h.tour_len]
  exact rawTourAux_eq h _ i hi

/-- Characterization of `indexOf` by first occurrence. -/
theorem indexOf_eq_of {l : List Nat} {x : Nat} :
    ∀ {j : Nat}, j < l.length → l.getD j 0 = x → (∀ j' < j, l.getD j' 0 ≠ x) →
      l.indexOf x = j := by
  induction l with
  | nil => intro j hj; simp at hj
  | cons y ys ih =>
    intro j hj hx hprev
    cases j with
    | zero =>
      simp only [List.getD_cons_zero] at hx
      exact List.indexOf_cons_eq _ hx
    | succ j' =>
      have hy : y ≠ x := by
        have := hprev 0 (Nat.succ_pos _)
        simpa using this
      rw [List.indexOf_cons_ne _ hy]
      have := ih (by simpa using hj) (by simpa using hx)
        (fun j'' hj'' => by
          have := hprev (j'' + 1) (by omega)
          simpa using this)
      omega

/-- Uniqueness of positions in a `Nodup` list. -/
theorem nodup_getD_inj {l : List Nat} (h : l.Nodup) {i j : Nat} (hi : i < l.length)
    (hj : j < l.length) (he : l.getD i 0 = l.getD j 0) : i = j := by
  rw [List.getD_eq_getElem _ _ hi, List.getD_eq_getElem _ _ hj] at he
  exact (List.Nodup.getElem_inj_iff h).1 he

/-- Rotation of a model: the same tree described starting from another
segment. -/
def Model.rot (M : Model) (r : Nat) : Model := ⟨M.segs.rotate r⟩

theorem rotate_getD {α : Type} [Inhabited α] (l : List α) (r j : Nat) (hj : j < l.length) :
    (l.rotate r).getD j default = l.getD ((r + j) % l.length) default := by
  have hlen : (l.rotate r).length = l.length := List.length_rotate l r
  rw [List.getD_eq_getElem _ _ (by omega), List.getD_eq_getElem _ _
    (Nat.mod_lt _ (by omega))]
  rw [List.getElem_rotate]
  congr 1
  rw [Nat.add_comm]

theorem Model.rot_seg {M : Model} {r j : Nat} (hj : j < M.segs.length) :
    (M.rot r).seg j = M.seg ((r + j) % M.segs.length) := by
  unfold Model.rot Model.seg
  exact rotate_getD M.segs r j hj

/-- Rotating the model preserves coherence. -/
theorem Coherent.rot {t : Tree} {M : Model} (h : Coherent t M) (r : Nat) :
    Coherent t (M.rot r) := by
  have hKpos : 0 < M.segs.length := by have := h.two_le; omega
  have hlen : (M.rot r).segs.length = M.segs.length := List.length_rotate M.segs r
  refine ⟨by rw [hlen]; exact h.two_le, by rw [hlen]; exact h.len_parents, ?_, ?_, ?_, ?_⟩
  · have hperm : (M.rot r).tour.Perm M.tour := by
      unfold Model.tour Model.rot
      exact (List.rotate_perm M.segs r).flatMap_right _
    rw [hperm.length_eq]
    exact h.tour_len
  · have hperm : (M.rot r).tour.Perm M.tour := by
      unfold Model.tour Model.rot
      exact (List.rotate_perm M.segs r).flatMap_right _
    exact hperm.nodup_iff.2 h.tour_nodup
  · have : ((M.rot r).segs.map SegM.pIdx).Perm (M.segs.map SegM.pIdx) := by
      unfold Model.rot
      exact (List.rotate_perm M.segs r).map _
    exact this.nodup_iff.2 h.pIdx_nodup
  · intro j hj
    rw [hlen] at hj
    have hrj : (r + j) % M.segs.length < M.segs.length := Nat.mod_lt _ hKpos
    have h1 : (M.rot r).seg j = M.seg ((r + j) % M.segs.length) := Model.rot_seg hj
    have hj1 : (j + 1) % (M.rot r).segs.length < M.segs.length := by
      rw [hlen]
      exact Nat.mod_lt _ hKpos
    have h2 : (M.rot r).seg ((j + 1) % (M.rot r).segs.length) =
        M.seg ((r + (j + 1) % M.segs.length) % M.segs.length) := by
      rw [hlen]
      exact Model.rot_seg (by rw [hlen] at hj1; exact hj1)
    have harith : (r + (j + 1) % M.segs.length) % M.segs.length =
        ((r + j) % M.segs.length + 1) % M.segs.length := by
      rw [Nat.add_mod_mod, Nat.mod_add_mod, Nat.add_assoc]
    rw [h1, h2, harith]
    exact ⟨h.segNodes hrj, h.segPar hrj, h.boundary hrj⟩

end TLT

namespace TLT

/-!
City-binding frame property (claim C10): no public mutator touches the
`city` field of any node, and `set_raw_tour` binds `city = c` on slot `c`.
-/

/-- The relation: same node-arena length and identical `city` field on
every slot. -/
def CityFrame (t t' : Tree) : Prop :=
  t'.nodes.length = t.nodes.length ∧ ∀ c, (t'.node c).city = (t.node c).city

theorem CityFrame.refl (t : Tree) : CityFrame t t := ⟨rfl, fun _ => rfl⟩

theorem CityFrame.trans {t1 t2 t3 : Tree} (h1 : CityFrame t1 t2)
    (h2 : CityFrame t2 t3) : CityFrame t1 t3 :=
  ⟨h2.1.trans h1.1, fun c => (h2.2 c).trans (h1.2 c)⟩

theorem cityFrame_setNode {t : Tree} (x : Nat) {f : Node → Node}
    (hf : ∀ nd, (f nd).city = nd.city) : CityFrame t (t.setNode x f) := by
  refine ⟨by simp, fun c => ?_⟩
  by_cases hx : x = c
  · subst hx
    by_cases hlt : x < t.nodes.length
    · rw [node_setNode_self f hlt, hf]
    · unfold Tree.setNode
      rw [updNth_of_length_le f (by omega)]
  · rw [node_setNode_ne f hx]

theorem cityFrame_setPar {t : Tree} (p : Nat) (f : ParentNode → ParentNode) :
    CityFrame t (t.setPar p f) := ⟨rfl, fun _ => rfl⟩

theorem cityFrame_connectArcForward (t : Tree) (p q : Nat) :
    CityFrame t (connectArcForward t p q) := by
  unfold connectArcForward
  simp only []
  split <;> split <;>
    exact CityFrame.trans (cityFrame_setNode _ (fun _ => by rfl))
      (cityFrame_setNode _ (fun _ => by rfl))

theorem cityFrame_relabelIdAux (t : Tree) (b : Nat) :
    ∀ (a fuel : Nat), CityFrame t (relabelIdAux t b a fuel) := by
  intro a fuel
  induction fuel generalizing t a with
  | zero => exact CityFrame.refl t
  | succ fuel ih =>
    rw [relabelIdAux]
    by_cases hab : a = b
    · rw [if_pos hab]; exact CityFrame.refl t
    · rw [if_neg hab]
      simp only []
      exact CityFrame.trans (cityFrame_setNode _ (fun _ => by rfl)) (ih _ _)

theorem cityFrame_relabelId (t : Tree) (a b : Nat) (aId : Int) :
    CityFrame t (relabelId t a b aId) := by
  unfold relabelId
  exact CityFrame.trans (cityFrame_setNode _ (fun _ => by rfl)) (cityFrame_relabelIdAux _ _ _ _)

theorem CityFrame.step_setNode {t0 t : Tree} (h : CityFrame t0 t) (x : Nat)
    {f : Node → Node} (hf : ∀ nd, (f nd).city = nd.city) :
    CityFrame t0 (t.setNode x f) :=
  h.trans (cityFrame_setNode x hf)

theorem CityFrame.step_setPar {t0 t : Tree} (h : CityFrame t0 t) (p : Nat)
    (f : ParentNode → ParentNode) : CityFrame t0 (t.setPar p f) :=
  h.trans (cityFrame_setPar p f)

theorem CityFrame.step_connect {t0 t : Tree} (h : CityFrame t0 t) (p q : Nat) :
    CityFrame t0 (connectArcForward t p q) :=
  h.trans (cityFrame_connectArcForward t p q)

theorem cityFrame_mergeLoopForward (np : Nat) (d : Int) :
    ∀ (l : List Nat) (t : Tree) (q : Nat),
      CityFrame t (mergeLoopForward t np d q l).1 := by
  intro l
  induction l with
  | nil => intro t q; exact CityFrame.refl t
  | cons p rest ih =>
    intro t q
    rw [mergeLoopForward]
    exact CityFrame.trans
      ((((CityFrame.refl t).step_setNode _ (fun _ => by rfl)).step_connect _ _).step_setNode _
        (fun _ => by rfl)) (ih _ _)

theorem cityFrame_mergeLoopBackward (np : Nat) (d : Int) :
    ∀ (l : List Nat) (t : Tree) (q : Nat),
      CityFrame t (mergeLoopBackward t np d q l).1 := by
  intro l
  induction l with
  | nil => intro t q; exact CityFrame.refl t
  | cons p rest ih =>
    intro t q
    rw [mergeLoopBackward]
    exact CityFrame.trans
      ((((CityFrame.refl t).step_setNode _ (fun _ => by rfl)).step_connect _ _).step_setNode _
        (fun _ => by rfl)) (ih _ _)

theorem CityFrame.step_mergeF {t0 t : Tree} (h : CityFrame t0 t) (np : Nat) (d : Int)
    (q : Nat) (l : List Nat) : CityFrame t0 (mergeLoopForward t np d q l).1 :=
  h.trans (cityFrame_mergeLoopForward np d l t q)

theorem CityFrame.step_mergeB {t0 t : Tree} (h : CityFrame t0 t) (np : Nat) (d : Int)
    (q : Nat) (l : List Nat) : CityFrame t0 (mergeLoopBackward t np d q l).1 :=
  h.trans (cityFrame_mergeLoopBackward np d l t q)

set_option maxHeartbeats 2000000 in
theorem cityFrame_splitAndMerge (t : Tree) (s : Nat) (i : Bool) (dir : Direction) :
    CityFrame t (splitAndMerge t s i dir) := by
  unfold splitAndMerge
  lift_lets
  intro parent neighborParent collected boundary
  split
  · exact CityFrame.refl t
  · split
    · lift_lets
      intro ta tb q0 dId tq tc qc td te
      have h2 : CityFrame t tc :=
        (((CityFrame.refl t).step_setPar _ _).step_setPar _ _).step_mergeF _ _ _ _
      have h3 : CityFrame t td := by
        unfold_let td
        split
        · exact h2.step_setPar _ _
        · exact h2.step_setPar _ _
      have h4 : CityFrame t te := h3.step_connect _ _
      split
      · exact h4.step_setPar _ _
      · exact h4.step_setPar _ _
    · lift_lets
      intro ta tb q0 dId tq tc qc td te
      have h2 : CityFrame t tc :=
        (((CityFrame.refl t).step_setPar _ _).step_setPar _ _).step_mergeB _ _ _ _
      have h3 : CityFrame t td := by
        unfold_let td
        split
        · exact h2.step_setPar _ _
        · exact h2.step_setPar _ _
      have h4 : CityFrame t te := h3.step_connect _ _
      split
      · exact h4.step_setPar _ _
      · exact h4.step_setPar _ _

end TLT

namespace TLT

theorem cityFrame_reverseCompleteSegment (t : Tree) (a b : Nat) :
    CityFrame t (reverseCompleteSegment t a b) := by
  unfold reverseCompleteSegment
  lift_lets
  intro parent prevA nextB t1 t2 t3 t4
  have h1 : CityFrame t t1 := (CityFrame.refl t).step_setPar _ _
  have h2 : CityFrame t t2 := by
    unfold_let t2
    split
    · exact h1.step_setNode _ (fun _ => by rfl)
    · exact h1.step_setNode _ (fun _ => by rfl)
  have h3 : CityFrame t t3 := by
    unfold_let t3
    split
    · exact h2.step_setNode _ (fun _ => by rfl)
    · exact h2.step_setNode _ (fun _ => by rfl)
  have h4 : CityFrame t t4 := by
    unfold_let t4
    split
    · exact h3.step_setNode _ (fun _ => by rfl)
    · exact h3.step_setNode _ (fun _ => by rfl)
  split
  · exact h4.step_setNode _ (fun _ => by rfl)
  · exact h4.step_setNode _ (fun _ => by rfl)

theorem cityFrame_connectRun :
    ∀ (l : List Nat) (t : Tree) (p : Nat), CityFrame t (connectRun t p l) := by
  intro l
  induction l with
  | nil => intro t p; exact CityFrame.refl t
  | cons q rest ih =>
    intro t p
    rw [connectRun]
    exact CityFrame.trans (cityFrame_connectArcForward _ _ _) (ih _ _)

theorem CityFrame.step_connectRun {t0 t : Tree} (h : CityFrame t0 t) (p : Nat)
    (l : List Nat) : CityFrame t0 (connectRun t p l) :=
  h.trans (cityFrame_connectRun l t p)

theorem CityFrame.step_relabelId {t0 t : Tree} (h : CityFrame t0 t) (a b : Nat)
    (aId : Int) : CityFrame t0 (relabelId t a b aId) :=
  h.trans (cityFrame_relabelId t a b aId)

theorem cityFrame_reversePartialSegment (t : Tree) (a b : Nat) :
    CityFrame t (reversePartialSegment t a b) := by
  unfold reversePartialSegment
  lift_lets
  intro parent prevA nextB len temp t1 t2
  have h1 : CityFrame t t1 := (CityFrame.refl t).step_connectRun _ _
  have h2 : CityFrame t t2 := by
    unfold_let t2
    split
    · exact h1.step_setPar _ _
    · split
      · exact h1.step_setPar _ _
      · split
        · exact h1.step_setPar _ _
        · split
          · exact h1.step_setPar _ _
          · exact h1
  lift_lets
  intro aId bId
  split
  · exact h2.step_relabelId _ _ _
  · exact h2.step_relabelId _ _ _

theorem CityFrame.step_splitAndMerge {t0 t : Tree} (h : CityFrame t0 t) (s : Nat)
    (i : Bool) (dir : Direction) : CityFrame t0 (splitAndMerge t s i dir) :=
  h.trans (cityFrame_splitAndMerge t s i dir)

theorem CityFrame.step_reverseComplete {t0 t : Tree} (h : CityFrame t0 t) (a b : Nat) :
    CityFrame t0 (reverseCompleteSegment t a b) :=
  h.trans (cityFrame_reverseCompleteSegment t a b)

theorem cityFrame_reverseSegment (t : Tree) (a b : Nat) :
    CityFrame t (reverseSegment t a b) := by
  unfold reverseSegment
  lift_lets
  intro parent
  split
  · exact cityFrame_reverseCompleteSegment t a b
  · lift_lets
    intro pathLength
    split
    · exact cityFrame_reversePartialSegment t a b
    · exact (((CityFrame.refl t).step_splitAndMerge _ _ _).step_splitAndMerge _ _
        _).step_reverseComplete _ _

theorem cityFrame_reverseAdjustA (t : Tree) (a : Nat) :
    CityFrame t (reverseAdjustA t a) := by
  unfold reverseAdjustA
  split
  · exact CityFrame.refl t
  · lift_lets
    intro aForwardEnd aForwardHalfLength
    split
    · exact cityFrame_splitAndMerge _ _ _ _
    · exact cityFrame_splitAndMerge _ _ _ _

theorem cityFrame_reverseAdjustB (t : Tree) (a b : Nat) :
    CityFrame t (reverseAdjustB t a b) := by
  unfold reverseAdjustB
  split
  · exact CityFrame.refl t
  · split
    · exact cityFrame_splitAndMerge _ _ _ _
    · lift_lets
      intro bBackwardEnd bBackwardHalfLength
      split
      · exact cityFrame_splitAndMerge _ _ _ _
      · exact cityFrame_splitAndMerge _ _ _ _

theorem cityFrame_toggleLoop (s2 : Nat) :
    ∀ (fuel : Nat) (t : Tree) (p : Nat) (acc : List Nat),
      CityFrame t (toggleLoop t s2 p fuel acc).1 := by
  intro fuel
  induction fuel with
  | zero => intro t p acc; exact CityFrame.refl t
  | succ fuel ih =>
    intro t p acc
    rw [toggleLoop]
    split
    · exact CityFrame.refl t
    · exact CityFrame.trans ((CityFrame.refl t).step_setPar _ _) (ih _ _ _)

theorem cityFrame_rewireLoop :
    ∀ (l : List Nat) (t : Tree) (p : Nat), CityFrame t (rewireLoop t p l) := by
  intro l
  induction l with
  | nil => intro t p; exact CityFrame.refl t
  | cons q rest ih =>
    intro t p
    rw [rewireLoop]
    exact CityFrame.trans (((((CityFrame.refl t).step_setPar _ _).step_setPar _
      _).step_setPar _ _).step_connect _ _) (ih _ _)

theorem cityFrame_reverseMultiSegment (t : Tree) (a b : Nat) :
    CityFrame t (reverseMultiSegment t a b) := by
  unfold reverseMultiSegment
  lift_lets
  intro s1 s2 tAcc t1 temp
  exact CityFrame.trans (cityFrame_toggleLoop _ _ _ _ _) (cityFrame_rewireLoop _ _ _)

theorem cityFrame_reverse (t : Tree) (a b : Nat) : CityFrame t (reverse t a b) := by
  unfold reverse
  split
  · exact CityFrame.refl t
  · split
    · exact cityFrame_reverseSegment t a b
    · lift_lets
      intro t1
      have h1 : CityFrame t t1 := cityFrame_reverseAdjustA t a
      split
      · exact h1.trans (cityFrame_reverseSegment _ _ _)
      · lift_lets
        intro t2
        have hh2 : CityFrame t t2 := h1.trans (cityFrame_reverseAdjustB _ _ _)
        split
        · exact hh2.trans (cityFrame_reverseSegment _ _ _)
        · exact hh2.trans (cityFrame_reverseMultiSegment _ _ _)

theorem cityFrame_flip (t : Tree) (a b c d : Nat) : CityFrame t (flip t a b c d) := by
  unfold flip
  lift_lets
  intro isForward
  split
  · exact CityFrame.refl t
  · split
    · split
      · exact cityFrame_reverse _ _ _
      · exact cityFrame_reverse _ _ _
    · split
      · exact cityFrame_reverse _ _ _
      · exact cityFrame_reverse _ _ _

theorem cityFrame_dbmAdjust (t : Tree) (p : Nat) : CityFrame t (dbmAdjust t p) := by
  unfold dbmAdjust
  split
  · exact cityFrame_splitAndMerge _ _ _ _
  · exact CityFrame.refl t

theorem cityFrame_dbmConnectForward (t : Tree) (p q : Nat) :
    CityFrame t (dbmConnectForward t p q) := by
  unfold dbmConnectForward
  lift_lets
  intro t1 t2
  exact (((CityFrame.refl t).step_connect _ _).step_setPar _ _).step_setPar _ _

theorem cityFrame_reIdLoop :
    ∀ (fuel : Nat) (t : Tree) (p : Nat) (i : Int), CityFrame t (reIdLoop t p i fuel) := by
  intro fuel
  induction fuel with
  | zero => intro t p i; exact CityFrame.refl t
  | succ fuel ih =>
    intro t p i
    rw [reIdLoop]
    split
    · exact (CityFrame.refl t).step_setPar _ _
    · exact CityFrame.trans ((CityFrame.refl t).step_setPar _ _) (ih _ _ _)

theorem CityFrame.step_dbmAdjust {t0 t : Tree} (h : CityFrame t0 t) (p : Nat) :
    CityFrame t0 (dbmAdjust t p) := h.trans (cityFrame_dbmAdjust t p)

theorem CityFrame.step_dbmConnect {t0 t : Tree} (h : CityFrame t0 t) (p q : Nat) :
    CityFrame t0 (dbmConnectForward t p q) := h.trans (cityFrame_dbmConnectForward t p q)

theorem cityFrame_doubleBridgeMove (t : Tree) (a b c d : Nat) :
    CityFrame t (doubleBridgeMove t a b c d) := by
  unfold doubleBridgeMove
  lift_lets
  intro an bn cn dn t1 t2 t3 t4 t5 t6 t7 t8
  refine CityFrame.trans ?_ (cityFrame_reIdLoop _ _ _ _)
  exact (((((((((CityFrame.refl t).step_dbmAdjust _).step_dbmAdjust _).step_dbmAdjust
    _).step_dbmAdjust _).step_dbmConnect _ _).step_dbmConnect _ _).step_dbmConnect _
    _).step_dbmConnect _ _)

/-- Every public mutating operation preserves the node arena length and
leaves every node's `city` field unchanged. -/
theorem cityFrame_applyOp (t : Tree) (op : Op) : CityFrame t (applyOp t op) := by
  cases op with
  | rev a b => exact cityFrame_reverse t a b
  | flp a b c d => exact cityFrame_flip t a b c d
  | dbm a b c d => exact cityFrame_doubleBridgeMove t a b c d
  | snm s i dir => exact cityFrame_splitAndMerge t s i dir

theorem cityFrame_applyOps (t : Tree) (ops : List Op) :
    CityFrame t (applyOps t ops) := by
  induction ops generalizing t with
  | nil => exact CityFrame.refl t
  | cons op rest ih =>
    exact CityFrame.trans (cityFrame_applyOp t op) (ih _)

end TLT

namespace TLT

/-- A slot whose `city` field equals its own index. -/
def CityOK (t : Tree) (c : Nat) : Prop := (t.node c).city = c

theorem cityOK_write {t : Tree} {c x : Nat} {f : Node → Node}
    (hf : ∀ nd, (f nd).city = x) (h : CityOK t c) : CityOK (t.setNode x f) c := by
  unfold CityOK at h ⊢
  by_cases hx : x = c
  · subst hx
    by_cases hlt : x < t.nodes.length
    · rw [node_setNode_self f hlt, hf]
    · unfold Tree.setNode
      rw [updNth_of_length_le f (by omega)]
      exact h
  · rw [node_setNode_ne f hx]
    exact h

theorem cityOK_write_self {t : Tree} {x : Nat} {f : Node → Node}
    (hf : ∀ nd, (f nd).city = x) (hlt : x < t.nodes.length) :
    CityOK (t.setNode x f) x := by
  unfold CityOK
  rw [node_setNode_self f hlt, hf]

theorem foldl_cityOK_preserve {β : Type} (g : Tree → β → Tree)
    (hpres : ∀ t x c, CityOK t c → CityOK (g t x) c) :
    ∀ (l : List β) (t : Tree) (c : Nat), CityOK t c → CityOK (l.foldl g t) c := by
  intro l
  induction l with
  | nil => intro t c h; exact h
  | cons x xs ih =>
    intro t c h
    exact ih _ _ (hpres _ _ _ h)

theorem foldl_cityOK_establish {β : Type} (g : Tree → β → Tree) (Inv : Tree → Prop)
    (cond : β → Nat → Prop)
    (hInv : ∀ t x, Inv t → Inv (g t x))
    (hpres : ∀ t x c, CityOK t c → CityOK (g t x) c)
    (hest : ∀ t x c, Inv t → cond x c → CityOK (g t x) c) :
    ∀ (l : List β) (t : Tree) (c : Nat), Inv t → (∃ x ∈ l, cond x c) →
      CityOK (l.foldl g t) c := by
  intro l
  induction l with
  | nil =>
    intro t c _ hex
    simp at hex
  | cons x xs ih =>
    intro t c hI hex
    obtain ⟨y, hy, hcond⟩ := hex
    rcases List.mem_cons.1 hy with rfl | hmem
    · exact foldl_cityOK_preserve g hpres xs _ _ (hest _ _ _ hI hcond)
    · exact ih _ _ (hInv _ _ hI) ⟨y, hmem, hcond⟩

/-- After `set_raw_tour`, every city that occurs in the first `n_cities`
entries of `order` is bound on its own slot. -/
theorem setRawTour_cityOK {t : Tree} {order : List Nat} {c : Nat}
    (hK : 0 < t.parents.length)
    (hc : c < t.nodes.length)
    (hmem : ∃ i, i < t.nCities ∧ order.getD i 0 = c) :
    CityOK (setRawTour t order) c := by
  obtain ⟨i, hi, hio⟩ := hmem
  unfold setRawTour
  lift_lets
  intro n segmentLength firstCity lastCity
  set Inv : Tree → Prop :=
    fun t' => t'.nCities = t.nCities ∧ t'.nodes.length = t.nodes.length with hInvDef
  -- the inner fold writes one node per position, setting its city to itself
  have hInnerPres : ∀ (cs : Nat) (l : List Nat) (t' : Tree) (c' : Nat), CityOK t' c' →
      CityOK (l.foldl (fun t'' i' =>
        t''.setNode (order.getD i' 0) (fun nd =>
          { nd with
            city := order.getD i' 0
            parent := cs
            prev := if i' = 0 then lastCity else order.getD (i' - 1) 0
            next := if i' + 1 = t''.nCities then firstCity else order.getD (i' + 1) 0
            id := ((i' : Int) - ((cs * segmentLength : Nat) : Int)) })) t') c' := by
    intro cs l
    exact foldl_cityOK_preserve _ (fun t'' x c' h => cityOK_write (fun _ => by rfl) h) l
  have hInnerLen : ∀ (cs : Nat) (l : List Nat) (t' : Tree),
      Inv t' → Inv (l.foldl (fun t'' i' =>
        t''.setNode (order.getD i' 0) (fun nd =>
          { nd with
            city := order.getD i' 0
            parent := cs
            prev := if i' = 0 then lastCity else order.getD (i' - 1) 0
            next := if i' + 1 = t''.nCities then firstCity else order.getD (i' + 1) 0
            id := ((i' : Int) - ((cs * segmentLength : Nat) : Int)) })) t') := by
    intro cs l
    induction l with
    | nil => intro t' h; exact h
    | cons x xs ih =>
      intro t' h
      refine ih _ ⟨h.1, ?_⟩
      rw [setNode_nodes_length]
      exact h.2
  -- establishment through the inner fold
  have hInnerEst : ∀ (cs : Nat) (l : List Nat) (t' : Tree) (c' : Nat),
      Inv t' → c' < t.nodes.length → (∃ i' ∈ l, order.getD i' 0 = c') →
      CityOK (l.foldl (fun t'' i' =>
        t''.setNode (order.getD i' 0) (fun nd =>
          { nd with
            city := order.getD i' 0
            parent := cs
            prev := if i' = 0 then lastCity else order.getD (i' - 1) 0
            next := if i' + 1 = t''.nCities then firstCity else order.getD (i' + 1) 0
            id := ((i' : Int) - ((cs * segmentLength : Nat) : Int)) })) t') c' := by
    intro cs l t' c' hI hlt hex
    obtain ⟨i', hmem', hget'⟩ := hex
    refine foldl_cityOK_establish _ Inv
      (fun i' c'' => c'' < t.nodes.length ∧ order.getD i' 0 = c'')
      ?_ ?_ ?_ l t' c' hI ⟨i', hmem', hlt, hget'⟩
    · intro t'' x hI'
      exact ⟨hI'.1, by rw [setNode_nodes_length]; exact hI'.2⟩
    · intro t'' x c'' h
      exact cityOK_write (fun _ => by rfl) h
    · intro t'' x c'' hI' hcond
      obtain ⟨hcb', hcond⟩ := hcond
      subst hcond
      exact cityOK_write_self (fun _ => by rfl) (by rw [hI'.2]; exact hcb')
  have hKn : 0 < n := hK
  refine foldl_cityOK_establish _ Inv
    (fun cs c'' => c'' < t.nodes.length ∧ ∃ i', cs * segmentLength ≤ i' ∧
      i' < (if cs = n - 1 then t.nCities else cs * segmentLength + segmentLength) ∧
      order.getD i' 0 = c'')
    ?_ ?_ ?_ (List.range n) t c ⟨rfl, rfl⟩ ?_
  · intro t' cs hI
    refine hInnerLen cs _ _ ⟨hI.1, ?_⟩
    exact hI.2
  · intro t' cs c'' h
    exact hInnerPres cs _ _ _ h
  · intro t' cs c'' hI' hcond
    obtain ⟨hcb, i', hge, hlt', hgetd⟩ := hcond
    refine hInnerEst cs _ _ _ ⟨hI'.1, hI'.2⟩ hcb ⟨i', ?_, hgetd⟩
    have hIn : t'.nCities = t.nCities := hI'.1
    rw [List.mem_range'_1]
    constructor
    · exact hge
    · rw [hIn]
      split at hlt'
      · rename_i hcs
        rw [if_pos hcs]
        omega
      · rename_i hcs
        rw [if_neg hcs]
        omega
  · by_cases hseg : segmentLength = 0
    · refine ⟨n - 1, List.mem_range.2 (by omega), hc, i, by simp [hseg], ?_, hio⟩
      rw [if_pos rfl]
      exact hi
    · by_cases hbig : n - 1 ≤ i / segmentLength
      · refine ⟨n - 1, List.mem_range.2 (by omega), hc, i, ?_, ?_, hio⟩
        · calc (n - 1) * segmentLength ≤ i / segmentLength * segmentLength :=
                Nat.mul_le_mul_right _ hbig
            _ ≤ i := Nat.div_mul_le_self i segmentLength
        · rw [if_pos rfl]
          exact hi
      · push_neg at hbig
        have hdm := Nat.div_add_mod i segmentLength
        have hmod : i % segmentLength < segmentLength :=
          Nat.mod_lt _ (Nat.pos_of_ne_zero hseg)
        have hcomm : i / segmentLength * segmentLength =
            segmentLength * (i / segmentLength) := Nat.mul_comm _ _
        refine ⟨i / segmentLength, List.mem_range.2 (by omega), hc, i,
          Nat.div_mul_le_self i segmentLength, ?_, hio⟩
        rw [if_neg (by omega)]
        omega

end TLT

namespace TLT

/-- Claim C10: the binding between cities and nodes is permanent.  After
`set_raw_tour` with a valid permutation, `get_node(c)->city = c` for every
city `c` in `[origin_city, origin_city + n)`, and this persists under any
sequence of public mutators; moreover no single public mutator ever changes
any node's `city` field on any tree. -/
theorem claim_C10 :
    (∀ (n origin : Nat) (order : List Nat) (ops : List Op) (c : Nat),
      order.Perm (List.range' origin n) →
      origin ≤ c → c < origin + n →
      ((applyOps (setRawTour (mkTree n origin) order) ops).node c).city = c) ∧
    (∀ (t : Tree) (op : Op) (c : Nat),
      ((applyOp t op).node c).city = (t.node c).city) := by
  constructor
  · intro n origin order ops c hperm hlo hhi
    have hlen : order.length = n := by
      rw [hperm.length_eq, List.length_range']
    have hmem : c ∈ order := hperm.mem_iff.2 (List.mem_range'_1.2 ⟨hlo, by omega⟩)
    obtain ⟨i, hilt, hieq⟩ := List.getElem_of_mem hmem
    have hOK : CityOK (setRawTour (mkTree n origin) order) c := by
      refine setRawTour_cityOK ?_ ?_ ⟨i, ?_, ?_⟩
      · show 0 < (List.replicate (Nat.sqrt n + 1) (default : ParentNode)).length
        simp
      · show c < (List.replicate (n + origin) (default : Node)).length
        simp
        omega
      · show i < n
        omega
      · rw [List.getD_eq_getElem _ _ (by omega : i < order.length)]
        exact hieq
    have hframe := cityFrame_applyOps (setRawTour (mkTree n origin) order) ops
    rw [hframe.2 c]
    exact hOK
  · intro t op c
    exact (cityFrame_applyOp t op).2 c

/-- Witness for claim C10 at a concrete instance. -/
theorem claim_C10_witness :
    ((applyOps (setRawTour (mkTree 10 1) [3, 6, 8, 4, 1, 2, 5, 9, 10, 7])
      [Op.rev 8 1, Op.flp 3 6 10 7]).node 5).city = 5 :=
  claim_C10.1 10 1 [3, 6, 8, 4, 1, 2, 5, 9, 10, 7] [Op.rev 8 1, Op.flp 3 6 10 7] 5
    (by decide) (by decide) (by decide)

end TLT

namespace TLT

/-!
Claim C8: reversing a forward path that spans exactly one complete segment
only toggles that parent's reversal bit and rewrites physical links of at
most the four nodes incident to the segment's two junctions.
-/

/-- Everything except the `prev`/`next` links of the nodes listed in `S` is
identical in `t` and `t'`. -/
def NodeLinkFrame (t t' : Tree) (S : List Nat) : Prop :=
  t'.parents = t.parents ∧ t'.nodes.length = t.nodes.length ∧
  (∀ c, (t'.node c).id = (t.node c).id ∧ (t'.node c).city = (t.node c).city ∧
    (t'.node c).parent = (t.node c).parent) ∧
  (∀ c, c ∉ S → t'.node c = t.node c)

theorem NodeLinkFrame.base (t : Tree) (S : List Nat) : NodeLinkFrame t t S :=
  ⟨rfl, rfl, fun _ => ⟨rfl, rfl, rfl⟩, fun _ _ => rfl⟩

theorem NodeLinkFrame.step {t t' : Tree} {S : List Nat} (h : NodeLinkFrame t t' S)
    {x : Nat} (hx : x ∈ S) {f : Node → Node}
    (hf : ∀ nd, (f nd).id = nd.id ∧ (f nd).city = nd.city ∧ (f nd).parent = nd.parent) :
    NodeLinkFrame t (t'.setNode x f) S := by
  refine ⟨h.1, by rw [setNode_nodes_length]; exact h.2.1, fun c => ?_, fun c hc => ?_⟩
  · by_cases hxc : x = c
    · subst hxc
      by_cases hlt : x < t'.nodes.length
      · rw [node_setNode_self f hlt]
        obtain ⟨h1, h2, h3⟩ := (hf (t'.node x))
        obtain ⟨g1, g2, g3⟩ := h.2.2.1 x
        exact ⟨h1.trans g1, h2.trans g2, h3.trans g3⟩
      · unfold Tree.setNode
        rw [updNth_of_length_le f (by omega)]
        exact h.2.2.1 x
    · rw [node_setNode_ne f hxc]
      exact h.2.2.1 c
  · have hxc : x ≠ c := fun he => hc (he ▸ hx)
    rw [node_setNode_ne f hxc]
    exact h.2.2.2 c hc

/-- Structure of `reverse_complete_segment`: it is the toggle of the
parent's reversal bit followed by link-only rewrites of the four junction
nodes. -/
theorem reverseCompleteSegment_structure (t : Tree) (a b : Nat) :
    NodeLinkFrame
      (t.setPar ((t.node a).parent) (fun p => { p with reverse := !p.reverse }))
      (reverseCompleteSegment t a b)
      [(t.par ((t.par ((t.node a).parent)).prev)).forwardEndNode, a,
        (t.par ((t.par ((t.node b).parent)).next)).forwardBeginNode, b] := by
  unfold reverseCompleteSegment
  lift_lets
  intro parent prevA nextB t1 t2 t3 t4
  have h1 : NodeLinkFrame t1 t1 [prevA, a, nextB, b] := NodeLinkFrame.base _ _
  have h2 : NodeLinkFrame t1 t2 [prevA, a, nextB, b] := by
    unfold_let t2
    split
    · exact h1.step (by simp) (fun _ => ⟨rfl, rfl, rfl⟩)
    · exact h1.step (by simp) (fun _ => ⟨rfl, rfl, rfl⟩)
  have h3 : NodeLinkFrame t1 t3 [prevA, a, nextB, b] := by
    unfold_let t3
    split
    · exact h2.step (by simp) (fun _ => ⟨rfl, rfl, rfl⟩)
    · exact h2.step (by simp) (fun _ => ⟨rfl, rfl, rfl⟩)
  have h4 : NodeLinkFrame t1 t4 [prevA, a, nextB, b] := by
    unfold_let t4
    split
    · exact h3.step (by simp) (fun _ => ⟨rfl, rfl, rfl⟩)
    · exact h3.step (by simp) (fun _ => ⟨rfl, rfl, rfl⟩)
  split
  · exact h4.step (by simp) (fun _ => ⟨rfl, rfl, rfl⟩)
  · exact h4.step (by simp) (fun _ => ⟨rfl, rfl, rfl⟩)

end TLT

namespace TLT

/-- Dispatch fact: under the complete-single-segment preconditions,
`reverse` reduces to `reverse_complete_segment`. -/
theorem reverse_eq_complete {t : Tree} {a b : Nat}
    (hab : a ≠ b) (hnb : getNext t b ≠ a)
    (hpar : (t.node b).parent = (t.node a).parent)
    (hspan :
      (¬(t.par ((t.node a).parent)).reverse = true ∧
        a = (t.par ((t.node a).parent)).segmentBeginNode ∧
        b = (t.par ((t.node a).parent)).segmentEndNode ∧
        (t.node a).id < (t.node b).id) ∨
      ((t.par ((t.node a).parent)).reverse = true ∧
        b = (t.par ((t.node a).parent)).segmentBeginNode ∧
        a = (t.par ((t.node a).parent)).segmentEndNode ∧
        (t.node b).id < (t.node a).id)) :
    reverse t a b = reverseCompleteSegment t a b := by
  have hsingle : isPathInSingleSegment t a b = true := by
    unfold isPathInSingleSegment Tree.parOf
    rw [if_pos hpar.symm]
    rcases hspan with ⟨hr, _, _, hid⟩ | ⟨hr, _, _, hid⟩
    · rw [if_neg hr]
      exact decide_eq_true hid
    · rw [if_pos hr]
      exact decide_eq_true hid
  unfold reverse
  rw [if_neg (by push_neg; exact ⟨hab, hnb⟩), if_pos hsingle]
  unfold reverseSegment
  simp only []
  rcases hspan with ⟨_, h2, h3, _⟩ | ⟨_, h2, h3, _⟩
  · rw [if_pos (Or.inl ⟨h2, h3⟩)]
  · rw [if_pos (Or.inr ⟨h2, h3⟩)]

/-- Claim C8: when `reverse(a, b)` is applied to a forward path spanning
exactly one complete segment, it only toggles that parent's reversal bit
and repairs the four physical links to the neighboring segments; the
parent's `id`, `segment_begin_node`, `segment_end_node` and `size`, every
other parent record, and every node field other than the `prev`/`next`
links of the four junction nodes are unchanged. -/
theorem claim_C8 {t : Tree} {a b : Nat}
    (hP : (t.node a).parent < t.parents.length)
    (hab : a ≠ b) (hnb : getNext t b ≠ a)
    (hpar : (t.node b).parent = (t.node a).parent)
    (hspan :
      (¬(t.par ((t.node a).parent)).reverse = true ∧
        a = (t.par ((t.node a).parent)).segmentBeginNode ∧
        b = (t.par ((t.node a).parent)).segmentEndNode ∧
        (t.node a).id < (t.node b).id) ∨
      ((t.par ((t.node a).parent)).reverse = true ∧
        b = (t.par ((t.node a).parent)).segmentBeginNode ∧
        a = (t.par ((t.node a).parent)).segmentEndNode ∧
        (t.node b).id < (t.node a).id)) :
    ((reverse t a b).par ((t.node a).parent)).reverse =
      !(t.par ((t.node a).parent)).reverse ∧
    ((reverse t a b).par ((t.node a).parent)).id = (t.par ((t.node a).parent)).id ∧
    ((reverse t a b).par ((t.node a).parent)).segmentBeginNode =
      (t.par ((t.node a).parent)).segmentBeginNode ∧
    ((reverse t a b).par ((t.node a).parent)).segmentEndNode =
      (t.par ((t.node a).parent)).segmentEndNode ∧
    ((reverse t a b).par ((t.node a).parent)).size = (t.par ((t.node a).parent)).size ∧
    (∀ j, j ≠ (t.node a).parent → (reverse t a b).par j = t.par j) ∧
    (∀ c, ((reverse t a b).node c).id = (t.node c).id ∧
      ((reverse t a b).node c).city = (t.node c).city ∧
      ((reverse t a b).node c).parent = (t.node c).parent) ∧
    (∀ c, c ≠ (t.par ((t.par ((t.node a).parent)).prev)).forwardEndNode → c ≠ a →
      c ≠ (t.par ((t.par ((t.node a).parent)).next)).forwardBeginNode → c ≠ b →
      (reverse t a b).node c = t.node c) := by
  rw [reverse_eq_complete hab hnb hpar hspan]
  have hstruct := reverseCompleteSegment_structure t a b
  rw [hpar] at hstruct
  set t1 := t.setPar ((t.node a).parent) (fun p => { p with reverse := !p.reverse })
    with ht1
  have hparsP : ((reverseCompleteSegment t a b).par ((t.node a).parent)) =
      { t.par ((t.node a).parent) with
        reverse := !(t.par ((t.node a).parent)).reverse } := by
    have : (reverseCompleteSegment t a b).parents = t1.parents := hstruct.1
    unfold Tree.par
    rw [this]
    exact par_setPar_self _ hP
  have hparsOther : ∀ j, j ≠ (t.node a).parent →
      (reverseCompleteSegment t a b).par j = t.par j := by
    intro j hj
    have heq : (reverseCompleteSegment t a b).parents = t1.parents := hstruct.1
    unfold Tree.par
    rw [heq]
    exact par_setPar_ne _ (fun he => hj he.symm)
  refine ⟨by rw [hparsP], by rw [hparsP], by rw [hparsP], by rw [hparsP],
    by rw [hparsP], hparsOther, ?_, ?_⟩
  · intro c
    exact hstruct.2.2.1 c
  · intro c h1 h2 h3 h4
    have := hstruct.2.2.2 c (by
      intro hmem
      simp only [List.mem_cons, List.mem_singleton] at hmem
      rcases hmem with rfl | rfl | rfl | rfl | h
      · exact h1 rfl
      · exact h2 rfl
      · exact h3 rfl
      · exact h4 rfl
      · simp at h)
    rw [this]
    rfl

end TLT

namespace TLT

/-- Concrete tree of the spec's scenario 2 (n = 14, origin 1, P = 4,
nominal segment length 3, exactly as the constructor computes them). -/
def t14w : Tree :=
  setRawTour
    { nodes := List.replicate 15 default
      parents := List.replicate 4 default
      nCities := 14
      originCity := 1
      nominalSegmentLength := 3 }
    [11, 13, 6, 8, 4, 1, 2, 5, 9, 10, 7, 12, 14, 3]

/-- Witness for claim C8: the segment `[8, 4, 1]` of the scenario-2 tree. -/
theorem claim_C8_witness :
    ((reverse t14w 8 1).par ((t14w.node 8).parent)).reverse =
      !(t14w.par ((t14w.node 8).parent)).reverse ∧
    ((reverse t14w 8 1).par ((t14w.node 8).parent)).id =
      (t14w.par ((t14w.node 8).parent)).id ∧
    ((reverse t14w 8 1).par ((t14w.node 8).parent)).segmentBeginNode =
      (t14w.par ((t14w.node 8).parent)).segmentBeginNode ∧
    ((reverse t14w 8 1).par ((t14w.node 8).parent)).segmentEndNode =
      (t14w.par ((t14w.node 8).parent)).segmentEndNode ∧
    ((reverse t14w 8 1).par ((t14w.node 8).parent)).size =
      (t14w.par ((t14w.node 8).parent)).size ∧
    (∀ j, j ≠ (t14w.node 8).parent → (reverse t14w 8 1).par j = t14w.par j) ∧
    (∀ c, ((reverse t14w 8 1).node c).id = (t14w.node c).id ∧
      ((reverse t14w 8 1).node c).city = (t14w.node c).city ∧
      ((reverse t14w 8 1).node c).parent = (t14w.node c).parent) ∧
    (∀ c, c ≠ (t14w.par ((t14w.par ((t14w.node 8).parent)).prev)).forwardEndNode →
      c ≠ 8 →
      c ≠ (t14w.par ((t14w.par ((t14w.node 8).parent)).next)).forwardBeginNode →
      c ≠ 1 → (reverse t14w 8 1).node c = t14w.node c) :=
  claim_C8 (by decide) (by decide) (by decide) (by decide) (by decide)

end TLT

namespace TLT

/-! Position arithmetic on the tour of a coherent tree. -/

/-- Offset of segment `j` inside the tour. -/
def Model.off (M : Model) (j : Nat) : Nat :=
  ((M.segs.take j).flatMap SegM.fwd).length

theorem Model.off_zero (M : Model) : M.off 0 = 0 := rfl

theorem Model.off_succ {M : Model} {j : Nat} (hj : j < M.segs.length) :
    M.off (j + 1) = M.off j + (M.seg j).fwd.length := by
  unfold Model.off
  rw [List.take_succ, List.flatMap_append, List.length_append]
  rw [Model.seg_eq_get hj, List.getElem?_eq_getElem hj]
  simp

theorem Model.off_K (M : Model) : M.off M.segs.length = M.tour.length := by
  unfold Model.off Model.tour
  rw [List.take_of_length_le (le_refl _)]

theorem Model.off_mono {M : Model} : ∀ {j j' : Nat}, j ≤ j' → j' ≤ M.segs.length →
    M.off j ≤ M.off j' := by
  intro j j' hle hub
  induction j' with
  | zero =>
    have : j = 0 := by omega
    subst this
    exact le_refl _
  | succ j'' ih =>
    by_cases hj : j = j'' + 1
    · subst hj; exact le_refl _
    · have h1 : M.off j ≤ M.off j'' := ih (by omega) (by omega)
      have h2 := Model.off_succ (M := M) (j := j'') (by omega)
      omega

theorem tour_getD_off {t : Tree} {M : Model} (h : Coherent t M) {j m : Nat}
    (hj : j < M.segs.length) (hm : m < (M.seg j).fwd.length) :
    M.tour.getD (M.off j + m) 0 = (M.seg j).fwd.getD m 0 := by
  have hsplit : M.tour = (M.segs.take j).flatMap SegM.fwd ++
      (M.segs.drop j).flatMap SegM.fwd := by
    unfold Model.tour
    rw [← List.flatMap_append, List.take_append_drop]
  have hdrop : M.segs.drop j = M.seg j :: M.segs.drop (j + 1) := by
    rw [List.drop_eq_get_cons hj, ← Model.seg_eq_get hj]
  rw [hsplit, List.getD_append_right _ _ _ _ (by exact Nat.le_add_right _ _)]
  have : M.off j + m - ((M.segs.take j).flatMap SegM.fwd).length = m := by
    unfold Model.off
    omega
  rw [this, hdrop, List.flatMap_cons, List.getD_append _ _ _ _ hm]

theorem off_add_lt {t : Tree} {M : Model} (h : Coherent t M) {j m : Nat}
    (hj : j < M.segs.length) (hm : m < (M.seg j).fwd.length) :
    M.off j + m < M.tour.length := by
  have h1 := Model.off_succ (M := M) hj
  have h2 := @Model.off_mono M (j + 1) M.segs.length (by omega) (le_refl _)
  have h3 := Model.off_K M
  omega

end TLT

namespace TLT

/-! Infrastructure for the is_between correctness proof (claim C2). -/

theorem emod_small (x K : Int) (h0 : 0 ≤ x) (hK : 0 < K) (h2 : x < 2 * K) :
    x % K = if x < K then x else x - K := by
  split
  · exact Int.emod_eq_of_lt h0 (by assumption)
  · rename_i hge
    push_neg at hge
    rw [← Int.emod_sub_cancel x K]
    exact Int.emod_eq_of_lt (by omega) (by omega)

theorem rho_eq (ia ix n : Nat) (hia : ia < n) (hix : ix < n) :
    (ix + n - ia) % n = if ia ≤ ix then ix - ia else ix + n - ia := by
  split
  · have he : ix + n - ia = (ix - ia) + n := by omega
    rw [he, Nat.add_mod_right, Nat.mod_eq_of_lt (by omega)]
  · exact Nat.mod_eq_of_lt (by omega)

theorem getD_map_range (f : Nat → Nat) {n j : Nat} (hj : j < n) :
    ((List.range n).map f).getD j 0 = f j := by
  rw [List.getD_eq_getElem _ _ (by simpa using hj)]
  simp

theorem getD_map_pIdx {l : List SegM} {j : Nat} (hj : j < l.length) :
    (l.map SegM.pIdx).getD j 0 = (l.getD j default).pIdx := by
  rw [List.getD_eq_getElem _ _ (by simpa using hj), List.getD_eq_getElem _ _ hj]
  simp

/-- Distinct segment slots of a coherent model have distinct parent indices. -/
theorem pIdx_inj {t : Tree} {M : Model} (h : Coherent t M) {j j' : Nat}
    (hj : j < M.segs.length) (hj' : j' < M.segs.length)
    (he : (M.seg j).pIdx = (M.seg j').pIdx) : j = j' := by
  apply nodup_getD_inj h.pIdx_nodup (by simpa using hj) (by simpa using hj')
  rw [getD_map_pIdx hj, getD_map_pIdx hj']
  exact he

/-- Position of a tour city inside the raw-tour walk started at another
tour position. -/
theorem walk_indexOf {t : Tree} {M : Model} (h : Coherent t M) {ia ix : Nat}
    (hia : ia < M.tour.length) (hix : ix < M.tour.length) :
    (getRawTour t (M.tour.getD ia 0)).indexOf (M.tour.getD ix 0) =
      (ix + M.tour.length - ia) % M.tour.length := by
  set n := M.tour.length with hn
  have hnpos : 0 < n := tour_pos h
  have hW := getRawTour_eq_map h hia
  set ρ := (ix + n - ia) % n with hρ
  have hρlt : ρ < n := Nat.mod_lt _ hnpos
  rw [hW]
  apply indexOf_eq_of (by simpa using hρlt)
  · rw [getD_map_range _ hρlt]
    have harg : (ia + ρ) % n = ix := by
      rw [hρ, Nat.add_mod_mod]
      have : ia + (ix + n - ia) = ix + n := by omega
      rw [this, Nat.add_mod_right, Nat.mod_eq_of_lt hix]
    rw [harg]
  · intro j' hj'
    rw [getD_map_range _ (by omega)]
    intro heq
    have hlt : (ia + j') % n < n := Nat.mod_lt _ hnpos
    have hidx : (ia + j') % n = ix := nodup_getD_inj h.tour_nodup hlt hix heq
    have harg : (ia + ρ) % n = ix := by
      rw [hρ, Nat.add_mod_mod]
      have : ia + (ix + n - ia) = ix + n := by omega
      rw [this, Nat.add_mod_right, Nat.mod_eq_of_lt hix]
    have hmodeq : (ia + j') % n = (ia + ρ) % n := by rw [hidx, harg]
    have hcancel : j' % n = ρ % n := by
      have h1 : Nat.ModEq n (ia + j') (ia + ρ) := hmodeq
      exact Nat.ModEq.add_left_cancel' ia h1
    rw [Nat.mod_eq_of_lt (by omega), Nat.mod_eq_of_lt hρlt] at hcancel
    omega

end TLT

namespace TLT

/-- Parent ID of the j-th segment slot of a model. -/
def pid (t : Tree) (M : Model) (j : Nat) : Int := (t.par (M.seg j).pIdx).id

theorem pid_step {t : Tree} {M : Model} (h : Coherent t M) {j : Nat}
    (hj : j < M.segs.length) :
    pid t M ((j + 1) % M.segs.length) = (pid t M j + 1) % (M.segs.length : Int) := by
  have hB := (h.boundary hj).2.2.2.2
  unfold pid
  rw [hB, h.len_parents]

theorem pid_range {t : Tree} {M : Model} (h : Coherent t M) {j : Nat}
    (hj : j < M.segs.length) :
    0 ≤ pid t M j ∧ pid t M j < (M.segs.length : Int) := by
  have hKpos : 0 < M.segs.length := by have := h.two_le; omega
  have hpred : ((j + M.segs.length - 1) % M.segs.length + 1) % M.segs.length = j := by
    rw [Nat.mod_add_mod]
    have he : j + M.segs.length - 1 + 1 = j + M.segs.length := by omega
    rw [he, Nat.add_mod_right, Nat.mod_eq_of_lt hj]
  have hstep := pid_step h (j := (j + M.segs.length - 1) % M.segs.length)
    (Nat.mod_lt _ hKpos)
  rw [hpred] at hstep
  rw [hstep]
  have hKne : (M.segs.length : Int) ≠ 0 := by exact_mod_cast Nat.pos_iff_ne_zero.1 hKpos
  have hKpos' : (0 : Int) < (M.segs.length : Int) := by exact_mod_cast hKpos
  exact ⟨Int.emod_nonneg _ hKne, Int.emod_lt_of_pos _ hKpos'⟩

theorem pid_formula {t : Tree} {M : Model} (h : Coherent t M) :
    ∀ {j : Nat}, j < M.segs.length →
      pid t M j = (pid t M 0 + (j : Int)) % (M.segs.length : Int) := by
  have hKpos : 0 < M.segs.length := by have := h.two_le; omega
  intro j
  induction j with
  | zero =>
    intro h0
    have hr := pid_range h h0
    rw [Nat.cast_zero, Int.add_zero, Int.emod_eq_of_lt hr.1 hr.2]
  | succ j ih =>
    intro hj
    have hjlt : j < M.segs.length := by omega
    have hstep := pid_step h hjlt
    rw [Nat.mod_eq_of_lt hj] at hstep
    rw [hstep, ih hjlt, Int.emod_add_emod]
    congr 1
    push_cast
    ring

end TLT

namespace TLT

/-- Cyclic comparison of parent IDs: with the reference segment's parent
ID `p0`, the three-way ID test of is_between's all-distinct branch holds
exactly when segment slot `jb` precedes `jc` in tour order. -/
theorem pid_compare {K p0 jb jc : Int} (hK : 0 < K) (hp0 : 0 ≤ p0) (hp0K : p0 < K)
    (hjb : 0 < jb) (hjbK : jb < K) (hjc : 0 < jc) (hjcK : jc < K) (hne : jb ≠ jc) :
    ((if p0 < (p0 + jc) % K then
        p0 < (p0 + jb) % K ∧ (p0 + jb) % K < (p0 + jc) % K
      else p0 < (p0 + jb) % K ∨ (p0 + jb) % K < (p0 + jc) % K) ↔ jb < jc) := by
  rw [emod_small (p0 + jb) K (by omega) hK (by omega),
      emod_small (p0 + jc) K (by omega) hK (by omega)]
  by_cases hb : p0 + jb < K
  · rw [if_pos hb]
    by_cases hc : p0 + jc < K
    · rw [if_pos hc]; split <;> omega
    · rw [if_neg hc]; split <;> omega
  · rw [if_neg hb]
    by_cases hc : p0 + jc < K
    · rw [if_pos hc]; split <;> omega
    · rw [if_neg hc]; split <;> omega

end TLT

namespace TLT

/-- is_between when a, b, c all lie in the reference segment (slot 0). -/
theorem isBetween_sameSeg {t : Tree} {M : Model} (h : Coherent t M)
    {ma mb mc a b c : Nat}
    (hma : ma < (M.seg 0).fwd.length) (hmb : mb < (M.seg 0).fwd.length)
    (hmc : mc < (M.seg 0).fwd.length)
    (hea : a = (M.seg 0).fwd.getD ma 0)
    (heb : b = (M.seg 0).fwd.getD mb 0)
    (hec : c = (M.seg 0).fwd.getD mc 0)
    (hab : ma ≠ mb) (hac : ma ≠ mc) (hbc : mb ≠ mc) :
    (isBetween t a b c = true ↔
      (M.off 0 + mb + M.tour.length - (M.off 0 + ma)) % M.tour.length <
        (M.off 0 + mc + M.tour.length - (M.off 0 + ma)) % M.tour.length) := by
  have hK0 : 0 < M.segs.length := by have := h.two_le; omega
  have hman : M.off 0 + ma < M.tour.length := off_add_lt h hK0 hma
  have hmbn : M.off 0 + mb < M.tour.length := off_add_lt h hK0 hmb
  have hmcn : M.off 0 + mc < M.tour.length := off_add_lt h hK0 hmc
  have hoffz : M.off 0 = 0 := rfl
  rw [hoffz] at hman hmbn hmcn ⊢
  simp only [Nat.zero_add] at hman hmbn hmcn ⊢
  have hfa := fwd_node_facts (h.segNodes hK0) hma
  have hfb := fwd_node_facts (h.segNodes hK0) hmb
  have hfc := fwd_node_facts (h.segNodes hK0) hmc
  rw [← hea] at hfa
  rw [← heb] at hfb
  rw [← hec] at hfc
  have hrevP : (t.par (M.seg 0).pIdx).reverse = (M.seg 0).rev := (h.segPar hK0).2.1
  have hlen : (M.seg 0).fwd.length = (M.seg 0).cities.length := SegM.fwd_length _
  rw [hlen] at hma hmb hmc
  simp only [isBetween, hfa.1, hfb.1, hfc.1, hfa.2.2.1, hfb.2.2.1, hfc.2.2.1, hrevP]
  rw [if_pos ⟨trivial, trivial⟩]
  rw [rho_eq ma mb _ hman hmbn, rho_eq ma mc _ hman hmcn]
  by_cases hrev : (M.seg 0).rev = true
  · rw [if_pos hrev]
    simp only [hrev, if_pos]
    split <;> simp only [Bool.and_eq_true, Bool.or_eq_true, decide_eq_true_eq] <;>
      split <;> split <;> omega
  · rw [if_neg hrev]
    have hrf : (M.seg 0).rev = false := by
      cases hr : (M.seg 0).rev
      · rfl
      · exact absurd hr hrev
    simp only [hrf, Bool.false_eq_true, if_false]
    split <;> simp only [Bool.and_eq_true, Bool.or_eq_true, decide_eq_true_eq] <;>
      split <;> split <;> omega

end TLT

namespace TLT

/-- is_between when a and b share the reference segment and c lies in a
different segment. -/
theorem isBetween_abSeg {t : Tree} {M : Model} (h : Coherent t M)
    {ma mb jc mc a b c : Nat}
    (hma : ma < (M.seg 0).fwd.length) (hmb : mb < (M.seg 0).fwd.length)
    (hjc : jc < M.segs.length) (hjc0 : jc ≠ 0)
    (hmc : mc < (M.seg jc).fwd.length)
    (hea : a = (M.seg 0).fwd.getD ma 0)
    (heb : b = (M.seg 0).fwd.getD mb 0)
    (hec : c = (M.seg jc).fwd.getD mc 0)
    (hab : ma ≠ mb) :
    (isBetween t a b c = true ↔
      (M.off 0 + mb + M.tour.length - (M.off 0 + ma)) % M.tour.length <
        (M.off jc + mc + M.tour.length - (M.off 0 + ma)) % M.tour.length) := by
  have hK0 : 0 < M.segs.length := by have := h.two_le; omega
  have hman : M.off 0 + ma < M.tour.length := off_add_lt h hK0 hma
  have hmbn : M.off 0 + mb < M.tour.length := off_add_lt h hK0 hmb
  have hmcn : M.off jc + mc < M.tour.length := off_add_lt h hjc hmc
  have hoffz : M.off 0 = 0 := rfl
  rw [hoffz] at hman hmbn ⊢
  simp only [Nat.zero_add] at hman hmbn ⊢
  have hoff1 : M.off 1 = (M.seg 0).fwd.length := by
    have h1 := Model.off_succ (M := M) hK0
    rw [hoffz] at h1
    simpa using h1
  have hmono : M.off 1 ≤ M.off jc := Model.off_mono (by omega) (by omega)
  have hfa := fwd_node_facts (h.segNodes hK0) hma
  have hfb := fwd_node_facts (h.segNodes hK0) hmb
  have hfc := fwd_node_facts (h.segNodes hjc) hmc
  rw [← hea] at hfa
  rw [← heb] at hfb
  rw [← hec] at hfc
  have hpne : (M.seg 0).pIdx ≠ (M.seg jc).pIdx := fun he =>
    hjc0 ((pIdx_inj h hK0 hjc he).symm)
  have hrevP : (t.par (M.seg 0).pIdx).reverse = (M.seg 0).rev := (h.segPar hK0).2.1
  have hlen : (M.seg 0).fwd.length = (M.seg 0).cities.length := SegM.fwd_length _
  simp only [isBetween, canReachInCurrentSegment, Tree.parOf,
    hfa.1, hfb.1, hfc.1, hfa.2.2.1, hfb.2.2.1, hrevP]
  rw [if_neg (by exact fun hcon => hpne hcon.2)]
  rw [if_neg (by exact fun hcon => hcon.1 rfl)]
  rw [if_pos trivial]
  rw [rho_eq ma mb _ hman hmbn, rho_eq ma (M.off jc + mc) _ hman hmcn]
  have hρc : ma ≤ M.off jc + mc := by omega
  rw [if_pos hρc]
  by_cases hrev : (M.seg 0).rev = true
  · rw [if_pos hrev]
    simp only [hrev, if_pos, decide_eq_true_eq] at *
    by_cases hoab : ma ≤ mb
    · rw [if_pos hoab]; omega
    · rw [if_neg hoab]; omega
  · rw [if_neg hrev]
    have hrf : (M.seg 0).rev = false := by
      cases hr : (M.seg 0).rev
      · rfl
      · exact absurd hr hrev
    simp only [hrf, Bool.false_eq_true, if_false, decide_eq_true_eq] at *
    by_cases hoab : ma ≤ mb
    · rw [if_pos hoab]; omega
    · rw [if_neg hoab]; omega

/-- is_between when b and c share a segment distinct from a's. -/
theorem isBetween_bcSeg {t : Tree} {M : Model} (h : Coherent t M)
    {ma j mb mc a b c : Nat}
    (hma : ma < (M.seg 0).fwd.length)
    (hj : j < M.segs.length) (hj0 : j ≠ 0)
    (hmb : mb < (M.seg j).fwd.length) (hmc : mc < (M.seg j).fwd.length)
    (hea : a = (M.seg 0).fwd.getD ma 0)
    (heb : b = (M.seg j).fwd.getD mb 0)
    (hec : c = (M.seg j).fwd.getD mc 0)
    (hbc : mb ≠ mc) :
    (isBetween t a b c = true ↔
      (M.off j + mb + M.tour.length - (M.off 0 + ma)) % M.tour.length <
        (M.off j + mc + M.tour.length - (M.off 0 + ma)) % M.tour.length) := by
  have hK0 : 0 < M.segs.length := by have := h.two_le; omega
  have hman : M.off 0 + ma < M.tour.length := off_add_lt h hK0 hma
  have hmbn : M.off j + mb < M.tour.length := off_add_lt h hj hmb
  have hmcn : M.off j + mc < M.tour.length := off_add_lt h hj hmc
  have hoffz : M.off 0 = 0 := rfl
  rw [hoffz] at hman ⊢
  simp only [Nat.zero_add] at hman ⊢
  have hoff1 : M.off 1 = (M.seg 0).fwd.length := by
    have h1 := Model.off_succ (M := M) hK0
    rw [hoffz] at h1
    simpa using h1
  have hmono : M.off 1 ≤ M.off j := Model.off_mono (by omega) (by omega)
  have hfa := fwd_node_facts (h.segNodes hK0) hma
  have hfb := fwd_node_facts (h.segNodes hj) hmb
  have hfc := fwd_node_facts (h.segNodes hj) hmc
  rw [← hea] at hfa
  rw [← heb] at hfb
  rw [← hec] at hfc
  have hpne : (M.seg 0).pIdx ≠ (M.seg j).pIdx := fun he =>
    hj0 ((pIdx_inj h hK0 hj he).symm)
  have hrevP : (t.par (M.seg j).pIdx).reverse = (M.seg j).rev := (h.segPar hj).2.1
  have hlen : (M.seg j).fwd.length = (M.seg j).cities.length := SegM.fwd_length _
  simp only [isBetween, hfa.1, hfb.1, hfc.1, hfb.2.2.1, hfc.2.2.1, hrevP]
  rw [if_neg (by exact fun hcon => hpne hcon.1)]
  rw [if_neg (by exact fun hcon => hcon.2.2 rfl)]
  rw [if_neg (by exact fun hcon => hpne hcon)]
  rw [if_pos trivial]
  rw [rho_eq ma (M.off j + mb) _ hman hmbn, rho_eq ma (M.off j + mc) _ hman hmcn]
  rw [if_pos (by omega : ma ≤ M.off j + mb), if_pos (by omega : ma ≤ M.off j + mc)]
  by_cases hrev : (M.seg j).rev = true
  · rw [if_pos hrev]
    simp only [hrev, if_pos, decide_eq_true_eq] at *
    omega
  · rw [if_neg hrev]
    have hrf : (M.seg j).rev = false := by
      cases hr : (M.seg j).rev
      · rfl
      · exact absurd hr hrev
    simp only [hrf, Bool.false_eq_true, if_false, decide_eq_true_eq] at *
    omega

/-- is_between when a and c share the reference segment and b lies in a
different segment. -/
theorem isBetween_acSeg {t : Tree} {M : Model} (h : Coherent t M)
    {ma jb mb mc a b c : Nat}
    (hma : ma < (M.seg 0).fwd.length)
    (hjb : jb < M.segs.length) (hjb0 : jb ≠ 0)
    (hmb : mb < (M.seg jb).fwd.length)
    (hmc : mc < (M.seg 0).fwd.length)
    (hea : a = (M.seg 0).fwd.getD ma 0)
    (heb : b = (M.seg jb).fwd.getD mb 0)
    (hec : c = (M.seg 0).fwd.getD mc 0)
    (hac : ma ≠ mc) :
    (isBetween t a b c = true ↔
      (M.off jb + mb + M.tour.length - (M.off 0 + ma)) % M.tour.length <
        (M.off 0 + mc + M.tour.length - (M.off 0 + ma)) % M.tour.length) := by
  have hK0 : 0 < M.segs.length := by have := h.two_le; omega
  have hman : M.off 0 + ma < M.tour.length := off_add_lt h hK0 hma
  have hmbn : M.off jb + mb < M.tour.length := off_add_lt h hjb hmb
  have hmcn : M.off 0 + mc < M.tour.length := off_add_lt h hK0 hmc
  have hoffz : M.off 0 = 0 := rfl
  rw [hoffz] at hman hmcn ⊢
  simp only [Nat.zero_add] at hman hmcn ⊢
  have hoff1 : M.off 1 = (M.seg 0).fwd.length := by
    have h1 := Model.off_succ (M := M) hK0
    rw [hoffz] at h1
    simpa using h1
  have hmono : M.off 1 ≤ M.off jb := Model.off_mono (by omega) (by omega)
  have hfa := fwd_node_facts (h.segNodes hK0) hma
  have hfb := fwd_node_facts (h.segNodes hjb) hmb
  have hfc := fwd_node_facts (h.segNodes hK0) hmc
  rw [← hea] at hfa
  rw [← heb] at hfb
  rw [← hec] at hfc
  have hpne : (M.seg 0).pIdx ≠ (M.seg jb).pIdx := fun he =>
    hjb0 ((pIdx_inj h hK0 hjb he).symm)
  have hrevP : (t.par (M.seg 0).pIdx).reverse = (M.seg 0).rev := (h.segPar hK0).2.1
  have hlen : (M.seg 0).fwd.length = (M.seg 0).cities.length := SegM.fwd_length _
  simp only [isBetween, canReachInCurrentSegment, Tree.parOf,
    hfa.1, hfb.1, hfc.1, hfa.2.2.1, hfc.2.2.1, hrevP]
  rw [if_neg (by exact fun hcon => hpne hcon.1)]
  rw [if_neg (by exact fun hcon => hcon.2.1 rfl)]
  rw [if_neg (by exact fun hcon => hpne hcon)]
  rw [if_neg (by exact fun hcon => hpne hcon.symm)]
  rw [rho_eq ma (M.off jb + mb) _ hman hmbn, rho_eq ma mc _ hman hmcn]
  rw [if_pos (by omega : ma ≤ M.off jb + mb)]
  by_cases hrev : (M.seg 0).rev = true
  · rw [if_pos hrev]
    simp only [hrev, if_pos, Bool.not_eq_true', decide_eq_false_iff_not, not_lt] at *
    by_cases hoac : ma ≤ mc
    · rw [if_pos hoac]; omega
    · rw [if_neg hoac]; omega
  · rw [if_neg hrev]
    have hrf : (M.seg 0).rev = false := by
      cases hr : (M.seg 0).rev
      · rfl
      · exact absurd hr hrev
    simp only [hrf, Bool.false_eq_true, if_false, Bool.not_eq_true',
      decide_eq_false_iff_not, not_lt] at *
    by_cases hoac : ma ≤ mc
    · rw [if_pos hoac]; omega
    · rw [if_neg hoac]; omega

end TLT

namespace TLT

theorem ite_and_or_eq_true (P Q R : Prop) [Decidable P] [Decidable Q] [Decidable R] :
    ((if P then decide Q && decide R else decide Q || decide R) = true) ↔
      (if P then Q ∧ R else Q ∨ R) := by
  split <;> simp

/-- is_between when a, b, c lie in three pairwise-distinct segments. -/
theorem isBetween_distinctSeg {t : Tree} {M : Model} (h : Coherent t M)
    {ma jb mb jc mc a b c : Nat}
    (hma : ma < (M.seg 0).fwd.length)
    (hjb : jb < M.segs.length) (hjb0 : jb ≠ 0)
    (hmb : mb < (M.seg jb).fwd.length)
    (hjc : jc < M.segs.length) (hjc0 : jc ≠ 0)
    (hmc : mc < (M.seg jc).fwd.length)
    (hjbc : jb ≠ jc)
    (hea : a = (M.seg 0).fwd.getD ma 0)
    (heb : b = (M.seg jb).fwd.getD mb 0)
    (hec : c = (M.seg jc).fwd.getD mc 0) :
    (isBetween t a b c = true ↔
      (M.off jb + mb + M.tour.length - (M.off 0 + ma)) % M.tour.length <
        (M.off jc + mc + M.tour.length - (M.off 0 + ma)) % M.tour.length) := by
  have hK0 : 0 < M.segs.length := by have := h.two_le; omega
  have hman : M.off 0 + ma < M.tour.length := off_add_lt h hK0 hma
  have hmbn : M.off jb + mb < M.tour.length := off_add_lt h hjb hmb
  have hmcn : M.off jc + mc < M.tour.length := off_add_lt h hjc hmc
  have hoffz : M.off 0 = 0 := rfl
  rw [hoffz] at hman ⊢
  simp only [Nat.zero_add] at hman ⊢
  have hoff1 : M.off 1 = (M.seg 0).fwd.length := by
    have h1 := Model.off_succ (M := M) hK0
    rw [hoffz] at h1
    simpa using h1
  have hmonob : M.off 1 ≤ M.off jb := Model.off_mono (by omega) (by omega)
  have hmonoc : M.off 1 ≤ M.off jc := Model.off_mono (by omega) (by omega)
  have hfa := fwd_node_facts (h.segNodes hK0) hma
  have hfb := fwd_node_facts (h.segNodes hjb) hmb
  have hfc := fwd_node_facts (h.segNodes hjc) hmc
  rw [← hea] at hfa
  rw [← heb] at hfb
  rw [← hec] at hfc
  have hpab : (M.seg 0).pIdx ≠ (M.seg jb).pIdx := fun he =>
    hjb0 ((pIdx_inj h hK0 hjb he).symm)
  have hpac : (M.seg 0).pIdx ≠ (M.seg jc).pIdx := fun he =>
    hjc0 ((pIdx_inj h hK0 hjc he).symm)
  have hpbc : (M.seg jb).pIdx ≠ (M.seg jc).pIdx := fun he =>
    hjbc (pIdx_inj h hjb hjc he)
  simp only [isBetween, hfa.1, hfb.1, hfc.1]
  rw [if_neg (by exact fun hcon => hpab hcon.1)]
  rw [if_pos ⟨hpab, hpac, hpbc⟩]
  have hpidb := pid_formula h hjb
  have hpidc := pid_formula h hjc
  unfold pid at hpidb hpidc
  rw [ite_and_or_eq_true, hpidb, hpidc]
  have hp0 := pid_range h hK0
  unfold pid at hp0
  have hcmp := @pid_compare ((M.segs.length : Int))
    ((t.par (M.seg 0).pIdx).id) ((jb : Int)) ((jc : Int))
    (by exact_mod_cast hK0) hp0.1 hp0.2
    (by exact_mod_cast Nat.pos_of_ne_zero hjb0) (by exact_mod_cast hjb)
    (by exact_mod_cast Nat.pos_of_ne_zero hjc0) (by exact_mod_cast hjc)
    (by exact_mod_cast hjbc)
  rw [hcmp, Nat.cast_lt]
  rw [rho_eq ma (M.off jb + mb) _ hman hmbn, rho_eq ma (M.off jc + mc) _ hman hmcn]
  rw [if_pos (by omega : ma ≤ M.off jb + mb), if_pos (by omega : ma ≤ M.off jc + mc)]
  rcases Nat.lt_trichotomy jb jc with hlt | heqc | hgt
  · have hsb := Model.off_succ (M := M) hjb
    have hm1 : M.off (jb + 1) ≤ M.off jc := Model.off_mono (by omega) (by omega)
    have hlb : (M.seg jb).fwd.length = (M.seg jb).cities.length := SegM.fwd_length _
    exact iff_of_true hlt (by omega)
  · exact absurd heqc hjbc
  · have hsc := Model.off_succ (M := M) hjc
    have hm1 : M.off (jc + 1) ≤ M.off jb := Model.off_mono (by omega) (by omega)
    have hlc : (M.seg jc).fwd.length = (M.seg jc).cities.length := SegM.fwd_length _
    exact iff_of_false (by omega) (by omega)

end TLT

namespace TLT

/-- is_between agrees with walk order, for a in the reference segment. -/
theorem isBetween_walk {t : Tree} {M : Model} (h : Coherent t M)
    {ma jb mb jc mc a b c : Nat}
    (hma : ma < (M.seg 0).fwd.length)
    (hjb : jb < M.segs.length) (hmb : mb < (M.seg jb).fwd.length)
    (hjc : jc < M.segs.length) (hmc : mc < (M.seg jc).fwd.length)
    (hea : a = (M.seg 0).fwd.getD ma 0)
    (heb : b = (M.seg jb).fwd.getD mb 0)
    (hec : c = (M.seg jc).fwd.getD mc 0)
    (hab : a ≠ b) (hac : a ≠ c) (hbc : b ≠ c) :
    (isBetween t a b c = true ↔
      (getRawTour t a).indexOf b < (getRawTour t a).indexOf c) := by
  have hK0 : 0 < M.segs.length := by have := h.two_le; omega
  have hta : M.tour.getD (M.off 0 + ma) 0 = a := (tour_getD_off h hK0 hma).trans hea.symm
  have htb : M.tour.getD (M.off jb + mb) 0 = b := (tour_getD_off h hjb hmb).trans heb.symm
  have htc : M.tour.getD (M.off jc + mc) 0 = c := (tour_getD_off h hjc hmc).trans hec.symm
  have hian : M.off 0 + ma < M.tour.length := off_add_lt h hK0 hma
  have hibn : M.off jb + mb < M.tour.length := off_add_lt h hjb hmb
  have hicn : M.off jc + mc < M.tour.length := off_add_lt h hjc hmc
  have hWb := walk_indexOf h hian hibn
  rw [hta, htb] at hWb
  have hWc := walk_indexOf h hian hicn
  rw [hta, htc] at hWc
  rw [hWb, hWc]
  by_cases hb0 : jb = 0
  · subst hb0
    have hmab : ma ≠ mb := fun he => hab (by rw [hea, heb, he])
    by_cases hc0 : jc = 0
    · subst hc0
      have hmac : ma ≠ mc := fun he => hac (by rw [hea, hec, he])
      have hmbc : mb ≠ mc := fun he => hbc (by rw [heb, hec, he])
      exact isBetween_sameSeg h hma hmb hmc hea heb hec hmab hmac hmbc
    · exact isBetween_abSeg h hma hmb hjc hc0 hmc hea heb hec hmab
  · by_cases hc0 : jc = 0
    · subst hc0
      have hmac : ma ≠ mc := fun he => hac (by rw [hea, hec, he])
      exact isBetween_acSeg h hma hjb hb0 hmb hmc hea heb hec hmac
    · by_cases hjbc : jb = jc
      · subst hjbc
        have hmbc : mb ≠ mc := fun he => hbc (by rw [heb, hec, he])
        exact isBetween_bcSeg h hma hjb hb0 hmb hmc hea heb hec hmbc
      · exact isBetween_distinctSeg h hma hjb hb0 hmb hjc hc0 hmc hjbc hea heb hec

end TLT

namespace TLT

/-- C2: on a valid tree (one coherently described by a segment model), for
pairwise-distinct tour cities a, b, c, is_between(a, b, c) returns true
exactly when, walking the encoded tour in the logical forward direction
starting from a, city b is encountered strictly before city c. -/
theorem claim_C2 {t : Tree} {M : Model} (h : Coherent t M) {a b c : Nat}
    (ha : a ∈ M.tour) (hb : b ∈ M.tour) (hc : c ∈ M.tour)
    (hab : a ≠ b) (hac : a ≠ c) (hbc : b ≠ c) :
    (isBetween t a b c = true ↔
      (getRawTour t a).indexOf b < (getRawTour t a).indexOf c) := by
  have hK0 : 0 < M.segs.length := by have := h.two_le; omega
  obtain ⟨ia, hia, haeq⟩ := List.mem_iff_getElem.1 ha
  rw [← List.getD_eq_getElem _ 0 hia] at haeq
  obtain ⟨ja, hja, maA, hmaA, _, hgetA⟩ := tour_decomp h hia
  have h' := h.rot ja
  have hlen' : (M.rot ja).segs.length = M.segs.length := List.length_rotate M.segs ja
  have hseg0 : (M.rot ja).seg 0 = M.seg ja := by
    rw [Model.rot_seg (by omega : (0 : Nat) < M.segs.length)]
    congr 1
    rw [Nat.add_zero, Nat.mod_eq_of_lt hja]
  have hea : a = ((M.rot ja).seg 0).fwd.getD maA 0 := by
    rw [hseg0, ← hgetA, haeq]
  have hma : maA < ((M.rot ja).seg 0).fwd.length := by rw [hseg0]; exact hmaA
  have hpermtour : (M.rot ja).tour.Perm M.tour := by
    unfold Model.tour Model.rot
    exact (List.rotate_perm M.segs ja).flatMap_right _
  have hb' : b ∈ (M.rot ja).tour := hpermtour.mem_iff.2 hb
  have hc' : c ∈ (M.rot ja).tour := hpermtour.mem_iff.2 hc
  obtain ⟨ib, hib, hbeq⟩ := List.mem_iff_getElem.1 hb'
  rw [← List.getD_eq_getElem _ 0 hib] at hbeq
  obtain ⟨jb, hjb, mb, hmb, _, hgetB⟩ := tour_decomp h' hib
  obtain ⟨ic, hic, hceq⟩ := List.mem_iff_getElem.1 hc'
  rw [← List.getD_eq_getElem _ 0 hic] at hceq
  obtain ⟨jc, hjc, mc, hmc, _, hgetC⟩ := tour_decomp h' hic
  exact isBetween_walk h' hma hjb hmb hjc hmc hea
    (by rw [← hgetB, hbeq]) (by rw [← hgetC, hceq]) hab hac hbc

end TLT

namespace TLT

instance (t : Tree) (s : SegM) : Decidable (SegCohNodes t s) := by
  unfold SegCohNodes
  have hlinks : Decidable (∀ m, m + 1 < s.cities.length →
      (t.node (s.cities.getD m 0)).next = s.cities.getD (m + 1) 0 ∧
      (t.node (s.cities.getD (m + 1) 0)).prev = s.cities.getD m 0) :=
    decidable_of_iff (∀ m < s.cities.length - 1,
      (t.node (s.cities.getD m 0)).next = s.cities.getD (m + 1) 0 ∧
      (t.node (s.cities.getD (m + 1) 0)).prev = s.cities.getD m 0)
      (by constructor <;> (intro hh m hm; exact hh m (by omega)))
  infer_instance

instance (t : Tree) (s : SegM) : Decidable (SegCohPar t s) := by
  unfold SegCohPar; infer_instance

instance (t : Tree) (s s' : SegM) : Decidable (BoundaryCoh t s s') := by
  unfold BoundaryCoh; infer_instance

instance (t : Tree) (M : Model) : Decidable (Coherent t M) := by
  unfold Coherent; infer_instance

/-- Segment model of the 14-city example tree. -/
def M14 : Model :=
  ⟨[⟨0, false, 0, [11, 13, 6]⟩, ⟨1, false, 0, [8, 4, 1]⟩,
    ⟨2, false, 0, [2, 5, 9]⟩, ⟨3, false, 0, [10, 7, 12, 14, 3]⟩]⟩

theorem claim_C2_witness :
    Coherent t14w M14 ∧ 8 ∈ M14.tour ∧ 5 ∈ M14.tour ∧ 13 ∈ M14.tour ∧
      (8 : Nat) ≠ 5 ∧ (8 : Nat) ≠ 13 ∧ (5 : Nat) ≠ 13 ∧
      (isBetween t14w 8 5 13 = true ↔
        (getRawTour t14w 8).indexOf 5 < (getRawTour t14w 8).indexOf 13) :=
  ⟨by decide, by decide, by decide, by decide, by decide, by decide, by decide,
    @claim_C2 t14w M14 (by decide) 8 5 13 (by decide) (by decide) (by decide)
      (by decide) (by decide) (by decide)⟩

end TLT

namespace TLT

end TLT

namespace TLT

end TLT

namespace TLT

/-- Stepping logically forward from a tour city stays on the tour. -/
theorem tour_closed_getNext {t : Tree} {M : Model} (h : Coherent t M) {c : Nat}
    (hc : c ∈ M.tour) : getNext t c ∈ M.tour := by
  obtain ⟨i, hi, he⟩ := List.mem_iff_getElem.1 hc
  rw [← List.getD_eq_getElem _ 0 hi] at he
  rw [← he, tour_cycChain h i hi]
  have hlt : (i + 1) % M.tour.length < M.tour.length := Nat.mod_lt _ (tour_pos h)
  rw [List.getD_eq_getElem _ 0 hlt]
  exact List.getElem_mem _

/-- get_raw_tour is determined by the city fields and the logical
successor map on the tour. -/
theorem rawTourAux_congr {t t' : Tree} {M : Model} (h : Coherent t M)
    (hgn : ∀ c, c ∈ M.tour → getNext t' c = getNext t c)
    (hcity : ∀ c, c ∈ M.tour → (t'.node c).city = (t.node c).city) :
    ∀ (k c : Nat), c ∈ M.tour →
      rawTourAux t' Direction.forward c k = rawTourAux t Direction.forward c k := by
  intro k
  induction k with
  | zero => intro c _; rfl
  | succ k ih =>
    intro c hc
    rw [rawTourAux, rawTourAux]
    simp only [hgn c hc, hcity c hc, if_pos rfl]
    exact congrArg (List.cons _) (ih _ (tour_closed_getNext h hc))

/-- A duplicate-free list of numbers below N has at most N elements. -/
theorem nodup_length_le {l : List Nat} (h : l.Nodup) {N : Nat}
    (hb : ∀ x ∈ l, x < N) : l.length ≤ N := by
  have hcard : l.toFinset.card = l.length := List.toFinset_card_of_nodup h
  have hsub : l.toFinset ⊆ Finset.range N := by
    intro x hx
    rw [Finset.mem_range]
    exact hb x (List.mem_toFinset.1 hx)
  have := Finset.card_le_card hsub
  rw [hcard, Finset.card_range] at this
  exact this

/-- The tour of a coherent tree is no longer than the node arena. -/
theorem tour_length_le_nodes {t : Tree} {M : Model} (h : Coherent t M) :
    M.tour.length ≤ t.nodes.length := by
  apply nodup_length_le h.tour_nodup
  intro x hx
  obtain ⟨i, hi, he⟩ := List.mem_iff_getElem.1 hx
  rw [← List.getD_eq_getElem _ 0 hi] at he
  rw [← he]
  exact (tour_city h hi).2

end TLT

namespace TLT

/-- The tour splits around any segment. -/
theorem tour_split {t : Tree} {M : Model} (h : Coherent t M) {j : Nat}
    (hj : j < M.segs.length) :
    M.tour = ((M.segs.take j).flatMap SegM.fwd) ++ (M.seg j).fwd ++
      ((M.segs.drop (j + 1)).flatMap SegM.fwd) := by
  have hdrop : M.segs.drop j = M.seg j :: M.segs.drop (j + 1) := by
    rw [List.drop_eq_get_cons hj, ← Model.seg_eq_get hj]
  conv_lhs => rw [Model.tour, ← List.take_append_drop j M.segs]
  rw [List.flatMap_append, hdrop, List.flatMap_cons, List.append_assoc]

theorem fwd_mem_tour {t : Tree} {M : Model} (h : Coherent t M) {j : Nat}
    (hj : j < M.segs.length) {x : Nat} (hx : x ∈ (M.seg j).fwd) : x ∈ M.tour := by
  rw [tour_split h hj]
  simp only [List.mem_append]
  exact Or.inl (Or.inr hx)

theorem fwd_nodup {t : Tree} {M : Model} (h : Coherent t M) {j : Nat}
    (hj : j < M.segs.length) : (M.seg j).fwd.Nodup := by
  have hsub : (M.seg j).fwd.Sublist M.tour := by
    rw [tour_split h hj]
    exact ((List.sublist_append_right _ _).trans (List.sublist_append_left _ _)).trans
      (List.Sublist.refl _) |>.trans (List.Sublist.refl _)
  exact hsub.nodup h.tour_nodup

/-- Cities of distinct segments are distinct. -/
theorem fwd_disjoint {t : Tree} {M : Model} (h : Coherent t M) {j j' : Nat}
    (hj : j < M.segs.length) (hj' : j' < M.segs.length) (hne : j ≠ j') {x : Nat}
    (hx : x ∈ (M.seg j).fwd) (hx' : x ∈ (M.seg j').fwd) : False := by
  obtain ⟨m, hm, he⟩ := List.mem_iff_getElem.1 hx
  rw [← List.getD_eq_getElem _ 0 hm] at he
  obtain ⟨m', hm', he'⟩ := List.mem_iff_getElem.1 hx'
  rw [← List.getD_eq_getElem _ 0 hm'] at he'
  have h1 : M.tour.getD (M.off j + m) 0 = x := by rw [tour_getD_off h hj hm, he]
  have h2 : M.tour.getD (M.off j' + m') 0 = x := by rw [tour_getD_off h hj' hm', he']
  have hb1 : M.off j + m < M.tour.length := off_add_lt h hj hm
  have hb2 : M.off j' + m' < M.tour.length := off_add_lt h hj' hm'
  have heq : M.off j + m = M.off j' + m' :=
    nodup_getD_inj h.tour_nodup hb1 hb2 (h1.trans h2.symm)
  rcases Nat.lt_trichotomy j j' with hc | hc | hc
  · have hs := Model.off_succ (M := M) hj
    have hmono := @Model.off_mono M (j + 1) j' (by omega) (by omega)
    have hl : (M.seg j).fwd.length = (M.seg j).cities.length := SegM.fwd_length _
    omega
  · exact hne hc
  · have hs := Model.off_succ (M := M) hj'
    have hmono := @Model.off_mono M (j' + 1) j (by omega) (by omega)
    have hl : (M.seg j').fwd.length = (M.seg j').cities.length := SegM.fwd_length _
    omega

/-- The cyclic successor of a segment slot differs from it. -/
theorem succ_mod_ne {K j : Nat} (hK : 2 ≤ K) (hj : j < K) : (j + 1) % K ≠ j := by
  rcases Nat.lt_or_ge (j + 1) K with hc | hc
  · rw [Nat.mod_eq_of_lt hc]; omega
  · have : j + 1 = K := by omega
    rw [this, Nat.mod_self]; omega

theorem pred_mod_succ {K j : Nat} (hK : 0 < K) (hj : j < K) :
    ((j + K - 1) % K + 1) % K = j := by
  rw [Nat.mod_add_mod]
  have he : j + K - 1 + 1 = j + K := by omega
  rw [he, Nat.add_mod_right, Nat.mod_eq_of_lt hj]

theorem pred_mod_ne {K j : Nat} (hK : 2 ≤ K) (hj : j < K) : (j + K - 1) % K ≠ j := by
  intro he
  have := pred_mod_succ (K := K) (j := j) (by omega) hj
  rw [he] at this
  exact succ_mod_ne hK hj this

end TLT

namespace TLT

/-- Backward chain inside a segment. -/
theorem segChainPrev {t : Tree} {s : SegM} (hN : SegCohNodes t s) (hP : SegCohPar t s)
    {i : Nat} (hi : i + 1 < s.fwd.length) :
    getPrev t (s.fwd.getD (i + 1) 0) = s.fwd.getD i 0 := by
  have hlen : s.fwd.length = s.cities.length := s.fwd_length
  have hpar := (fwd_node_facts hN (by omega : i + 1 < s.fwd.length)).1
  unfold getPrev Tree.parOf
  rw [hpar, hP.2.1]
  rw [SegM.fwd_getD (by omega : i + 1 < s.cities.length),
      SegM.fwd_getD (by omega : i < s.cities.length)]
  by_cases hrev : s.rev = true
  · rw [if_pos hrev, if_pos hrev, if_pos hrev]
    have hm : s.cities.length - 1 - (i + 1) + 1 = s.cities.length - 1 - i := by omega
    have hcl := (hN.2.2 (s.cities.length - 1 - (i + 1)) (by omega)).1
    rw [hm] at hcl
    exact hcl
  · rw [if_neg hrev, if_neg hrev, if_neg hrev]
    exact (hN.2.2 i (by omega)).2

/-- Stepping logically backward off the forward-begin of a segment lands
on the forward-end of its predecessor. -/
theorem getPrev_fb {t : Tree} {s s' : SegM} (hN : SegCohNodes t s)
    (hN' : SegCohNodes t s') (hP' : SegCohPar t s')
    (hB : BoundaryCoh t s s') : getPrev t s'.fb = s.fe := by
  have hne' : s'.cities ≠ [] := hN'.1
  have hfb : s'.fb = s'.fwd.getD 0 0 := s'.fb_eq_fwd_getD hne'
  have hlen : s'.fwd.length = s'.cities.length := s'.fwd_length
  have hpos : 0 < s'.cities.length := List.length_pos.2 hne'
  have hpar := (fwd_node_facts hN' (by omega : 0 < s'.fwd.length)).1
  unfold getPrev Tree.parOf
  rw [hfb, hpar, hP'.2.1, ← hfb]
  by_cases hrev : s'.rev = true
  · rw [if_pos hrev]
    have := hB.2.1
    rwa [if_pos hrev] at this
  · rw [if_neg hrev]
    have := hB.2.1
    rwa [if_neg hrev] at this

/-- A collect walk started under a foreign parent is empty. -/
theorem collect_stop {t : Tree} {parent : Nat} {fb : Bool} {x : Nat}
    (hx : (t.node x).parent ≠ parent) (fuel : Nat) :
    collectWhileSameParent t parent fb x fuel = [] := by
  cases fuel with
  | zero => rfl
  | succ f =>
    rw [collectWhileSameParent, if_neg hx]

/-- Closed form of the forward collect loop: from position i of a
segment's logical list, it gathers exactly the logical tail. -/
theorem collect_fwd_eq {t : Tree} {M : Model} (h : Coherent t M) {j : Nat}
    (hj : j < M.segs.length) :
    ∀ (d i fuel : Nat), i + d = (M.seg j).fwd.length → i < (M.seg j).fwd.length →
      d + 1 ≤ fuel →
      collectWhileSameParent t (M.seg j).pIdx true ((M.seg j).fwd.getD i 0) fuel =
        (M.seg j).fwd.drop i := by
  have hN := h.segNodes hj
  have hP := h.segPar hj
  intro d
  induction d with
  | zero => intro i _ h1 h2; omega
  | succ d ih =>
    intro i fuel hid hi hfuel
    obtain ⟨f, rfl⟩ : ∃ f, fuel = f + 1 := ⟨fuel - 1, by omega⟩
    rw [collectWhileSameParent,
      if_pos (fwd_node_facts hN (by omega : i < (M.seg j).fwd.length)).1]
    rw [if_pos (rfl : (true : Bool) = true)]
    have hdrop : (M.seg j).fwd.drop i =
        (M.seg j).fwd.getD i 0 :: (M.seg j).fwd.drop (i + 1) := by
      rw [List.getD_eq_getElem _ 0 hi]
      exact List.drop_eq_getElem_cons hi
    rw [hdrop]
    congr 1
    by_cases hlast : i + 1 < (M.seg j).fwd.length
    · rw [segChain hN hP i hlast]
      exact ih (i + 1) f (by omega) hlast (by omega)
    · have hieq : i + 1 = (M.seg j).fwd.length := by omega
      have hfe : (M.seg j).fwd.getD i 0 = (M.seg j).fe := by
        rw [(M.seg j).fe_eq_fwd_getD hN.1]
        congr 1
        omega
      rw [hfe, getNext_fe hN hP (h.boundary hj)]
      rw [List.drop_of_length_le (by omega)]
      apply collect_stop
      have hK2 := h.two_le
      have hj1 : (j + 1) % M.segs.length < M.segs.length :=
        Nat.mod_lt _ (by omega)
      have hN1 := h.segNodes hj1
      have hfb : (M.seg ((j + 1) % M.segs.length)).fb =
          (M.seg ((j + 1) % M.segs.length)).fwd.getD 0 0 :=
        SegM.fb_eq_fwd_getD _ hN1.1
      rw [hfb]
      have hpar := (fwd_node_facts hN1 (by
        have := List.length_pos.2 hN1.1
        have hl := (M.seg ((j + 1) % M.segs.length)).fwd_length
        omega : 0 < (M.seg ((j + 1) % M.segs.length)).fwd.length)).1
      rw [hpar]
      intro he
      exact succ_mod_ne hK2 hj (pIdx_inj h hj1 hj he)

end TLT

namespace TLT

/-- Closed form of the backward collect loop: from position i it gathers
the logical prefix up to i, in reverse walking order. -/
theorem collect_bwd_eq {t : Tree} {M : Model} (h : Coherent t M) {j : Nat}
    (hj : j < M.segs.length) :
    ∀ (i fuel : Nat), i < (M.seg j).fwd.length → i + 2 ≤ fuel →
      collectWhileSameParent t (M.seg j).pIdx false ((M.seg j).fwd.getD i 0) fuel =
        ((M.seg j).fwd.take (i + 1)).reverse := by
  have hN := h.segNodes hj
  have hP := h.segPar hj
  intro i
  induction i with
  | zero =>
    intro fuel hi hfuel
    obtain ⟨f, rfl⟩ : ∃ f, fuel = f + 1 := ⟨fuel - 1, by omega⟩
    rw [collectWhileSameParent, if_pos (fwd_node_facts hN hi).1,
      if_neg (by exact fun hcon => Bool.false_ne_true hcon)]
    have hK2 := h.two_le
    have hj' : (j + M.segs.length - 1) % M.segs.length < M.segs.length :=
      Nat.mod_lt _ (by omega)
    have hb := h.boundary hj'
    rw [pred_mod_succ (by omega) hj] at hb
    have hfbeq : (M.seg j).fwd.getD 0 0 = (M.seg j).fb :=
      ((M.seg j).fb_eq_fwd_getD hN.1).symm
    rw [hfbeq, getPrev_fb (h.segNodes hj') hN hP hb]
    rw [collect_stop]
    · rw [List.take_succ, List.take_zero, List.nil_append,
        List.getElem?_eq_getElem hi]
      rw [← hfbeq, List.getD_eq_getElem _ 0 hi]
      rfl
    · have hN' := h.segNodes hj'
      have hlen' := (M.seg ((j + M.segs.length - 1) % M.segs.length)).fwd_length
      have hpos' := List.length_pos.2 hN'.1
      have hfe : (M.seg ((j + M.segs.length - 1) % M.segs.length)).fe =
          (M.seg ((j + M.segs.length - 1) % M.segs.length)).fwd.getD
            ((M.seg ((j + M.segs.length - 1) % M.segs.length)).fwd.length - 1) 0 :=
        SegM.fe_eq_fwd_getD _ hN'.1
      rw [hfe, (fwd_node_facts hN' (by omega)).1]
      intro he
      exact pred_mod_ne hK2 hj (pIdx_inj h hj' hj he)
  | succ i ih =>
    intro fuel hi hfuel
    obtain ⟨f, rfl⟩ : ∃ f, fuel = f + 1 := ⟨fuel - 1, by omega⟩
    rw [collectWhileSameParent, if_pos (fwd_node_facts hN hi).1,
      if_neg (by exact fun hcon => Bool.false_ne_true hcon)]
    rw [segChainPrev hN hP hi, ih f (by omega) (by omega)]
    rw [List.take_succ (n := i + 1), List.getElem?_eq_getElem hi,
      List.reverse_append]
    rw [List.getD_eq_getElem _ 0 hi]
    rfl

end TLT

namespace TLT

/-- connect_arc_forward on two nodes of the same segment writes p's
logical-forward physical slot and q's logical-backward physical slot. -/
theorem connectArcForward_eq {t : Tree} {nb p q : Nat}
    (hp : p < t.nodes.length)
    (hpp : (t.node p).parent = nb) (hqq : (t.node q).parent = nb) (hne : p ≠ q) :
    connectArcForward t p q =
      if (t.par nb).reverse then
        (t.setNode p (fun nd => { nd with prev := q })).setNode q
          (fun nd => { nd with next := p })
      else
        (t.setNode p (fun nd => { nd with next := q })).setNode q
          (fun nd => { nd with prev := p }) := by
  unfold connectArcForward Tree.parOf
  simp only [hpp]
  by_cases hrev : (t.par nb).reverse = true
  · rw [if_pos hrev, if_pos hrev]
    rw [par_setNode, node_setNode_ne _ hne, hqq, if_pos hrev]
  · rw [if_neg hrev, if_neg hrev]
    rw [par_setNode, node_setNode_ne _ hne, hqq, if_neg hrev]

end TLT

namespace TLT

/-- Write the physical slot encoding the logical-forward link. -/
def setFwdSlot (rev : Bool) (v : Nat) (nd : Node) : Node :=
  if rev then { nd with prev := v } else { nd with next := v }

/-- Write the physical slot encoding the logical-backward link. -/
def setBwdSlot (rev : Bool) (v : Nat) (nd : Node) : Node :=
  if rev then { nd with next := v } else { nd with prev := v }

/-- Read the physical slot encoding the logical-forward link. -/
def fwdSlot (rev : Bool) (nd : Node) : Nat := if rev then nd.prev else nd.next

theorem setFwdSlot_city (rev : Bool) (v : Nat) (nd : Node) :
    (setFwdSlot rev v nd).city = nd.city := by cases rev <;> rfl

theorem setFwdSlot_parent (rev : Bool) (v : Nat) (nd : Node) :
    (setFwdSlot rev v nd).parent = nd.parent := by cases rev <;> rfl

theorem setFwdSlot_id (rev : Bool) (v : Nat) (nd : Node) :
    (setFwdSlot rev v nd).id = nd.id := by cases rev <;> rfl

theorem fwdSlot_setFwdSlot (rev : Bool) (v : Nat) (nd : Node) :
    fwdSlot rev (setFwdSlot rev v nd) = v := by cases rev <;> rfl

theorem setBwdSlot_city (rev : Bool) (v : Nat) (nd : Node) :
    (setBwdSlot rev v nd).city = nd.city := by cases rev <;> rfl

theorem setBwdSlot_parent (rev : Bool) (v : Nat) (nd : Node) :
    (setBwdSlot rev v nd).parent = nd.parent := by cases rev <;> rfl

theorem setBwdSlot_id (rev : Bool) (v : Nat) (nd : Node) :
    (setBwdSlot rev v nd).id = nd.id := by cases rev <;> rfl

theorem fwdSlot_setBwdSlot (rev : Bool) (v : Nat) (nd : Node) :
    fwdSlot rev (setBwdSlot rev v nd) = fwdSlot rev nd := by cases rev <;> rfl

theorem fwdSlot_id_update (rev : Bool) (x : Int) (nd : Node) :
    fwdSlot rev { nd with id := x } = fwdSlot rev nd := by cases rev <;> rfl

theorem fwdSlot_parent_update (rev : Bool) (x : Nat) (nd : Node) :
    fwdSlot rev { nd with parent := x } = fwdSlot rev nd := by cases rev <;> rfl

/-- connect_arc_forward, slot form. -/
theorem connectArcForward_slots {t : Tree} {nb p q : Nat} {rev : Bool}
    (hp : p < t.nodes.length)
    (hpp : (t.node p).parent = nb) (hqq : (t.node q).parent = nb)
    (hrev : (t.par nb).reverse = rev) (hne : p ≠ q) :
    connectArcForward t p q =
      (t.setNode p (setFwdSlot rev q)).setNode q (setBwdSlot rev p) := by
  rw [connectArcForward_eq hp hpp hqq hne, hrev]
  cases rev
  · rw [if_neg (by exact fun hcon => Bool.false_ne_true hcon)]
    rfl
  · rw [if_pos rfl]
    rfl

end TLT

namespace TLT

theorem id_update_city (x : Int) (nd : Node) : ({ nd with id := x } : Node).city = nd.city := rfl

theorem id_update_parent (x : Int) (nd : Node) : ({ nd with id := x } : Node).parent = nd.parent := rfl

theorem parent_update_city (x : Nat) (nd : Node) : ({ nd with parent := x } : Node).city = nd.city := rfl

/-- Pointwise description of the forward merge loop of split_and_merge:
it rebinds the processed nodes to the neighbor parent and chains their
logical-forward slots toward q, writing only q's logical-backward slot
among the other touched fields. -/
theorem mergeLoopForward_spec {nb : Nat} {δ : Int} {rev : Bool} :
    ∀ (l : List Nat) (t : Tree) (q : Nat),
      (∀ x ∈ l, x < t.nodes.length) → q < t.nodes.length →
      (t.node q).parent = nb → (t.par nb).reverse = rev →
      q ∉ l → l.Nodup →
      (mergeLoopForward t nb δ q l).1.parents = t.parents ∧
      (mergeLoopForward t nb δ q l).1.nodes.length = t.nodes.length ∧
      (mergeLoopForward t nb δ q l).1.nCities = t.nCities ∧
      (mergeLoopForward t nb δ q l).2 = l.getLastD q ∧
      (∀ c, c ∉ l → c ≠ q → (mergeLoopForward t nb δ q l).1.node c = t.node c) ∧
      ((mergeLoopForward t nb δ q l).1.node q).city = (t.node q).city ∧
      ((mergeLoopForward t nb δ q l).1.node q).parent = (t.node q).parent ∧
      fwdSlot rev ((mergeLoopForward t nb δ q l).1.node q) = fwdSlot rev (t.node q) ∧
      (∀ i, i < l.length →
        ((mergeLoopForward t nb δ q l).1.node (l.getD i 0)).parent = nb ∧
        ((mergeLoopForward t nb δ q l).1.node (l.getD i 0)).city =
          (t.node (l.getD i 0)).city ∧
        fwdSlot rev ((mergeLoopForward t nb δ q l).1.node (l.getD i 0)) =
          (if i = 0 then q else l.getD (i - 1) 0)) := by
  intro l
  induction l with
  | nil =>
    intro t q hb hqb hq hrevP hql hnd
    exact ⟨rfl, rfl, rfl, rfl, fun c _ _ => rfl, rfl, rfl, rfl,
      fun i hi => by simp at hi⟩
  | cons p rest ih =>
    intro t q hb hqb hq hrevP hql hnd
    have hbp : p < t.nodes.length := hb p (List.mem_cons_self p rest)
    have hqp : q ≠ p := fun he => hql (by rw [he]; exact List.mem_cons_self p rest)
    have hpq : p ≠ q := fun he => hqp he.symm
    have hprest : p ∉ rest := (List.nodup_cons.1 hnd).1
    have hndrest : rest.Nodup := (List.nodup_cons.1 hnd).2
    have hqrest : q ∉ rest := fun hm => hql (List.mem_cons_of_mem _ hm)
    have hpar1p : ((t.setNode p (fun nd => { nd with parent := nb })).node p).parent
        = nb := by
      rw [node_setNode_self _ hbp]
    have hpar1q : ((t.setNode p (fun nd => { nd with parent := nb })).node q).parent
        = nb := by
      rw [node_setNode_ne _ hpq]; exact hq
    have hc := connectArcForward_slots
      (t := t.setNode p (fun nd => { nd with parent := nb }))
      (by simpa using hbp) hpar1p hpar1q hrevP hpq
    have hstep : mergeLoopForward t nb δ q (p :: rest) =
        mergeLoopForward
          ((connectArcForward (t.setNode p (fun nd => { nd with parent := nb })) p q).setNode
            p (fun nd => { nd with id :=
              ((connectArcForward (t.setNode p (fun nd => { nd with parent := nb })) p
                q).node q).id + δ }))
          nb δ p rest := by
      rw [mergeLoopForward]
    rw [hstep, hc]
    set t1 := t.setNode p (fun nd => { nd with parent := nb }) with ht1
    set t2 := (t1.setNode p (setFwdSlot rev q)).setNode q (setBwdSlot rev p) with ht2
    set t3 := t2.setNode p (fun nd => { nd with id := (t2.node q).id + δ }) with ht3
    have hlen2 : t2.nodes.length = t.nodes.length := by
      rw [ht2, ht1]; simp
    have hlen3 : t3.nodes.length = t.nodes.length := by
      rw [ht3]; simp [hlen2]
    have ht2q : t2.node q = setBwdSlot rev p (t.node q) := by
      rw [ht2, node_setNode_self _ (by simp [ht1]; omega), node_setNode_ne _ hpq,
        ht1, node_setNode_ne _ hpq]
    have ht3q : t3.node q = setBwdSlot rev p (t.node q) := by
      rw [ht3, node_setNode_ne _ hpq, ht2q]
    have ht3frame : ∀ c, c ≠ p → c ≠ q → t3.node c = t.node c := by
      intro c hcp hcq
      rw [ht3, node_setNode_ne _ (Ne.symm hcp), ht2,
        node_setNode_ne _ (Ne.symm hcq), node_setNode_ne _ (Ne.symm hcp),
        ht1, node_setNode_ne _ (Ne.symm hcp)]
    have ht2p : t2.node p = setFwdSlot rev q { t.node p with parent := nb } := by
      rw [ht2, node_setNode_ne _ hqp,
        node_setNode_self _ (by simp [ht1]; omega)]
      congr 1
      rw [ht1, node_setNode_self _ hbp]
    have ht3p : t3.node p =
        { setFwdSlot rev q { t.node p with parent := nb } with
            id := (setBwdSlot rev p (t.node q)).id + δ } := by
      rw [ht3, node_setNode_self _ (by omega), ht2q, ht2p]
    have hq3city : (t3.node q).city = (t.node q).city := by
      rw [ht3q, setBwdSlot_city]
    have hq3par : (t3.node q).parent = nb := by
      rw [ht3q, setBwdSlot_parent]; exact hq
    have hq3slot : fwdSlot rev (t3.node q) = fwdSlot rev (t.node q) := by
      rw [ht3q, fwdSlot_setBwdSlot]
    have hp3par : (t3.node p).parent = nb := by
      rw [ht3p, id_update_parent, setFwdSlot_parent]
    have hp3city : (t3.node p).city = (t.node p).city := by
      rw [ht3p, id_update_city, setFwdSlot_city, parent_update_city]
    have hp3slot : fwdSlot rev (t3.node p) = q := by
      rw [ht3p, fwdSlot_id_update, fwdSlot_setFwdSlot]
    have hrev3 : (t3.par nb).reverse = rev := hrevP
    obtain ⟨ihparents, ihlen, ihnc, ihlast, ihframe, ihqcity, ihqpar, ihqslot, ihelems⟩ :=
      ih t3 p (fun x hx => by rw [hlen3]; exact hb x (List.mem_cons_of_mem _ hx))
        (by omega) hp3par hrev3 hprest hndrest
    refine ⟨ihparents, by rw [ihlen, hlen3], ihnc, ?_, ?_, ?_, ?_, ?_, ?_⟩
    · rw [ihlast, List.getLastD_cons]
    · intro c hcl hcq
      have hcp : c ≠ p := fun he => hcl (by rw [he]; exact List.mem_cons_self p rest)
      have hcrest : c ∉ rest := fun hm => hcl (List.mem_cons_of_mem _ hm)
      rw [ihframe c hcrest hcp, ht3frame c hcp hcq]
    · rw [ihframe q hqrest hqp, hq3city]
    · rw [ihframe q hqrest hqp, ht3q, setBwdSlot_parent]
    · rw [ihframe q hqrest hqp, hq3slot]
    · intro i hi
      cases i with
      | zero =>
        rw [List.getD_cons_zero]
        refine ⟨by rw [ihqpar, hp3par], by rw [ihqcity, hp3city], ?_⟩
        rw [if_pos rfl, ihqslot, hp3slot]
      | succ i' =>
        have hi' : i' < rest.length := by simpa using hi
        have hgd : (p :: rest).getD (i' + 1) 0 = rest.getD i' 0 := by
          rw [List.getD_cons_succ]
        have hxmem : rest.getD i' 0 ∈ rest := by
          rw [List.getD_eq_getElem _ 0 hi']
          exact List.getElem_mem _
        have hxp : rest.getD i' 0 ≠ p := fun he => hprest (he ▸ hxmem)
        have hxq : rest.getD i' 0 ≠ q := fun he => hqrest (he ▸ hxmem)
        obtain ⟨e1, e2, e3⟩ := ihelems i' hi'
        rw [hgd]
        refine ⟨e1, by rw [e2, ht3frame _ hxp hxq], ?_⟩
        rw [e3, if_neg (by omega : ¬ i' + 1 = 0)]
        have hridx : i' + 1 - 1 = i' := by omega
        rw [hridx]
        by_cases hi0 : i' = 0
        · subst hi0
          rw [if_pos rfl, List.getD_cons_zero]
        · obtain ⟨i3, rfl⟩ : ∃ i3, i' = i3 + 1 := ⟨i' - 1, by omega⟩
          rw [if_neg hi0, List.getD_cons_succ]
          congr 1

end TLT

namespace TLT

theorem bwdSlot_setFwdSlot (rev : Bool) (v : Nat) (nd : Node) :
    (if rev then (setFwdSlot rev v nd).next else (setFwdSlot rev v nd).prev) =
      (if rev then nd.next else nd.prev) := by cases rev <;> rfl

/-- Pointwise description of the backward merge loop of split_and_merge. -/
theorem mergeLoopBackward_spec {nb : Nat} {δ : Int} {rev : Bool} :
    ∀ (l : List Nat) (t : Tree) (q : Nat),
      (∀ x ∈ l, x < t.nodes.length) → q < t.nodes.length →
      (t.node q).parent = nb → (t.par nb).reverse = rev →
      q ∉ l → l.Nodup →
      (mergeLoopBackward t nb δ q l).1.parents = t.parents ∧
      (mergeLoopBackward t nb δ q l).1.nodes.length = t.nodes.length ∧
      (mergeLoopBackward t nb δ q l).1.nCities = t.nCities ∧
      (mergeLoopBackward t nb δ q l).2 = l.getLastD q ∧
      (∀ c, c ∉ l → c ≠ q → (mergeLoopBackward t nb δ q l).1.node c = t.node c) ∧
      ((mergeLoopBackward t nb δ q l).1.node q).city = (t.node q).city ∧
      ((mergeLoopBackward t nb δ q l).1.node q).parent = (t.node q).parent ∧
      fwdSlot rev ((mergeLoopBackward t nb δ q l).1.node q) =
        l.headD (fwdSlot rev (t.node q)) ∧
      (∀ i, i < l.length →
        ((mergeLoopBackward t nb δ q l).1.node (l.getD i 0)).parent = nb ∧
        ((mergeLoopBackward t nb δ q l).1.node (l.getD i 0)).city =
          (t.node (l.getD i 0)).city ∧
        fwdSlot rev ((mergeLoopBackward t nb δ q l).1.node (l.getD i 0)) =
          (if i + 1 < l.length then l.getD (i + 1) 0
            else fwdSlot rev (t.node (l.getD i 0)))) := by
  intro l
  induction l with
  | nil =>
    intro t q hb hqb hq hrevP hql hnd
    exact ⟨rfl, rfl, rfl, rfl, fun c _ _ => rfl, rfl, rfl, rfl,
      fun i hi => by simp at hi⟩
  | cons p rest ih =>
    intro t q hb hqb hq hrevP hql hnd
    have hbp : p < t.nodes.length := hb p (List.mem_cons_self p rest)
    have hqp : q ≠ p := fun he => hql (by rw [he]; exact List.mem_cons_self p rest)
    have hpq : p ≠ q := fun he => hqp he.symm
    have hprest : p ∉ rest := (List.nodup_cons.1 hnd).1
    have hndrest : rest.Nodup := (List.nodup_cons.1 hnd).2
    have hqrest : q ∉ rest := fun hm => hql (List.mem_cons_of_mem _ hm)
    have hpar1p : ((t.setNode p (fun nd => { nd with parent := nb })).node p).parent
        = nb := by
      rw [node_setNode_self _ hbp]
    have hpar1q : ((t.setNode p (fun nd => { nd with parent := nb })).node q).parent
        = nb := by
      rw [node_setNode_ne _ hpq]; exact hq
    have hc := connectArcForward_slots
      (t := t.setNode p (fun nd => { nd with parent := nb }))
      (p := q) (q := p) (by simpa using hqb) hpar1q hpar1p hrevP hqp
    have hstep : mergeLoopBackward t nb δ q (p :: rest) =
        mergeLoopBackward
          ((connectArcForward (t.setNode p (fun nd => { nd with parent := nb })) q p).setNode
            p (fun nd => { nd with id :=
              ((connectArcForward (t.setNode p (fun nd => { nd with parent := nb })) q
                p).node q).id + δ }))
          nb δ p rest := by
      rw [mergeLoopBackward]
    rw [hstep, hc]
    set t1 := t.setNode p (fun nd => { nd with parent := nb }) with ht1
    set t2 := (t1.setNode q (setFwdSlot rev p)).setNode p (setBwdSlot rev q) with ht2
    set t3 := t2.setNode p (fun nd => { nd with id := (t2.node q).id + δ }) with ht3
    have hlen2 : t2.nodes.length = t.nodes.length := by
      rw [ht2, ht1]; simp
    have hlen3 : t3.nodes.length = t.nodes.length := by
      rw [ht3]; simp [hlen2]
    have ht2q : t2.node q = setFwdSlot rev p (t.node q) := by
      rw [ht2, node_setNode_ne _ hpq,
        node_setNode_self _ (by simp [ht1]; omega), ht1, node_setNode_ne _ hpq]
    have ht3q : t3.node q = setFwdSlot rev p (t.node q) := by
      rw [ht3, node_setNode_ne _ hpq, ht2q]
    have ht3frame : ∀ c, c ≠ p → c ≠ q → t3.node c = t.node c := by
      intro c hcp hcq
      rw [ht3, node_setNode_ne _ (Ne.symm hcp), ht2,
        node_setNode_ne _ (Ne.symm hcp), node_setNode_ne _ (Ne.symm hcq),
        ht1, node_setNode_ne _ (Ne.symm hcp)]
    have ht2p : t2.node p = setBwdSlot rev q { t.node p with parent := nb } := by
      rw [ht2, node_setNode_self _ (by simp [ht1]; omega)]
      congr 1
      rw [node_setNode_ne _ hqp, ht1, node_setNode_self _ hbp]
    have ht3p : t3.node p =
        { setBwdSlot rev q { t.node p with parent := nb } with
            id := (setFwdSlot rev p (t.node q)).id + δ } := by
      rw [ht3, node_setNode_self _ (by omega), ht2q, ht2p]
    have hq3city : (t3.node q).city = (t.node q).city := by
      rw [ht3q, setFwdSlot_city]
    have hq3par : (t3.node q).parent = (t.node q).parent := by
      rw [ht3q, setFwdSlot_parent]
    have hq3slot : fwdSlot rev (t3.node q) = p := by
      rw [ht3q, fwdSlot_setFwdSlot]
    have hp3par : (t3.node p).parent = nb := by
      rw [ht3p, id_update_parent, setBwdSlot_parent]
    have hp3city : (t3.node p).city = (t.node p).city := by
      rw [ht3p, id_update_city, setBwdSlot_city, parent_update_city]
    have hp3slot : fwdSlot rev (t3.node p) = fwdSlot rev (t.node p) := by
      rw [ht3p, fwdSlot_id_update, fwdSlot_setBwdSlot, fwdSlot_parent_update]
    have hrev3 : (t3.par nb).reverse = rev := hrevP
    obtain ⟨ihparents, ihlen, ihnc, ihlast, ihframe, ihqcity, ihqpar, ihqslot, ihelems⟩ :=
      ih t3 p (fun x hx => by rw [hlen3]; exact hb x (List.mem_cons_of_mem _ hx))
        (by omega) hp3par hrev3 hprest hndrest
    refine ⟨ihparents, by rw [ihlen, hlen3], ihnc, ?_, ?_, ?_, ?_, ?_, ?_⟩
    · rw [ihlast, List.getLastD_cons]
    · intro c hcl hcq
      have hcp : c ≠ p := fun he => hcl (by rw [he]; exact List.mem_cons_self p rest)
      have hcrest : c ∉ rest := fun hm => hcl (List.mem_cons_of_mem _ hm)
      rw [ihframe c hcrest hcp, ht3frame c hcp hcq]
    · rw [ihframe q hqrest hqp, hq3city]
    · rw [ihframe q hqrest hqp, hq3par]
    · rw [ihframe q hqrest hqp, hq3slot, List.headD_cons]
    · intro i hi
      cases i with
      | zero =>
        rw [List.getD_cons_zero]
        refine ⟨by rw [ihqpar, hp3par], by rw [ihqcity, hp3city], ?_⟩
        rw [ihqslot, hp3slot]
        cases rest with
        | nil =>
          rw [List.headD_nil, if_neg (by simp)]
        | cons r rs =>
          rw [List.headD_cons, if_pos (by simp)]
          rfl
      | succ i' =>
        have hi' : i' < rest.length := by simpa using hi
        have hgd : (p :: rest).getD (i' + 1) 0 = rest.getD i' 0 := by
          rw [List.getD_cons_succ]
        have hxmem : rest.getD i' 0 ∈ rest := by
          rw [List.getD_eq_getElem _ 0 hi']
          exact List.getElem_mem _
        have hxp : rest.getD i' 0 ≠ p := fun he => hprest (he ▸ hxmem)
        have hxq : rest.getD i' 0 ≠ q := fun he => hqrest (he ▸ hxmem)
        obtain ⟨e1, e2, e3⟩ := ihelems i' hi'
        rw [hgd]
        refine ⟨e1, by rw [e2, ht3frame _ hxp hxq], ?_⟩
        rw [e3]
        by_cases hlt : i' + 1 < rest.length
        · rw [if_pos hlt, if_pos (by simpa using Nat.succ_lt_succ hlt)]
          rw [List.getD_cons_succ]
        · rw [if_neg hlt, if_neg (by simpa using fun hcon => hlt (Nat.lt_of_succ_lt_succ hcon))]
          rw [ht3frame _ hxp hxq]

end TLT

namespace TLT

/-- connect_arc_forward with the two endpoints possibly in different
segments. -/
theorem connectArcForward_slots2 {t : Tree} {p q : Nat} {u v : Bool}
    (hp : p < t.nodes.length)
    (hrevp : (t.par (t.node p).parent).reverse = u)
    (hrevq : (t.par (t.node q).parent).reverse = v) (hne : p ≠ q) :
    connectArcForward t p q =
      (t.setNode p (setFwdSlot u q)).setNode q (setBwdSlot v p) := by
  unfold connectArcForward Tree.parOf
  rw [hrevp]
  cases u
  · simp only [Bool.false_eq_true, if_false]
    rw [par_setNode, node_setNode_ne _ hne, hrevq]
    cases v
    · simp only [Bool.false_eq_true, if_false]
      rfl
    · rw [if_pos rfl]
      rfl
  · rw [if_pos rfl]
    simp only []
    rw [par_setNode, node_setNode_ne _ hne, hrevq]
    cases v
    · simp only [Bool.false_eq_true, if_false]
      rfl
    · rw [if_pos rfl]
      rfl

/-- get_next reads the logical-forward physical slot. -/
theorem getNext_eq_fwdSlot (t : Tree) (c : Nat) :
    getNext t c = fwdSlot (t.par (t.node c).parent).reverse (t.node c) := by
  unfold getNext Tree.parOf fwdSlot
  rfl

/-- The tail of split_and_merge's forward branch, after the collected run
and the boundary node have been computed. -/
def snmForwardCore (t : Tree) (pj nb : Nat) (coll : List Nat) (bnd : Nat) : Tree :=
  let t := t.setPar nb (fun p => { p with size := p.size + (coll.length : Int) })
  let t := t.setPar pj (fun p => { p with size := p.size - (coll.length : Int) })
  let q0 :=
    if (t.par nb).reverse then (t.par nb).segmentEndNode
    else (t.par nb).segmentBeginNode
  let deltaId : Int := if (t.par nb).reverse then 1 else -1
  let tq := mergeLoopForward t nb deltaId q0 coll.reverse
  let t := tq.1
  let q := tq.2
  let t :=
    if (t.par nb).reverse then
      t.setPar nb (fun p => { p with segmentEndNode := q })
    else t.setPar nb (fun p => { p with segmentBeginNode := q })
  let t := connectArcForward t bnd q
  if (t.par pj).reverse then t.setPar pj (fun p => { p with segmentBeginNode := bnd })
  else t.setPar pj (fun p => { p with segmentEndNode := bnd })

/-- The tail of split_and_merge's backward branch. -/
def snmBackwardCore (t : Tree) (pj nb : Nat) (coll : List Nat) (bnd : Nat) : Tree :=
  let t := t.setPar nb (fun p => { p with size := p.size + (coll.length : Int) })
  let t := t.setPar pj (fun p => { p with size := p.size - (coll.length : Int) })
  let q0 :=
    if (t.par nb).reverse then (t.par nb).segmentBeginNode
    else (t.par nb).segmentEndNode
  let deltaId : Int := if (t.par nb).reverse then -1 else 1
  let tq := mergeLoopBackward t nb deltaId q0 coll.reverse
  let t := tq.1
  let q := tq.2
  let t :=
    if (t.par nb).reverse then
      t.setPar nb (fun p => { p with segmentBeginNode := q })
    else t.setPar nb (fun p => { p with segmentEndNode := q })
  let t := connectArcForward t q bnd
  if (t.par pj).reverse then t.setPar pj (fun p => { p with segmentEndNode := bnd })
  else t.setPar pj (fun p => { p with segmentBeginNode := bnd })

end TLT

namespace TLT

set_option maxHeartbeats 1000000 in
theorem snm_forward_bridge {t : Tree} {s pj nb bnd : Nat} {incl : Bool}
    {coll : List Nat}
    (hpar : (t.node s).parent = pj)
    (hnb : (t.par pj).next = nb)
    (hcoll : (if incl then [s] else []) ++
        collectWhileSameParent t pj true (getNext t s) (t.nodes.length + 1) = coll)
    (hbnd : (if incl then getPrev t s else s) = bnd)
    (hne : coll ≠ []) :
    splitAndMerge t s incl Direction.forward = snmForwardCore t pj nb coll bnd := by
  have hemp : coll.isEmpty = false := by
    cases coll
    · exact absurd rfl hne
    · rfl
  unfold splitAndMerge snmForwardCore
  simp only [if_true]
  rw [hpar, hnb, hcoll, hbnd, hemp]
  simp only [Bool.false_eq_true, if_false]

end TLT

namespace TLT

set_option maxHeartbeats 1000000 in
theorem snm_backward_bridge {t : Tree} {s pj nb bnd : Nat} {incl : Bool}
    {coll : List Nat}
    (hpar : (t.node s).parent = pj)
    (hnb : (t.par pj).prev = nb)
    (hcoll : (if incl then [s] else []) ++
        collectWhileSameParent t pj false (getPrev t s) (t.nodes.length + 1) = coll)
    (hbnd : (if incl then getNext t s else s) = bnd)
    (hne : coll ≠ []) :
    splitAndMerge t s incl Direction.backward = snmBackwardCore t pj nb coll bnd := by
  have hemp : coll.isEmpty = false := by
    cases coll
    · exact absurd rfl hne
    · rfl
  unfold splitAndMerge snmBackwardCore
  simp only [if_true, if_false]
  have hdir : ¬(Direction.backward = Direction.forward) := fun h =>
    Direction.noConfusion h
  repeat rw [if_neg hdir]
  rw [hpar, hnb, hcoll, hbnd, hemp]
  simp only [Bool.false_eq_true, if_false]

end TLT

namespace TLT

theorem fwd_mem_bound {t : Tree} {M : Model} (h : Coherent t M) {j : Nat}
    (hj : j < M.segs.length) {x : Nat} (hx : x ∈ (M.seg j).fwd) :
    x < t.nodes.length := by
  obtain ⟨m, hm, he⟩ := List.mem_iff_getElem.1 hx
  rw [← List.getD_eq_getElem _ 0 hm] at he
  rw [← he]
  exact (fwd_node_facts (h.segNodes hj) hm).2.2.2

theorem fb_mem {t : Tree} {M : Model} (h : Coherent t M) {j : Nat}
    (hj : j < M.segs.length) : (M.seg j).fb ∈ (M.seg j).fwd := by
  have hne := SegM.fwd_ne_nil (h.segNodes hj).1
  have hpos := List.length_pos.2 hne
  rw [(M.seg j).fb_eq_fwd_getD (h.segNodes hj).1, List.getD_eq_getElem _ 0 hpos]
  exact List.getElem_mem _

theorem getLastD_reverse (l : List Nat) (d : Nat) :
    l.reverse.getLastD d = l.headD d := by
  rw [List.getLastD_eq_getLast?, List.getLast?_reverse, List.headD_eq_head?]

theorem getD_drop (l : List Nat) (i k d : Nat) :
    (l.drop i).getD k d = l.getD (i + k) d := by
  unfold List.getD
  rw [List.get?_eq_getElem?, List.get?_eq_getElem?, List.getElem?_drop]

theorem reverse_getD {l : List Nat} {i : Nat} (hi : i < l.length) (d : Nat) :
    l.reverse.getD i d = l.getD (l.length - 1 - i) d := by
  rw [List.getD_eq_getElem _ d (by simpa using hi),
    List.getD_eq_getElem _ d (by omega : l.length - 1 - i < l.length)]
  rw [List.getElem_reverse]

/-- An element of a Nodup list before the drop point is not in the drop. -/
theorem getD_not_mem_drop {l : List Nat} (h : l.Nodup) {m d0 : Nat}
    (hm : m < d0) (hd0 : d0 ≤ l.length) (hmL : m < l.length) :
    l.getD m 0 ∉ l.drop d0 := by
  intro hmem
  obtain ⟨k, hk, he⟩ := List.mem_iff_getElem.1 hmem
  rw [← List.getD_eq_getElem _ 0 hk, getD_drop] at he
  have hkL : d0 + k < l.length := by
    have := List.length_drop d0 l
    omega
  have := nodup_getD_inj h hkL hmL he
  omega

end TLT

namespace TLT

theorem node_setPar_ite (b : Prop) [Decidable b] (t : Tree) (p : Nat)
    (f g : ParentNode → ParentNode) (c : Nat) :
    (if b then t.setPar p f else t.setPar p g).node c = t.node c := by
  split <;> rfl

theorem nodes_setPar_ite (b : Prop) [Decidable b] (t : Tree) (p : Nat)
    (f g : ParentNode → ParentNode) :
    (if b then t.setPar p f else t.setPar p g).nodes = t.nodes := by
  split <;> rfl

theorem nc_setPar_ite (b : Prop) [Decidable b] (t : Tree) (p : Nat)
    (f g : ParentNode → ParentNode) :
    (if b then t.setPar p f else t.setPar p g).nCities = t.nCities := by
  split <;> rfl

theorem par_rev_setPar (t : Tree) (p : Nat) (f : ParentNode → ParentNode)
    (hf : ∀ y, (f y).reverse = y.reverse) (x : Nat) :
    ((t.setPar p f).par x).reverse = (t.par x).reverse := by
  by_cases hx : p = x
  · subst hx
    rcases Nat.lt_or_ge p t.parents.length with hb | hb
    · rw [par_setPar_self _ hb, hf]
    · unfold Tree.setPar Tree.par
      rw [updNth_of_length_le _ hb]
  · rw [par_setPar_ne _ hx]

theorem par_rev_setPar_ite (b : Prop) [Decidable b] (t : Tree) (p : Nat)
    (f g : ParentNode → ParentNode)
    (hf : ∀ x, (f x).reverse = x.reverse) (hg : ∀ x, (g x).reverse = x.reverse)
    (x : Nat) :
    ((if b then t.setPar p f else t.setPar p g).par x).reverse =
      (t.par x).reverse := by
  have hcase : ∀ (u : ParentNode → ParentNode), (∀ y, (u y).reverse = y.reverse) →
      ((t.setPar p u).par x).reverse = (t.par x).reverse := by
    intro u hu
    by_cases hx : p = x
    · subst hx
      rcases Nat.lt_or_ge p t.parents.length with hb | hb
      · rw [par_setPar_self _ hb, hu]
      · unfold Tree.setPar Tree.par
        rw [updNth_of_length_le _ hb]
    · rw [par_setPar_ne _ hx]
  split
  · exact hcase f hf
  · exact hcase g hg

set_option maxHeartbeats 2000000 in
theorem snmForwardCore_pointwise {t : Tree} {M : Model} (h : Coherent t M)
    {j d0 : Nat} (hj : j < M.segs.length)
    (hd0 : 1 ≤ d0) (hd0L : d0 < (M.seg j).fwd.length) :
    (snmForwardCore t (M.seg j).pIdx (M.seg ((j + 1) % M.segs.length)).pIdx
        ((M.seg j).fwd.drop d0) ((M.seg j).fwd.getD (d0 - 1) 0)).nCities = t.nCities ∧
    (∀ c, c ∈ M.tour →
      ((snmForwardCore t (M.seg j).pIdx (M.seg ((j + 1) % M.segs.length)).pIdx
          ((M.seg j).fwd.drop d0) ((M.seg j).fwd.getD (d0 - 1) 0)).node c).city =
        (t.node c).city ∧
      getNext (snmForwardCore t (M.seg j).pIdx (M.seg ((j + 1) % M.segs.length)).pIdx
          ((M.seg j).fwd.drop d0) ((M.seg j).fwd.getD (d0 - 1) 0)) c = getNext t c) := by
  have hK2 := h.two_le
  have hK0 : 0 < M.segs.length := by omega
  have hj1 : (j + 1) % M.segs.length < M.segs.length := Nat.mod_lt _ hK0
  have hjne : (j + 1) % M.segs.length ≠ j := succ_mod_ne hK2 hj
  have hNj := h.segNodes hj
  have hPj := h.segPar hj
  have hNj1 := h.segNodes hj1
  have hPj1 := h.segPar hj1
  have hB := h.boundary hj
  have hpne : (M.seg j).pIdx ≠ (M.seg ((j + 1) % M.segs.length)).pIdx := fun he =>
    hjne ((pIdx_inj h hj hj1 he).symm)
  have hLc : (M.seg j).fwd.length = (M.seg j).cities.length := SegM.fwd_length _
  have hL1c : (M.seg ((j + 1) % M.segs.length)).fwd.length =
      (M.seg ((j + 1) % M.segs.length)).cities.length := SegM.fwd_length _
  have hL1pos : 0 < (M.seg ((j + 1) % M.segs.length)).fwd.length := by
    have := List.length_pos.2 hNj1.1
    omega
  have hfwdnodup := fwd_nodup h hj
  -- the tree after the two size updates
  unfold snmForwardCore
  simp only []
  set tb := (t.setPar (M.seg ((j + 1) % M.segs.length)).pIdx (fun p =>
      { p with size := p.size + ((List.drop d0 (M.seg j).fwd).length : Int) })).setPar
      (M.seg j).pIdx (fun p =>
      { p with size := p.size - ((List.drop d0 (M.seg j).fwd).length : Int) }) with htb
  have hp1lt : (M.seg ((j + 1) % M.segs.length)).pIdx < t.parents.length := hPj1.1
  have hpjlt : (M.seg j).pIdx < t.parents.length := hPj.1
  have htbrev1 : (tb.par (M.seg ((j + 1) % M.segs.length)).pIdx).reverse =
      (M.seg ((j + 1) % M.segs.length)).rev := by
    rw [htb, par_setPar_ne _ hpne, par_setPar_self _ hp1lt]
    exact hPj1.2.1
  have htbrevj : (tb.par (M.seg j).pIdx).reverse = (M.seg j).rev := by
    rw [htb, par_setPar_self _ (by simpa using hpjlt), par_setPar_ne _ (Ne.symm hpne)]
    exact hPj.2.1
  have htbEnd : (tb.par (M.seg ((j + 1) % M.segs.length)).pIdx).segmentEndNode =
      (M.seg ((j + 1) % M.segs.length)).cities.getLastD 0 := by
    rw [htb, par_setPar_ne _ hpne, par_setPar_self _ hp1lt]
    exact hPj1.2.2.2.2
  have htbBeg : (tb.par (M.seg ((j + 1) % M.segs.length)).pIdx).segmentBeginNode =
      (M.seg ((j + 1) % M.segs.length)).cities.headD 0 := by
    rw [htb, par_setPar_ne _ hpne, par_setPar_self _ hp1lt]
    exact hPj1.2.2.2.1
  rw [htbrev1, htbEnd, htbBeg]
  rw [show (if (M.seg ((j + 1) % M.segs.length)).rev = true then
      (M.seg ((j + 1) % M.segs.length)).cities.getLastD 0
      else (M.seg ((j + 1) % M.segs.length)).cities.headD 0) =
      (M.seg ((j + 1) % M.segs.length)).fb from (SegM.fb_eq _ hNj1.1).symm]
  -- membership facts
  have hcollsub : ∀ x ∈ ((M.seg j).fwd.drop d0).reverse, x ∈ (M.seg j).fwd := by
    intro x hx
    exact List.drop_subset _ _ (List.mem_reverse.1 hx)
  have hfb1mem := fb_mem h hj1
  have hfbparent : (t.node (M.seg ((j + 1) % M.segs.length)).fb).parent =
      (M.seg ((j + 1) % M.segs.length)).pIdx := by
    rw [SegM.fb_eq_fwd_getD _ hNj1.1]
    exact (fwd_node_facts hNj1 hL1pos).1
  have hspec := @mergeLoopForward_spec
    (M.seg ((j + 1) % M.segs.length)).pIdx
    (if (M.seg ((j + 1) % M.segs.length)).rev = true then (1 : Int) else -1)
    (M.seg ((j + 1) % M.segs.length)).rev
    ((M.seg j).fwd.drop d0).reverse tb (M.seg ((j + 1) % M.segs.length)).fb
    (fun x hx => fwd_mem_bound h hj (hcollsub x hx))
    (fwd_mem_bound h hj1 hfb1mem)
    hfbparent
    htbrev1
    (fun hmem => fwd_disjoint h hj hj1 (Ne.symm hjne) (hcollsub _ hmem) hfb1mem)
    (List.nodup_reverse.2 ((List.drop_sublist _ _).nodup hfwdnodup))
  obtain ⟨hsparents, hslen, hsnc, hslast, hsframe, hsqcity, hsqpar, hsqslot, hselems⟩ :=
    hspec
  have hlenc : ((M.seg j).fwd.drop d0).length = (M.seg j).fwd.length - d0 :=
    List.length_drop _ _
  have hqval : (mergeLoopForward tb (M.seg ((j + 1) % M.segs.length)).pIdx
      (if (M.seg ((j + 1) % M.segs.length)).rev = true then (1 : Int) else -1)
      (M.seg ((j + 1) % M.segs.length)).fb ((M.seg j).fwd.drop d0).reverse).2 =
      (M.seg j).fwd.getD d0 0 := by
    rw [hslast, getLastD_reverse, headD_eq_getD, getD_drop]
    rw [List.getD_eq_getElem _ _ (by omega : d0 + 0 < (M.seg j).fwd.length),
      List.getD_eq_getElem _ _ hd0L]
    simp
  rw [hqval] at hslast ⊢
  set tm := (mergeLoopForward tb (M.seg ((j + 1) % M.segs.length)).pIdx
      (if (M.seg ((j + 1) % M.segs.length)).rev = true then (1 : Int) else -1)
      (M.seg ((j + 1) % M.segs.length)).fb ((M.seg j).fwd.drop d0).reverse).1 with htm
  have hrevTQ : ∀ x, (tm.par x).reverse = (tb.par x).reverse := by
    intro x
    unfold Tree.par
    rw [hsparents]
  rw [hrevTQ, htbrev1]
  set td := (if (M.seg ((j + 1) % M.segs.length)).rev = true then
      tm.setPar (M.seg ((j + 1) % M.segs.length)).pIdx (fun p =>
        { p with segmentEndNode := (M.seg j).fwd.getD d0 0 })
      else tm.setPar (M.seg ((j + 1) % M.segs.length)).pIdx (fun p =>
        { p with segmentBeginNode := (M.seg j).fwd.getD d0 0 })) with htd
  have htdnodes : td.nodes = tm.nodes := by
    rw [htd]; split <;> rfl
  have htdnode : ∀ c, td.node c = tm.node c := by
    intro c; rw [htd]; split <;> rfl
  have htdrev : ∀ x, (td.par x).reverse = (tm.par x).reverse := by
    intro x; rw [htd]
    split <;> exact par_rev_setPar _ _ _ (fun y => by rfl) x
  have htdnc : td.nCities = tm.nCities := by
    rw [htd]; split <;> rfl
  -- boundary node facts
  have hbndpos : d0 - 1 < (M.seg j).fwd.length := by omega
  have hbndmem : (M.seg j).fwd.getD (d0 - 1) 0 ∈ (M.seg j).fwd := by
    rw [List.getD_eq_getElem _ 0 hbndpos]; exact List.getElem_mem _
  have hbnd_notin : (M.seg j).fwd.getD (d0 - 1) 0 ∉ ((M.seg j).fwd.drop d0).reverse := by
    rw [List.mem_reverse]
    exact getD_not_mem_drop hfwdnodup (by omega) (by omega) hbndpos
  have hbnd_ne_fb : (M.seg j).fwd.getD (d0 - 1) 0 ≠ (M.seg ((j + 1) % M.segs.length)).fb := by
    intro he
    exact fwd_disjoint h hj hj1 (Ne.symm hjne) (he ▸ hbndmem) hfb1mem
  have hbndpar_t : (t.node ((M.seg j).fwd.getD (d0 - 1) 0)).parent = (M.seg j).pIdx :=
    (fwd_node_facts hNj hbndpos).1
  have htmbnd : tm.node ((M.seg j).fwd.getD (d0 - 1) 0) =
      t.node ((M.seg j).fwd.getD (d0 - 1) 0) :=
    hsframe _ hbnd_notin hbnd_ne_fb
  -- the landing node q' = fwd.getD d0
  have hq0mem : (M.seg j).fwd.getD d0 0 ∈ (M.seg j).fwd := by
    rw [List.getD_eq_getElem _ 0 hd0L]; exact List.getElem_mem _
  have hlrevlen : ((M.seg j).fwd.drop d0).reverse.length = (M.seg j).fwd.length - d0 := by
    rw [List.length_reverse, hlenc]
  have hlast_lt : ((M.seg j).fwd.drop d0).reverse.length - 1 <
      ((M.seg j).fwd.drop d0).reverse.length := by
    rw [hlrevlen]; omega
  have hlgetD : ∀ i, i < ((M.seg j).fwd.drop d0).reverse.length →
      ((M.seg j).fwd.drop d0).reverse.getD i 0 =
        (M.seg j).fwd.getD (d0 + ((M.seg j).fwd.length - d0 - 1 - i)) 0 := by
    intro i hi
    rw [reverse_getD (by rw [List.length_reverse] at hi; exact hi), getD_drop, hlenc]
  have hq'_eq_l : ((M.seg j).fwd.drop d0).reverse.getD
      (((M.seg j).fwd.drop d0).reverse.length - 1) 0 = (M.seg j).fwd.getD d0 0 := by
    rw [hlgetD _ hlast_lt, hlrevlen]
    congr 1
    omega
  have hq'cl := hselems _ hlast_lt
  rw [hq'_eq_l] at hq'cl
  have hbnd_ne_q' : (M.seg j).fwd.getD (d0 - 1) 0 ≠ (M.seg j).fwd.getD d0 0 := by
    intro he
    have := nodup_getD_inj hfwdnodup hbndpos hd0L he
    omega
  have hconn := @connectArcForward_slots2 td ((M.seg j).fwd.getD (d0 - 1) 0)
    ((M.seg j).fwd.getD d0 0) (M.seg j).rev (M.seg ((j + 1) % M.segs.length)).rev
    (by
      rw [htdnodes, hslen]
      exact fwd_mem_bound h hj hbndmem)
    (by
      rw [htdnode, htmbnd, hbndpar_t, htdrev, hrevTQ, htbrevj])
    (by
      rw [htdnode, hq'cl.1, htdrev, hrevTQ, htbrev1])
    hbnd_ne_q'
  rw [hconn]
  rw [show ∀ x, (((td.setNode ((M.seg j).fwd.getD (d0 - 1) 0)
      (setFwdSlot (M.seg j).rev ((M.seg j).fwd.getD d0 0))).setNode
      ((M.seg j).fwd.getD d0 0)
      (setBwdSlot (M.seg ((j + 1) % M.segs.length)).rev
        ((M.seg j).fwd.getD (d0 - 1) 0))).par x).reverse = (td.par x).reverse
    from fun x => rfl]
  rw [htdrev, hrevTQ, htbrevj]
  set te := (td.setNode ((M.seg j).fwd.getD (d0 - 1) 0)
      (setFwdSlot (M.seg j).rev ((M.seg j).fwd.getD d0 0))).setNode
      ((M.seg j).fwd.getD d0 0)
      (setBwdSlot (M.seg ((j + 1) % M.segs.length)).rev
        ((M.seg j).fwd.getD (d0 - 1) 0)) with hte
  set tf := (if (M.seg j).rev = true then
      te.setPar (M.seg j).pIdx (fun p =>
        { p with segmentBeginNode := (M.seg j).fwd.getD (d0 - 1) 0 })
      else te.setPar (M.seg j).pIdx (fun p =>
        { p with segmentEndNode := (M.seg j).fwd.getD (d0 - 1) 0 })) with htf
  have htfnode : ∀ c, tf.node c = te.node c := by
    intro c; rw [htf]; split <;> rfl
  have htfrev : ∀ x, (tf.par x).reverse = (te.par x).reverse := by
    intro x; rw [htf]
    split <;> exact par_rev_setPar _ _ _ (fun y => by rfl) x
  have htbrev_all : ∀ x, (tb.par x).reverse = (t.par x).reverse := by
    intro x
    by_cases hx1 : x = (M.seg j).pIdx
    · subst hx1
      rw [htbrevj]; exact hPj.2.1.symm
    · by_cases hx2 : x = (M.seg ((j + 1) % M.segs.length)).pIdx
      · subst hx2
        rw [htbrev1]; exact hPj1.2.1.symm
      · rw [htb, par_setPar_ne _ (fun he => hx1 he.symm),
          par_setPar_ne _ (fun he => hx2 he.symm)]
  have hrevAll : ∀ x, (tf.par x).reverse = (t.par x).reverse := by
    intro x
    calc (tf.par x).reverse = (te.par x).reverse := htfrev x
      _ = (td.par x).reverse := rfl
      _ = (tm.par x).reverse := htdrev x
      _ = (tb.par x).reverse := hrevTQ x
      _ = (t.par x).reverse := htbrev_all x
  have htec : ∀ c, c ≠ (M.seg j).fwd.getD (d0 - 1) 0 → c ≠ (M.seg j).fwd.getD d0 0 →
      te.node c = td.node c := by
    intro c h1 h2
    rw [hte, node_setNode_ne _ (Ne.symm h2), node_setNode_ne _ (Ne.symm h1)]
  have hq'lt : (M.seg j).fwd.getD d0 0 < td.nodes.length := by
    rw [htdnodes, hslen]
    exact fwd_mem_bound h hj hq0mem
  have hbndlt : (M.seg j).fwd.getD (d0 - 1) 0 < td.nodes.length := by
    rw [htdnodes, hslen]
    exact fwd_mem_bound h hj hbndmem
  have hteb : te.node ((M.seg j).fwd.getD (d0 - 1) 0) =
      setFwdSlot (M.seg j).rev ((M.seg j).fwd.getD d0 0)
        (td.node ((M.seg j).fwd.getD (d0 - 1) 0)) := by
    rw [hte, node_setNode_ne _ (Ne.symm hbnd_ne_q'), node_setNode_self _ hbndlt]
  have hteq : te.node ((M.seg j).fwd.getD d0 0) =
      setBwdSlot (M.seg ((j + 1) % M.segs.length)).rev
        ((M.seg j).fwd.getD (d0 - 1) 0) (td.node ((M.seg j).fwd.getD d0 0)) := by
    rw [hte, node_setNode_self _ (by simpa using hq'lt), node_setNode_ne _ hbnd_ne_q']
  refine ⟨?_, ?_⟩
  · calc tf.nCities = te.nCities := by rw [htf]; split <;> rfl
      _ = td.nCities := rfl
      _ = tm.nCities := htdnc
      _ = tb.nCities := hsnc
      _ = t.nCities := rfl
  intro c hc
  by_cases hccoll : c ∈ (M.seg j).fwd.drop d0
  · -- c is one of the migrated nodes
    obtain ⟨k, hk, hkc⟩ := List.mem_iff_getElem.1 hccoll
    rw [← List.getD_eq_getElem _ 0 hk] at hkc
    have hkL : d0 + k < (M.seg j).fwd.length := by rw [hlenc] at hk; omega
    have hc_eq : c = (M.seg j).fwd.getD (d0 + k) 0 := by rw [← hkc, getD_drop]
    have hiL : (M.seg j).fwd.length - d0 - 1 - k <
        ((M.seg j).fwd.drop d0).reverse.length := by rw [hlrevlen]; omega
    have hlival : ((M.seg j).fwd.drop d0).reverse.getD
        ((M.seg j).fwd.length - d0 - 1 - k) 0 = c := by
      rw [hlgetD _ hiL, hc_eq]
      congr 1
      omega
    have hel := hselems _ hiL
    rw [hlival] at hel
    have hc_ne_bnd : c ≠ (M.seg j).fwd.getD (d0 - 1) 0 := by
      rw [hc_eq]
      intro he
      have := nodup_getD_inj hfwdnodup (by omega) hbndpos he
      omega
    have hread : (te.node c).parent = (tm.node c).parent ∧
        (te.node c).city = (tm.node c).city ∧
        fwdSlot (M.seg ((j + 1) % M.segs.length)).rev (te.node c) =
          fwdSlot (M.seg ((j + 1) % M.segs.length)).rev (tm.node c) := by
      by_cases hcq : c = (M.seg j).fwd.getD d0 0
      · rw [hcq, hteq, setBwdSlot_parent, setBwdSlot_city, fwdSlot_setBwdSlot, htdnode]
        exact ⟨rfl, rfl, rfl⟩
      · rw [htec c hc_ne_bnd hcq, htdnode]
        exact ⟨rfl, rfl, rfl⟩
    have hparc : (te.node c).parent = (M.seg ((j + 1) % M.segs.length)).pIdx := by
      rw [hread.1, hel.1]
    have hcity : (tf.node c).city = (t.node c).city := by
      rw [htfnode, hread.2.1, hel.2.1]
      exact rfl
    refine ⟨hcity, ?_⟩
    have hnew : getNext tf c =
        (if (M.seg j).fwd.length - d0 - 1 - k = 0 then
          (M.seg ((j + 1) % M.segs.length)).fb
          else ((M.seg j).fwd.drop d0).reverse.getD
            ((M.seg j).fwd.length - d0 - 1 - k - 1) 0) := by
      rw [getNext_eq_fwdSlot, htfnode, hparc, hrevAll, hPj1.2.1, hread.2.2, hel.2.2]
    rw [hnew]
    by_cases hlastk : (M.seg j).fwd.length - d0 - 1 - k = 0
    · rw [if_pos hlastk]
      have hceq2 : c = (M.seg j).fwd.getD ((M.seg j).fwd.length - 1) 0 := by
        rw [hc_eq]
        congr 1
        omega
      rw [hceq2, ← SegM.fe_eq_fwd_getD _ hNj.1, getNext_fe hNj hPj hB]
    · rw [if_neg hlastk]
      have hbound2 : (M.seg j).fwd.length - d0 - 1 - k - 1 <
          ((M.seg j).fwd.drop d0).reverse.length := by rw [hlrevlen]; omega
      rw [hlgetD _ hbound2]
      have hval2 : d0 + ((M.seg j).fwd.length - d0 - 1 -
          ((M.seg j).fwd.length - d0 - 1 - k - 1)) = d0 + k + 1 := by omega
      rw [hval2, hc_eq]
      exact (segChain hNj hPj (d0 + k) (by omega)).symm
  by_cases hcbnd : c = (M.seg j).fwd.getD (d0 - 1) 0
  · -- c is the boundary node
    have hread : te.node c = setFwdSlot (M.seg j).rev ((M.seg j).fwd.getD d0 0)
        (td.node ((M.seg j).fwd.getD (d0 - 1) 0)) := by rw [hcbnd, hteb]
    have hnodetd : td.node ((M.seg j).fwd.getD (d0 - 1) 0) =
        t.node ((M.seg j).fwd.getD (d0 - 1) 0) := by
      rw [htdnode, htmbnd]
    constructor
    · rw [htfnode, hread, setFwdSlot_city, hnodetd, hcbnd]
    · rw [getNext_eq_fwdSlot, htfnode, hread, setFwdSlot_parent, hnodetd, hbndpar_t,
        hrevAll, hPj.2.1, fwdSlot_setFwdSlot, hcbnd]
      have hstep := segChain hNj hPj (d0 - 1) (by omega)
      have hidx : d0 - 1 + 1 = d0 := by omega
      rw [hidx] at hstep
      exact hstep.symm
  by_cases hcfb : c = (M.seg ((j + 1) % M.segs.length)).fb
  · -- c is the landing neighbor head: only its backward slot was touched
    have hne_q' : c ≠ (M.seg j).fwd.getD d0 0 := by
      rw [hcfb]
      intro he
      exact fwd_disjoint h hj hj1 (Ne.symm hjne) (he ▸ hq0mem) hfb1mem
    have hread : te.node c = tm.node c := by
      rw [htec c (by rw [hcfb]; exact fun he => hbnd_ne_fb he.symm) hne_q', htdnode]
    constructor
    · rw [htfnode, hread, hcfb, hsqcity]
      exact rfl
    · rw [getNext_eq_fwdSlot, getNext_eq_fwdSlot, htfnode, hread, hcfb, hsqpar]
      have hpar_fb : (tb.node (M.seg ((j + 1) % M.segs.length)).fb).parent =
          (M.seg ((j + 1) % M.segs.length)).pIdx := hfbparent
      rw [hpar_fb, hrevAll, hfbparent, hPj1.2.1, hsqslot]
      exact rfl
  · -- untouched city
    have hc_notin : c ∉ ((M.seg j).fwd.drop d0).reverse := by
      rw [List.mem_reverse]; exact hccoll
    have hq'indrop : (M.seg j).fwd.getD d0 0 ∈ (M.seg j).fwd.drop d0 := by
      have h0 : ((M.seg j).fwd.drop d0).getD 0 0 = (M.seg j).fwd.getD d0 0 := by
        rw [getD_drop]
        congr 1
      rw [← h0, List.getD_eq_getElem _ 0
        (by rw [hlenc]; omega : 0 < ((M.seg j).fwd.drop d0).length)]
      exact List.getElem_mem _
    have hne_q' : c ≠ (M.seg j).fwd.getD d0 0 := by
      intro he
      exact hccoll (he ▸ hq'indrop)
    have hread : te.node c = t.node c := by
      rw [htec c hcbnd hne_q', htdnode]
      exact hsframe c hc_notin hcfb
    constructor
    · rw [htfnode, hread]
    · rw [getNext_eq_fwdSlot, getNext_eq_fwdSlot, htfnode, hread, hrevAll]

end TLT

namespace TLT

theorem fe_mem {t : Tree} {M : Model} (h : Coherent t M) {j : Nat}
    (hj : j < M.segs.length) : (M.seg j).fe ∈ (M.seg j).fwd := by
  have hne := SegM.fwd_ne_nil (h.segNodes hj).1
  have hpos := List.length_pos.2 hne
  rw [(M.seg j).fe_eq_fwd_getD (h.segNodes hj).1,
    List.getD_eq_getElem _ 0 (by omega : (M.seg j).fwd.length - 1 < (M.seg j).fwd.length)]
  exact List.getElem_mem _

theorem getD_take {l : List Nat} {d1 k : Nat} (hk : k < d1) (hkL : k < l.length) :
    (l.take d1).getD k 0 = l.getD k 0 := by
  rw [List.getD_eq_getElem _ 0 (by rw [List.length_take]; omega),
    List.getD_eq_getElem _ 0 hkL]
  exact List.getElem_take _

end TLT

namespace TLT

set_option maxHeartbeats 2000000 in
theorem snmBackwardCore_pointwise {t : Tree} {M : Model} (h : Coherent t M)
    {j d1 : Nat} (hj : j < M.segs.length)
    (hd1 : 1 ≤ d1) (hd1L : d1 < (M.seg j).fwd.length) :
    (snmBackwardCore t (M.seg j).pIdx
        (M.seg ((j + M.segs.length - 1) % M.segs.length)).pIdx
        ((M.seg j).fwd.take d1).reverse ((M.seg j).fwd.getD d1 0)).nCities = t.nCities ∧
    (∀ c, c ∈ M.tour →
      ((snmBackwardCore t (M.seg j).pIdx
          (M.seg ((j + M.segs.length - 1) % M.segs.length)).pIdx
          ((M.seg j).fwd.take d1).reverse ((M.seg j).fwd.getD d1 0)).node c).city =
        (t.node c).city ∧
      getNext (snmBackwardCore t (M.seg j).pIdx
          (M.seg ((j + M.segs.length - 1) % M.segs.length)).pIdx
          ((M.seg j).fwd.take d1).reverse ((M.seg j).fwd.getD d1 0)) c =
        getNext t c) := by
  have hK2 := h.two_le
  have hK0 : 0 < M.segs.length := by omega
  have hjp : (j + M.segs.length - 1) % M.segs.length < M.segs.length := Nat.mod_lt _ hK0
  have hjpne : (j + M.segs.length - 1) % M.segs.length ≠ j := pred_mod_ne hK2 hj
  have hNj := h.segNodes hj
  have hPj := h.segPar hj
  have hNjp := h.segNodes hjp
  have hPjp := h.segPar hjp
  have hBp := h.boundary hjp
  rw [pred_mod_succ (by omega) hj] at hBp
  have hpne : (M.seg j).pIdx ≠ (M.seg ((j + M.segs.length - 1) % M.segs.length)).pIdx :=
    fun he => hjpne ((pIdx_inj h hjp hj he.symm))
  have hLc : (M.seg j).fwd.length = (M.seg j).cities.length := SegM.fwd_length _
  have hLppos : 0 < (M.seg ((j + M.segs.length - 1) % M.segs.length)).fwd.length := by
    have := List.length_pos.2 hNjp.1
    have := (M.seg ((j + M.segs.length - 1) % M.segs.length)).fwd_length
    omega
  have hfwdnodup := fwd_nodup h hj
  unfold snmBackwardCore
  simp only []
  rw [List.reverse_reverse]
  set tb := (t.setPar (M.seg ((j + M.segs.length - 1) % M.segs.length)).pIdx (fun p =>
      { p with size := p.size + ((List.take d1 (M.seg j).fwd).reverse.length : Int) })).setPar
      (M.seg j).pIdx (fun p =>
      { p with size := p.size - ((List.take d1 (M.seg j).fwd).reverse.length : Int) }) with htb
  have hplt : (M.seg ((j + M.segs.length - 1) % M.segs.length)).pIdx < t.parents.length :=
    hPjp.1
  have hpjlt : (M.seg j).pIdx < t.parents.length := hPj.1
  have htbrevp : (tb.par (M.seg ((j + M.segs.length - 1) % M.segs.length)).pIdx).reverse =
      (M.seg ((j + M.segs.length - 1) % M.segs.length)).rev := by
    rw [htb, par_setPar_ne _ hpne, par_setPar_self _ hplt]
    exact hPjp.2.1
  have htbrevj : (tb.par (M.seg j).pIdx).reverse = (M.seg j).rev := by
    rw [htb, par_setPar_self _ (by simpa using hpjlt), par_setPar_ne _ (Ne.symm hpne)]
    exact hPj.2.1
  have htbEnd : (tb.par (M.seg ((j + M.segs.length - 1) % M.segs.length)).pIdx).segmentEndNode =
      (M.seg ((j + M.segs.length - 1) % M.segs.length)).cities.getLastD 0 := by
    rw [htb, par_setPar_ne _ hpne, par_setPar_self _ hplt]
    exact hPjp.2.2.2.2
  have htbBeg : (tb.par (M.seg ((j + M.segs.length - 1) % M.segs.length)).pIdx).segmentBeginNode =
      (M.seg ((j + M.segs.length - 1) % M.segs.length)).cities.headD 0 := by
    rw [htb, par_setPar_ne _ hpne, par_setPar_self _ hplt]
    exact hPjp.2.2.2.1
  rw [htbrevp, htbEnd, htbBeg]
  rw [show (if (M.seg ((j + M.segs.length - 1) % M.segs.length)).rev = true then
      (M.seg ((j + M.segs.length - 1) % M.segs.length)).cities.headD 0
      else (M.seg ((j + M.segs.length - 1) % M.segs.length)).cities.getLastD 0) =
      (M.seg ((j + M.segs.length - 1) % M.segs.length)).fe from
      (SegM.fe_eq _ hNjp.1).symm]
  have hfemem := fe_mem h hjp
  have hfeparent : (t.node (M.seg ((j + M.segs.length - 1) % M.segs.length)).fe).parent =
      (M.seg ((j + M.segs.length - 1) % M.segs.length)).pIdx := by
    rw [SegM.fe_eq_fwd_getD _ hNjp.1]
    exact (fwd_node_facts hNjp (by omega)).1
  have htakesub : ∀ x ∈ (M.seg j).fwd.take d1, x ∈ (M.seg j).fwd := by
    intro x hx
    exact List.take_subset _ _ hx
  have hspec := @mergeLoopBackward_spec
    (M.seg ((j + M.segs.length - 1) % M.segs.length)).pIdx
    (if (M.seg ((j + M.segs.length - 1) % M.segs.length)).rev = true then (-1 : Int) else 1)
    (M.seg ((j + M.segs.length - 1) % M.segs.length)).rev
    ((M.seg j).fwd.take d1) tb (M.seg ((j + M.segs.length - 1) % M.segs.length)).fe
    (fun x hx => fwd_mem_bound h hj (htakesub x hx))
    (fwd_mem_bound h hjp hfemem)
    hfeparent
    htbrevp
    (fun hmem => fwd_disjoint h hj hjp (Ne.symm hjpne) (htakesub _ hmem) hfemem)
    ((List.take_sublist _ _).nodup hfwdnodup)
  obtain ⟨hsparents, hslen, hsnc, hslast, hsframe, hsqcity, hsqpar, hsqslot, hselems⟩ :=
    hspec
  have hlenc : ((M.seg j).fwd.take d1).length = d1 := by
    rw [List.length_take]
    omega
  have hqval : (mergeLoopBackward tb
      (M.seg ((j + M.segs.length - 1) % M.segs.length)).pIdx
      (if (M.seg ((j + M.segs.length - 1) % M.segs.length)).rev = true then (-1 : Int) else 1)
      (M.seg ((j + M.segs.length - 1) % M.segs.length)).fe ((M.seg j).fwd.take d1)).2 =
      (M.seg j).fwd.getD (d1 - 1) 0 := by
    rw [hslast, getLastD_eq_getD, hlenc]
    rw [List.getD_eq_getElem _ _ (by rw [hlenc]; omega : d1 - 1 < ((M.seg j).fwd.take d1).length),
      List.getD_eq_getElem _ _ (by omega : d1 - 1 < (M.seg j).fwd.length)]
    exact List.getElem_take _
  rw [hqval] at hslast ⊢
  set tm := (mergeLoopBackward tb (M.seg ((j + M.segs.length - 1) % M.segs.length)).pIdx
      (if (M.seg ((j + M.segs.length - 1) % M.segs.length)).rev = true then (-1 : Int) else 1)
      (M.seg ((j + M.segs.length - 1) % M.segs.length)).fe ((M.seg j).fwd.take d1)).1 with htm
  have hrevTQ : ∀ x, (tm.par x).reverse = (tb.par x).reverse := by
    intro x
    unfold Tree.par
    rw [hsparents]
  rw [hrevTQ, htbrevp]
  set td := (if (M.seg ((j + M.segs.length - 1) % M.segs.length)).rev = true then
      tm.setPar (M.seg ((j + M.segs.length - 1) % M.segs.length)).pIdx (fun p =>
        { p with segmentBeginNode := (M.seg j).fwd.getD (d1 - 1) 0 })
      else tm.setPar (M.seg ((j + M.segs.length - 1) % M.segs.length)).pIdx (fun p =>
        { p with segmentEndNode := (M.seg j).fwd.getD (d1 - 1) 0 })) with htd
  have htdnodes : td.nodes = tm.nodes := by
    rw [htd]; split <;> rfl
  have htdnode : ∀ c, td.node c = tm.node c := by
    intro c; rw [htd]; split <;> rfl
  have htdrev : ∀ x, (td.par x).reverse = (tm.par x).reverse := by
    intro x; rw [htd]
    split <;> exact par_rev_setPar _ _ _ (fun y => by rfl) x
  have htdnc : td.nCities = tm.nCities := by
    rw [htd]; split <;> rfl
  have hq'pos : d1 - 1 < (M.seg j).fwd.length := by omega
  have hq'mem : (M.seg j).fwd.getD (d1 - 1) 0 ∈ (M.seg j).fwd := by
    rw [List.getD_eq_getElem _ 0 hq'pos]; exact List.getElem_mem _
  have hbndmem : (M.seg j).fwd.getD d1 0 ∈ (M.seg j).fwd := by
    rw [List.getD_eq_getElem _ 0 hd1L]; exact List.getElem_mem _
  have hbnd_notin : (M.seg j).fwd.getD d1 0 ∉ (M.seg j).fwd.take d1 := by
    intro hmem
    obtain ⟨k, hk, hkc⟩ := List.mem_iff_getElem.1 hmem
    rw [← List.getD_eq_getElem _ 0 hk] at hkc
    rw [hlenc] at hk
    rw [getD_take hk (by omega)] at hkc
    have := nodup_getD_inj hfwdnodup (by omega : k < (M.seg j).fwd.length) hd1L hkc
    omega
  have hbnd_ne_fe : (M.seg j).fwd.getD d1 0 ≠
      (M.seg ((j + M.segs.length - 1) % M.segs.length)).fe := by
    intro he
    exact fwd_disjoint h hj hjp (Ne.symm hjpne) (he ▸ hbndmem) hfemem
  have htmbnd : tm.node ((M.seg j).fwd.getD d1 0) = t.node ((M.seg j).fwd.getD d1 0) :=
    hsframe _ hbnd_notin hbnd_ne_fe
  have hbndpar_t : (t.node ((M.seg j).fwd.getD d1 0)).parent = (M.seg j).pIdx :=
    (fwd_node_facts hNj hd1L).1
  have hq'_lt_l : d1 - 1 < ((M.seg j).fwd.take d1).length := by rw [hlenc]; omega
  have hq'_eq_l : ((M.seg j).fwd.take d1).getD (d1 - 1) 0 =
      (M.seg j).fwd.getD (d1 - 1) 0 := getD_take (by omega) hq'pos
  have hq'cl := hselems _ hq'_lt_l
  rw [hq'_eq_l] at hq'cl
  have hq'_ne_bnd : (M.seg j).fwd.getD (d1 - 1) 0 ≠ (M.seg j).fwd.getD d1 0 := by
    intro he
    have := nodup_getD_inj hfwdnodup hq'pos hd1L he
    omega
  have hconn := @connectArcForward_slots2 td ((M.seg j).fwd.getD (d1 - 1) 0)
    ((M.seg j).fwd.getD d1 0) (M.seg ((j + M.segs.length - 1) % M.segs.length)).rev
    (M.seg j).rev
    (by
      rw [htdnodes, hslen]
      exact fwd_mem_bound h hj hq'mem)
    (by
      rw [htdnode, hq'cl.1, htdrev, hrevTQ, htbrevp])
    (by
      rw [htdnode, htmbnd, hbndpar_t, htdrev, hrevTQ, htbrevj])
    hq'_ne_bnd
  rw [hconn]
  rw [show ∀ x, (((td.setNode ((M.seg j).fwd.getD (d1 - 1) 0)
      (setFwdSlot (M.seg ((j + M.segs.length - 1) % M.segs.length)).rev
        ((M.seg j).fwd.getD d1 0))).setNode ((M.seg j).fwd.getD d1 0)
      (setBwdSlot (M.seg j).rev ((M.seg j).fwd.getD (d1 - 1) 0))).par x).reverse =
      (td.par x).reverse
    from fun x => rfl]
  rw [htdrev, hrevTQ, htbrevj]
  set te := (td.setNode ((M.seg j).fwd.getD (d1 - 1) 0)
      (setFwdSlot (M.seg ((j + M.segs.length - 1) % M.segs.length)).rev
        ((M.seg j).fwd.getD d1 0))).setNode ((M.seg j).fwd.getD d1 0)
      (setBwdSlot (M.seg j).rev ((M.seg j).fwd.getD (d1 - 1) 0)) with hte
  set tf := (if (M.seg j).rev = true then
      te.setPar (M.seg j).pIdx (fun p =>
        { p with segmentEndNode := (M.seg j).fwd.getD d1 0 })
      else te.setPar (M.seg j).pIdx (fun p =>
        { p with segmentBeginNode := (M.seg j).fwd.getD d1 0 })) with htf
  have htfnode : ∀ c, tf.node c = te.node c := by
    intro c; rw [htf]; split <;> rfl
  have htfrev : ∀ x, (tf.par x).reverse = (te.par x).reverse := by
    intro x; rw [htf]
    split <;> exact par_rev_setPar _ _ _ (fun y => by rfl) x
  have htbrev_all : ∀ x, (tb.par x).reverse = (t.par x).reverse := by
    intro x
    by_cases hx1 : x = (M.seg j).pIdx
    · subst hx1
      rw [htbrevj]; exact hPj.2.1.symm
    · by_cases hx2 : x = (M.seg ((j + M.segs.length - 1) % M.segs.length)).pIdx
      · subst hx2
        rw [htbrevp]; exact hPjp.2.1.symm
      · rw [htb, par_setPar_ne _ (fun he => hx1 he.symm),
          par_setPar_ne _ (fun he => hx2 he.symm)]
  have hrevAll : ∀ x, (tf.par x).reverse = (t.par x).reverse := by
    intro x
    calc (tf.par x).reverse = (te.par x).reverse := htfrev x
      _ = (td.par x).reverse := rfl
      _ = (tm.par x).reverse := htdrev x
      _ = (tb.par x).reverse := hrevTQ x
      _ = (t.par x).reverse := htbrev_all x
  have htec : ∀ c, c ≠ (M.seg j).fwd.getD (d1 - 1) 0 → c ≠ (M.seg j).fwd.getD d1 0 →
      te.node c = td.node c := by
    intro c h1 h2
    rw [hte, node_setNode_ne _ (Ne.symm h2), node_setNode_ne _ (Ne.symm h1)]
  have hq'lt : (M.seg j).fwd.getD (d1 - 1) 0 < td.nodes.length := by
    rw [htdnodes, hslen]
    exact fwd_mem_bound h hj hq'mem
  have hbndlt : (M.seg j).fwd.getD d1 0 < td.nodes.length := by
    rw [htdnodes, hslen]
    exact fwd_mem_bound h hj hbndmem
  have hteq' : te.node ((M.seg j).fwd.getD (d1 - 1) 0) =
      setFwdSlot (M.seg ((j + M.segs.length - 1) % M.segs.length)).rev
        ((M.seg j).fwd.getD d1 0) (td.node ((M.seg j).fwd.getD (d1 - 1) 0)) := by
    rw [hte, node_setNode_ne _ (Ne.symm hq'_ne_bnd), node_setNode_self _ hq'lt]
  have hteb : te.node ((M.seg j).fwd.getD d1 0) =
      setBwdSlot (M.seg j).rev ((M.seg j).fwd.getD (d1 - 1) 0)
        (td.node ((M.seg j).fwd.getD d1 0)) := by
    rw [hte, node_setNode_self _ (by simpa using hbndlt), node_setNode_ne _ hq'_ne_bnd]
  refine ⟨?_, ?_⟩
  · calc tf.nCities = te.nCities := by rw [htf]; split <;> rfl
      _ = td.nCities := rfl
      _ = tm.nCities := htdnc
      _ = tb.nCities := hsnc
      _ = t.nCities := rfl
  intro c hc
  by_cases hccoll : c ∈ (M.seg j).fwd.take d1
  · obtain ⟨k, hk, hkc⟩ := List.mem_iff_getElem.1 hccoll
    rw [← List.getD_eq_getElem _ 0 hk] at hkc
    rw [hlenc] at hk
    have hkL : k < (M.seg j).fwd.length := by omega
    have hc_eq : c = (M.seg j).fwd.getD k 0 := by rw [← hkc, getD_take hk hkL]
    have hel := hselems k (by rw [hlenc]; exact hk)
    rw [getD_take hk hkL, ← hc_eq] at hel
    by_cases hcq : c = (M.seg j).fwd.getD (d1 - 1) 0
    · have hread : te.node c = setFwdSlot
          (M.seg ((j + M.segs.length - 1) % M.segs.length)).rev
          ((M.seg j).fwd.getD d1 0) (td.node c) := by rw [hcq, hteq']
      constructor
      · rw [htfnode, hread, setFwdSlot_city, htdnode, hel.2.1]
        exact rfl
      · rw [getNext_eq_fwdSlot, htfnode, hread, setFwdSlot_parent, htdnode, hel.1,
          hrevAll, hPjp.2.1, fwdSlot_setFwdSlot, hcq]
        have hstep := segChain hNj hPj (d1 - 1) (by omega)
        have hidx : d1 - 1 + 1 = d1 := by omega
        rw [hidx] at hstep
        exact hstep.symm
    · have hc_ne_bnd : c ≠ (M.seg j).fwd.getD d1 0 := by
        rw [hc_eq]
        intro he
        have := nodup_getD_inj hfwdnodup hkL hd1L he
        omega
      have hread : te.node c = tm.node c := by
        rw [htec c hcq hc_ne_bnd, htdnode]
      have hk1 : k + 1 < d1 := by
        rcases Nat.lt_or_ge (k + 1) d1 with hcl | hcl
        · exact hcl
        · exfalso
          apply hcq
          rw [hc_eq]
          congr 1
          omega
      constructor
      · rw [htfnode, hread, hel.2.1]
        exact rfl
      · rw [getNext_eq_fwdSlot, htfnode, hread, hel.1, hrevAll, hPjp.2.1, hel.2.2,
          if_pos (by rw [hlenc]; exact hk1), getD_take hk1 (by omega), hc_eq]
        exact (segChain hNj hPj k (by omega)).symm
  by_cases hcbnd : c = (M.seg j).fwd.getD d1 0
  · have hnodetd : td.node ((M.seg j).fwd.getD d1 0) =
        t.node ((M.seg j).fwd.getD d1 0) := by
      rw [htdnode, htmbnd]
    constructor
    · rw [htfnode, hcbnd, hteb, setBwdSlot_city, hnodetd]
    · rw [getNext_eq_fwdSlot, getNext_eq_fwdSlot, htfnode, hcbnd, hteb,
        setBwdSlot_parent, hnodetd, hbndpar_t, hrevAll, hPj.2.1, fwdSlot_setBwdSlot]
  by_cases hcfe : c = (M.seg ((j + M.segs.length - 1) % M.segs.length)).fe
  · have hne_q' : c ≠ (M.seg j).fwd.getD (d1 - 1) 0 := by
      rw [hcfe]
      intro he
      exact fwd_disjoint h hj hjp (Ne.symm hjpne) (he ▸ hq'mem) hfemem
    have hne_bnd : c ≠ (M.seg j).fwd.getD d1 0 := by
      rw [hcfe]
      intro he
      exact fwd_disjoint h hj hjp (Ne.symm hjpne) (he ▸ hbndmem) hfemem
    have hread : te.node c = tm.node c := by
      rw [htec c hne_q' hne_bnd, htdnode]
    constructor
    · rw [htfnode, hread, hcfe, hsqcity]
      exact rfl
    · rw [getNext_eq_fwdSlot, htfnode, hread, hcfe, hsqpar]
      have hpar_fe : (tb.node (M.seg ((j + M.segs.length - 1) % M.segs.length)).fe).parent =
          (M.seg ((j + M.segs.length - 1) % M.segs.length)).pIdx := hfeparent
      rw [hpar_fe, hrevAll, hPjp.2.1, hsqslot]
      have hheadval : ((M.seg j).fwd.take d1).headD
          (fwdSlot (M.seg ((j + M.segs.length - 1) % M.segs.length)).rev
            (tb.node (M.seg ((j + M.segs.length - 1) % M.segs.length)).fe)) =
          (M.seg j).fwd.getD 0 0 := by
        rw [headD_eq_getD]
        rw [List.getD_eq_getElem _ _ (by rw [hlenc]; omega :
          0 < ((M.seg j).fwd.take d1).length),
          List.getD_eq_getElem _ _ (by omega : 0 < (M.seg j).fwd.length)]
        exact List.getElem_take _
      rw [hheadval, getNext_fe hNjp hPjp hBp, SegM.fb_eq_fwd_getD _ hNj.1]
  · have hne_q' : c ≠ (M.seg j).fwd.getD (d1 - 1) 0 := by
      intro he
      apply hccoll
      rw [he, ← hq'_eq_l, List.getD_eq_getElem _ 0 hq'_lt_l]
      exact List.getElem_mem _
    have hread : te.node c = t.node c := by
      rw [htec c hne_q' hcbnd, htdnode]
      exact hsframe c hccoll hcfe
    constructor
    · rw [htfnode, hread]
    · rw [getNext_eq_fwdSlot, getNext_eq_fwdSlot, htfnode, hread, hrevAll]

end TLT

namespace TLT

/-- Number of nodes that split_and_merge would migrate. -/
def snmMoved (t : Tree) (s : Nat) (incl : Bool) (dir : Direction) : Nat :=
  ((if incl then [s] else []) ++
    (if dir = Direction.forward then
      collectWhileSameParent t ((t.node s).parent) true (getNext t s) (t.nodes.length + 1)
    else
      collectWhileSameParent t ((t.node s).parent) false (getPrev t s)
        (t.nodes.length + 1))).length

set_option maxHeartbeats 1000000 in
theorem snm_forward_empty {t : Tree} {s pj : Nat} {incl : Bool}
    (hpar : (t.node s).parent = pj)
    (hcoll : (if incl then [s] else []) ++
      collectWhileSameParent t pj true (getNext t s) (t.nodes.length + 1) = []) :
    splitAndMerge t s incl Direction.forward = t := by
  unfold splitAndMerge
  simp only [if_true]
  rw [hpar, hcoll]
  rfl

set_option maxHeartbeats 1000000 in
theorem snm_backward_empty {t : Tree} {s pj : Nat} {incl : Bool}
    (hpar : (t.node s).parent = pj)
    (hcoll : (if incl then [s] else []) ++
      collectWhileSameParent t pj false (getPrev t s) (t.nodes.length + 1) = []) :
    splitAndMerge t s incl Direction.backward = t := by
  unfold splitAndMerge
  simp only [if_true, if_false]
  have hdir : ¬(Direction.backward = Direction.forward) := fun hh =>
    Direction.noConfusion hh
  repeat rw [if_neg hdir]
  rw [hpar, hcoll]
  rfl

end TLT

namespace TLT

theorem getRawTour_congr {t t' : Tree} {M : Model} (h : Coherent t M)
    (hnc : t'.nCities = t.nCities)
    (hpt : ∀ c, c ∈ M.tour →
      (t'.node c).city = (t.node c).city ∧ getNext t' c = getNext t c) :
    ∀ c ∈ M.tour, getRawTour t' c = getRawTour t c := by
  intro c hc
  unfold getRawTour
  rw [hnc]
  exact rawTourAux_congr h (fun x hx => (hpt x hx).2) (fun x hx => (hpt x hx).1)
    t.nCities c hc

set_option maxHeartbeats 1000000 in
/-- C5: on a valid tree, whenever the requested split_and_merge move does
not drain the pivot's whole segment (the number of moved nodes stays below
the segment size), the encoded cyclic tour is unchanged: get_raw_tour
returns the same sequence before and after the call from every tour
city. -/
theorem claim_C5 {t : Tree} {M : Model} (h : Coherent t M) {s : Nat} {incl : Bool}
    {dir : Direction} (hs : s ∈ M.tour)
    (hne : (snmMoved t s incl dir : Int) < (t.par ((t.node s).parent)).size) :
    ∀ c ∈ M.tour, getRawTour (splitAndMerge t s incl dir) c = getRawTour t c := by
  have hK2 := h.two_le
  have hK0 : 0 < M.segs.length := by omega
  obtain ⟨is, his, hseq⟩ := List.mem_iff_getElem.1 hs
  rw [← List.getD_eq_getElem _ 0 his] at hseq
  obtain ⟨j, hj, ms, hms, _, hget⟩ := tour_decomp h his
  have hseq' : s = (M.seg j).fwd.getD ms 0 := by rw [← hseq, hget]
  have hNj := h.segNodes hj
  have hPj := h.segPar hj
  have hpar : (t.node s).parent = (M.seg j).pIdx := by
    rw [hseq']; exact (fwd_node_facts hNj hms).1
  have htourlenL : (M.seg j).fwd.length ≤ M.tour.length := by
    rw [tour_split h hj, List.length_append, List.length_append]
    omega
  have hLnodes : (M.seg j).fwd.length ≤ t.nodes.length :=
    le_trans htourlenL (tour_length_le_nodes h)
  have hsize : (t.par (M.seg j).pIdx).size = ((M.seg j).cities.length : Int) :=
    hPj.2.2.1
  have hLc := SegM.fwd_length (M.seg j)
  rw [hpar, hsize] at hne
  cases dir with
  | forward =>
    have hj1 : (j + 1) % M.segs.length < M.segs.length := Nat.mod_lt _ hK0
    have hjne : (j + 1) % M.segs.length ≠ j := succ_mod_ne hK2 hj
    have hNj1 := h.segNodes hj1
    have hL1pos : 0 < (M.seg ((j + 1) % M.segs.length)).fwd.length := by
      have h1 := List.length_pos.2 hNj1.1
      have h2 := (M.seg ((j + 1) % M.segs.length)).fwd_length
      omega
    have hcoll0 : collectWhileSameParent t (M.seg j).pIdx true (getNext t s)
        (t.nodes.length + 1) = (M.seg j).fwd.drop (ms + 1) := by
      by_cases hlast : ms + 1 < (M.seg j).fwd.length
      · rw [hseq', segChain hNj hPj ms hlast]
        exact collect_fwd_eq h hj ((M.seg j).fwd.length - (ms + 1)) (ms + 1)
          (t.nodes.length + 1) (by omega) hlast (by omega)
      · rw [List.drop_of_length_le (by omega)]
        rw [hseq']
        have hfe : (M.seg j).fwd.getD ms 0 = (M.seg j).fe := by
          rw [(M.seg j).fe_eq_fwd_getD hNj.1]
          have hmeq : ms = (M.seg j).fwd.length - 1 := by omega
          rw [hmeq]
        rw [hfe, getNext_fe hNj hPj (h.boundary hj)]
        apply collect_stop
        rw [(M.seg ((j + 1) % M.segs.length)).fb_eq_fwd_getD hNj1.1,
          (fwd_node_facts hNj1 hL1pos).1]
        intro he
        exact hjne (pIdx_inj h hj1 hj he)
    cases incl with
    | true =>
      have hconsdrop : (M.seg j).fwd.drop ms = s :: (M.seg j).fwd.drop (ms + 1) := by
        rw [hseq', List.getD_eq_getElem _ 0 hms]
        exact List.drop_eq_getElem_cons hms
      have hmoved : snmMoved t s true Direction.forward =
          (M.seg j).fwd.length - ms := by
        unfold snmMoved
        rw [hpar, if_pos rfl, hcoll0]
        show ([s] ++ (M.seg j).fwd.drop (ms + 1)).length = _
        rw [List.singleton_append, ← hconsdrop, List.length_drop]
      have hms1 : 1 ≤ ms := by
        rw [hmoved] at hne
        omega
      have hbndprev : getPrev t s = (M.seg j).fwd.getD (ms - 1) 0 := by
        rw [hseq']
        have hstep := segChainPrev hNj hPj (i := ms - 1) (by omega)
        have hidx : ms - 1 + 1 = ms := by omega
        rw [hidx] at hstep
        exact hstep
      have hcollarg : (if (true : Bool) then [s] else []) ++
          collectWhileSameParent t (M.seg j).pIdx true (getNext t s)
            (t.nodes.length + 1) = (M.seg j).fwd.drop ms := by
        rw [hcoll0]
        show [s] ++ (M.seg j).fwd.drop (ms + 1) = _
        rw [List.singleton_append]
        exact hconsdrop.symm
      have hnenil : (M.seg j).fwd.drop ms ≠ [] := by
        rw [hconsdrop]
        exact List.cons_ne_nil _ _
      have hbr := @snm_forward_bridge t s (M.seg j).pIdx
        (M.seg ((j + 1) % M.segs.length)).pIdx ((M.seg j).fwd.getD (ms - 1) 0) true
        ((M.seg j).fwd.drop ms) hpar (h.boundary hj).2.2.1 hcollarg hbndprev hnenil
      rw [hbr]
      obtain ⟨hnc, hpt⟩ := @snmForwardCore_pointwise t M h j ms hj hms1 hms
      exact getRawTour_congr h hnc hpt
    | false =>
      by_cases hlaste : ms + 1 = (M.seg j).fwd.length
      · have hempt : (if (false : Bool) then [s] else []) ++
            collectWhileSameParent t (M.seg j).pIdx true (getNext t s)
              (t.nodes.length + 1) = [] := by
          rw [hcoll0]
          show [] ++ (M.seg j).fwd.drop (ms + 1) = _
          rw [List.nil_append]
          exact List.drop_of_length_le (by omega)
        intro c hc
        rw [snm_forward_empty hpar hempt]
      · have hlt : ms + 1 < (M.seg j).fwd.length := by omega
        have hcollarg : (if (false : Bool) then [s] else []) ++
            collectWhileSameParent t (M.seg j).pIdx true (getNext t s)
              (t.nodes.length + 1) = (M.seg j).fwd.drop (ms + 1) := by
          rw [hcoll0]
          rfl
        have hnenil : (M.seg j).fwd.drop (ms + 1) ≠ [] := by
          intro hnil
          have hlen := congrArg List.length hnil
          rw [List.length_drop, List.length_nil] at hlen
          omega
        have hbr := @snm_forward_bridge t s (M.seg j).pIdx
          (M.seg ((j + 1) % M.segs.length)).pIdx
          ((M.seg j).fwd.getD (ms + 1 - 1) 0) false ((M.seg j).fwd.drop (ms + 1))
          hpar (h.boundary hj).2.2.1 hcollarg hseq' hnenil
        rw [hbr]
        obtain ⟨hnc, hpt⟩ := @snmForwardCore_pointwise t M h j (ms + 1) hj
          (by omega) hlt
        exact getRawTour_congr h hnc hpt
  | backward =>
    have hjp : (j + M.segs.length - 1) % M.segs.length < M.segs.length :=
      Nat.mod_lt _ hK0
    have hjpne : (j + M.segs.length - 1) % M.segs.length ≠ j := pred_mod_ne hK2 hj
    have hNjp := h.segNodes hjp
    have hBpj : BoundaryCoh t (M.seg ((j + M.segs.length - 1) % M.segs.length))
        (M.seg j) := by
      have hb := h.boundary hjp
      rw [pred_mod_succ hK0 hj] at hb
      exact hb
    have hprevj : (t.par (M.seg j).pIdx).prev =
        (M.seg ((j + M.segs.length - 1) % M.segs.length)).pIdx := hBpj.2.2.2.1
    have hcoll0b : collectWhileSameParent t (M.seg j).pIdx false (getPrev t s)
        (t.nodes.length + 1) = ((M.seg j).fwd.take ms).reverse := by
      by_cases h0 : 1 ≤ ms
      · have hstep := segChainPrev hNj hPj (i := ms - 1) (by omega)
        have hidx : ms - 1 + 1 = ms := by omega
        rw [hidx] at hstep
        rw [hseq', hstep]
        have hc := collect_bwd_eq h hj (ms - 1) (t.nodes.length + 1)
          (by omega) (by omega)
        rw [hidx] at hc
        exact hc
      · have hms0 : ms = 0 := by omega
        rw [hms0, List.take_zero, List.reverse_nil]
        rw [hseq', hms0, ← (M.seg j).fb_eq_fwd_getD hNj.1]
        rw [getPrev_fb hNjp hNj hPj hBpj]
        have hLp : 0 < (M.seg ((j + M.segs.length - 1) % M.segs.length)).fwd.length := by
          have h1 := List.length_pos.2 hNjp.1
          have h2 := (M.seg ((j + M.segs.length - 1) % M.segs.length)).fwd_length
          omega
        apply collect_stop
        rw [(M.seg ((j + M.segs.length - 1) % M.segs.length)).fe_eq_fwd_getD hNjp.1,
          (fwd_node_facts hNjp (by omega)).1]
        intro he
        exact hjpne (pIdx_inj h hjp hj he)
    cases incl with
    | true =>
      have htakesucc : ((M.seg j).fwd.take (ms + 1)).reverse =
          s :: ((M.seg j).fwd.take ms).reverse := by
        rw [List.take_succ, List.getElem?_eq_getElem hms, List.reverse_append]
        rw [hseq', List.getD_eq_getElem _ 0 hms]
        rfl
      have hmoved : snmMoved t s true Direction.backward = ms + 1 := by
        unfold snmMoved
        have hdirne : ¬(Direction.backward = Direction.forward) := fun hh =>
          Direction.noConfusion hh
        rw [hpar, if_neg hdirne, hcoll0b]
        show ([s] ++ ((M.seg j).fwd.take ms).reverse).length = _
        rw [List.singleton_append, ← htakesucc, List.length_reverse,
          List.length_take]
        omega
      have hd1L : ms + 1 < (M.seg j).fwd.length := by
        rw [hmoved] at hne
        omega
      have hbndb : getNext t s = (M.seg j).fwd.getD (ms + 1) 0 := by
        rw [hseq']
        exact segChain hNj hPj ms hd1L
      have hcollarg : (if (true : Bool) then [s] else []) ++
          collectWhileSameParent t (M.seg j).pIdx false (getPrev t s)
            (t.nodes.length + 1) = ((M.seg j).fwd.take (ms + 1)).reverse := by
        rw [hcoll0b]
        show [s] ++ ((M.seg j).fwd.take ms).reverse = _
        rw [List.singleton_append]
        exact htakesucc.symm
      have hnenil : ((M.seg j).fwd.take (ms + 1)).reverse ≠ [] := by
        rw [htakesucc]
        exact List.cons_ne_nil _ _
      have hbr := @snm_backward_bridge t s (M.seg j).pIdx
        (M.seg ((j + M.segs.length - 1) % M.segs.length)).pIdx
        ((M.seg j).fwd.getD (ms + 1) 0) true (((M.seg j).fwd.take (ms + 1)).reverse)
        hpar hprevj hcollarg hbndb hnenil
      rw [hbr]
      obtain ⟨hnc, hpt⟩ := @snmBackwardCore_pointwise t M h j (ms + 1) hj
        (by omega) hd1L
      exact getRawTour_congr h hnc hpt
    | false =>
      by_cases hms0 : ms = 0
      · have hempt : (if (false : Bool) then [s] else []) ++
            collectWhileSameParent t (M.seg j).pIdx false (getPrev t s)
              (t.nodes.length + 1) = [] := by
          rw [hcoll0b]
          show [] ++ ((M.seg j).fwd.take ms).reverse = _
          rw [List.nil_append, hms0, List.take_zero, List.reverse_nil]
        intro c hc
        rw [snm_backward_empty hpar hempt]
      · have hms1 : 1 ≤ ms := by omega
        have hcollarg : (if (false : Bool) then [s] else []) ++
            collectWhileSameParent t (M.seg j).pIdx false (getPrev t s)
              (t.nodes.length + 1) = ((M.seg j).fwd.take ms).reverse := by
          rw [hcoll0b]
          rfl
        have hnenil : ((M.seg j).fwd.take ms).reverse ≠ [] := by
          intro hnil
          have hlen := congrArg List.length hnil
          rw [List.length_reverse, List.length_take, List.length_nil] at hlen
          omega
        have hbr := @snm_backward_bridge t s (M.seg j).pIdx
          (M.seg ((j + M.segs.length - 1) % M.segs.length)).pIdx
          ((M.seg j).fwd.getD ms 0) false (((M.seg j).fwd.take ms).reverse)
          hpar hprevj hcollarg hseq' hnenil
        rw [hbr]
        obtain ⟨hnc, hpt⟩ := @snmBackwardCore_pointwise t M h j ms hj hms1 hms
        exact getRawTour_congr h hnc hpt

theorem claim_C5_witness :
    Coherent t14w M14 ∧ (6 : Nat) ∈ M14.tour ∧
    ((snmMoved t14w 6 true Direction.forward : Int) <
      (t14w.par ((t14w.node 6).parent)).size) ∧
    getRawTour (splitAndMerge t14w 6 true Direction.forward) 11 =
      getRawTour t14w 11 :=
  ⟨by decide, by decide, by decide,
    @claim_C5 t14w M14 (by decide) 6 true Direction.forward (by decide) (by decide)
      11 (by decide)⟩

/-- The guard clause of reverse: equal endpoints or an adjacent pair in
backward order leave the tree untouched. -/
theorem reverse_noop {t : Tree} {a b : Nat} (h : a = b ∨ getNext t b = a) :
    reverse t a b = t := by
  unfold reverse
  rw [if_pos h]

/-- The guard clause of flip: b = c or d = a leaves the tree untouched. -/
theorem flip_noop {t : Tree} {a b c d : Nat} (h : b = c ∨ d = a) :
    flip t a b c d = t := by
  unfold flip
  simp only []
  rw [if_pos h]

end TLT
